import Mathlib

/-!
Verification of the Paillier partially homomorphic encryption library
(`phe/paillier.py` together with the demo drivers `main.py` and
`enc_vector.py`).  The Python source is embedded shallowly: Python integers
become `ℤ` (Python `%` and `//` with positive divisors coincide with `Int.emod`
and `Int.ediv`), numeric scalars become `ℚ`, fallible operations return
`Option`, and the random draws made during encryption are passed in
explicitly as data.

The helper modules `phe/util.py` and `phe/encoding.py` are imported by
`phe/paillier.py` but are not part of the sources being verified, so the
functions they provide are modelled from the specification text (each such
definition carries a doc comment saying so).
-/

namespace Phe

/-- Modelled from the spec: `phe/util.py` is missing from the sources; the
spec describes `powmod(base, exp, mod)` as fast modular exponentiation,
numerically `base ^ exp mod mod`.  Implemented by binary exponentiation with
an explicit structural fuel so that it also evaluates inside the kernel. -/
def powmodAux : ℕ → ℤ → ℕ → ℤ → ℤ
  | 0, _, _, m => 1 % m
  | fuel+1, b, e, m =>
    if e = 0 then 1 % m
    else
      let h := powmodAux fuel (b * b % m) (e / 2) m
      if e % 2 = 1 then b % m * h % m else h

/-- Fast modular exponentiation, `b ^ e % m`. -/
def powmod (b : ℤ) (e : ℕ) (m : ℤ) : ℤ := powmodAux (e + 1) b e m

theorem powmodAux_eq (fuel : ℕ) : ∀ (b : ℤ) (e : ℕ) (m : ℤ), e < fuel →
    powmodAux fuel b e m = b ^ e % m := by
  induction fuel with
  | zero => intro b e m h; omega
  | succ f ih =>
    intro b e m h
    rw [powmodAux]
    by_cases he : e = 0
    · simp [he]
    · simp only [he, if_false]
      have h2 : e / 2 < f := by omega
      rw [ih (b * b % m) (e / 2) m h2]
      have hsq : (b * b % m) ^ (e / 2) % m = (b * b) ^ (e / 2) % m :=
        ((Int.mod_modEq (b * b) m).pow (e / 2)).eq
      by_cases ho : e % 2 = 1
      · simp only [ho, if_pos]
        have hstep : b % m * ((b * b % m) ^ (e / 2) % m) % m = b * (b * b) ^ (e / 2) % m := by
          rw [hsq, ← Int.mul_emod]
        rw [hstep]
        congr 1
        conv_rhs => rw [show e = 2 * (e / 2) + 1 by omega]
        rw [pow_succ, pow_mul, mul_comm]
        congr 1
        ring
      · simp only [ho, if_false]
        rw [hsq]
        congr 1
        conv_rhs => rw [show e = 2 * (e / 2) by omega]
        rw [pow_mul]
        congr 1
        ring

theorem powmod_eq (b : ℤ) (e : ℕ) (m : ℤ) : powmod b e m = b ^ e % m :=
  powmodAux_eq (e + 1) b e m (by omega)

/-- Modelled from the spec: extended Euclid on naturals, with structural
fuel.  `xgcdAux fuel a b = (g, x, y)` with `g = gcd a b` and
`a*x + b*y = g` whenever `b ≤ fuel`.  This backs the spec's `invert(a, m)`
(modular inverse), the one number-theoretic primitive the spec delegates to
a vendored big-integer library. -/
def xgcdAux : ℕ → ℕ → ℕ → ℕ × ℤ × ℤ
  | _, a, 0 => (a, 1, 0)
  | 0, a, _+1 => (a, 1, 0)
  | fuel+1, a, b+1 =>
    let quot := a / (b+1)
    let rem := a % (b+1)
    let res := xgcdAux fuel (b+1) rem
    (res.1, res.2.2, res.2.1 - quot * res.2.2)

theorem xgcdAux_spec (fuel : ℕ) : ∀ (a b : ℕ), b ≤ fuel →
    (xgcdAux fuel a b).1 = Nat.gcd a b ∧
    (a : ℤ) * (xgcdAux fuel a b).2.1 + (b : ℤ) * (xgcdAux fuel a b).2.2 =
      ((xgcdAux fuel a b).1 : ℤ) := by
  induction fuel with
  | zero =>
    intro a b hb
    interval_cases b
    simp [xgcdAux]
  | succ f ih =>
    intro a b hb
    match b with
    | 0 => simp [xgcdAux]
    | b+1 =>
      have hrem : a % (b+1) ≤ f := by
        have := Nat.mod_lt a (y := b+1) (by omega)
        omega
      obtain ⟨ihg, ihb⟩ := ih (b+1) (a % (b+1)) hrem
      have hmod : ((a % (b+1) : ℕ) : ℤ) = (a : ℤ) - ((a / (b+1) : ℕ) : ℤ) * (((b:ℕ) : ℤ) + 1) := by
        have h0 : a % (b+1) + (b+1) * (a / (b+1)) = a := Nat.mod_add_div a (b+1)
        have h1 : ((a % (b+1) : ℕ) : ℤ) + (((b:ℕ):ℤ) + 1) * ((a / (b+1) : ℕ) : ℤ) = (a : ℤ) := by
          exact_mod_cast congrArg (Nat.cast : ℕ → ℤ) h0
        linarith
      rw [xgcdAux]
      refine ⟨?_, ?_⟩
      · show (xgcdAux f (b+1) (a % (b+1))).1 = Nat.gcd a (b+1)
        rw [ihg, Nat.gcd_comm (b+1), ← Nat.gcd_rec, Nat.gcd_comm]
      · show (a : ℤ) * (xgcdAux f (b+1) (a % (b+1))).2.2 +
          ((b+1 : ℕ) : ℤ) * ((xgcdAux f (b+1) (a % (b+1))).2.1 -
            ((a / (b+1) : ℕ) : ℤ) * (xgcdAux f (b+1) (a % (b+1))).2.2) =
          ((xgcdAux f (b+1) (a % (b+1))).1 : ℤ)
        rw [hmod] at ihb
        push_cast at ihb ⊢
        linear_combination ihb

/-- Modelled from the spec: `invert(a, m)` returns the modular inverse of `a`
mod `m` (the vendored `invmod`).  Computed from the extended Euclidean
algorithm and reduced into `[0, m)`. -/
def invert (a m : ℤ) : ℤ :=
  (xgcdAux m.toNat (a % m).toNat m.toNat).2.1 % m

theorem invert_spec {a m : ℤ} (hm : 1 < m) (h : Int.gcd a m = 1) :
    0 ≤ invert a m ∧ invert a m < m ∧ a * invert a m ≡ 1 [ZMOD m] := by
  have hm0 : (0:ℤ) < m := by omega
  have hmod_nonneg : 0 ≤ a % m := Int.emod_nonneg a (by omega)
  have hmod_lt : a % m < m := Int.emod_lt_of_pos a hm0
  set a' : ℕ := (a % m).toNat with ha'
  set m' : ℕ := m.toNat with hm'
  have ha'cast : (a' : ℤ) = a % m := Int.toNat_of_nonneg hmod_nonneg
  have hm'cast : (m' : ℤ) = m := Int.toNat_of_nonneg (by omega)
  have hb : m' ≤ m' := le_refl _
  obtain ⟨hg, hbez⟩ := xgcdAux_spec m' a' m' hb
  -- the gcd of `a % m` and `m` is the gcd of `a` and `m`, which is `1`
  have hcop : Nat.gcd a' m' = 1 := by
    have h1 : IsCoprime a m := Int.isCoprime_iff_gcd_eq_one.mpr h
    have h2 : IsCoprime (a % m) m := by
      have := h1.add_mul_left_left (-(a / m))
      have heq : a + m * -(a / m) = a % m := by
        rw [Int.emod_def]; ring
      rwa [heq] at this
    have h3 : Int.gcd (a % m) m = 1 := Int.isCoprime_iff_gcd_eq_one.mp h2
    have e1 : (a % m).natAbs = a' := by omega
    have e2 : m.natAbs = m' := by omega
    rw [Int.gcd, e1, e2] at h3
    exact h3
  have hx : (a' : ℤ) * (xgcdAux m' a' m').2.1 + m * (xgcdAux m' a' m').2.2 = 1 := by
    rw [← hm'cast, hbez, hg, hcop]
    norm_num
  refine ⟨Int.emod_nonneg _ (by omega), Int.emod_lt_of_pos _ hm0, ?_⟩
  -- a * (x % m) ≡ a * x ≡ a' * x ≡ 1  [ZMOD m]
  have step1 : a * invert a m ≡ a * (xgcdAux m' a' m').2.1 [ZMOD m] := by
    unfold invert
    exact (Int.mod_modEq _ m).mul_left a
  have step2 : a * (xgcdAux m' a' m').2.1 ≡ (a' : ℤ) * (xgcdAux m' a' m').2.1 [ZMOD m] := by
    refine Int.ModEq.mul_right _ ?_
    rw [ha'cast]
    exact (Int.mod_modEq a m).symm
  have step3 : (a' : ℤ) * (xgcdAux m' a' m').2.1 ≡ 1 [ZMOD m] := by
    rw [← hx]
    exact Int.modEq_add_fac_self.symm
  exact step1.trans (step2.trans step3)

/-- Modelled from the spec: `isqrt(x)`, exact floor integer square root.
Implemented as a fuel-driven climb so that it evaluates in the kernel. -/
def isqrtAux : ℕ → ℕ → ℕ
  | 0, _ => 0
  | f+1, n =>
    let r := isqrtAux f n
    if (r+1)*(r+1) ≤ n then r+1 else r

theorem isqrtAux_sq_le (f n : ℕ) : (isqrtAux f n) * (isqrtAux f n) ≤ n := by
  induction f with
  | zero => simp [isqrtAux]
  | succ f ih =>
    rw [isqrtAux]
    by_cases h : (isqrtAux f n + 1) * (isqrtAux f n + 1) ≤ n
    · rw [if_pos h]; exact h
    · simp only [h, if_false]
      exact ih

theorem isqrtAux_lt_or_fuel (f n : ℕ) :
    n < (isqrtAux f n + 1) * (isqrtAux f n + 1) ∨ isqrtAux f n = f := by
  induction f with
  | zero => right; rfl
  | succ f ih =>
    rw [isqrtAux]
    by_cases h : (isqrtAux f n + 1) * (isqrtAux f n + 1) ≤ n
    · rcases ih with ih | ih
      · exact absurd h (by linarith)
      · right
        simp only [ih] at h ⊢
        rw [if_pos h]
    · left
      simp only [h, if_false]
      omega

/-- Floor integer square root of a (nonnegative) integer. -/
def isqrt (x : ℤ) : ℤ := (isqrtAux x.toNat x.toNat : ℕ)

theorem isqrtAux_spec (n : ℕ) :
    (isqrtAux n n) * (isqrtAux n n) ≤ n ∧ n < (isqrtAux n n + 1) * (isqrtAux n n + 1) := by
  refine ⟨isqrtAux_sq_le n n, ?_⟩
  rcases isqrtAux_lt_or_fuel n n with h | h
  · exact h
  · have := isqrtAux_sq_le n n
    rw [h] at this ⊢
    nlinarith

/-- the floor square root of a perfect square is exact -/
theorem isqrt_sq (k : ℤ) (hk : 0 ≤ k) : isqrt (k * k) = k := by
  set K := k.toNat with hK
  have hcast : (K : ℤ) = k := Int.toNat_of_nonneg hk
  have harg : (k * k).toNat = K * K := by
    rw [← hcast, ← Nat.cast_mul, Int.toNat_natCast]
  unfold isqrt
  rw [harg]
  obtain ⟨h1, h2⟩ := isqrtAux_spec (K * K)
  set r := isqrtAux (K * K) (K * K) with hr
  have : r = K := by nlinarith
  rw [this, hcast]

/-- Modelled from the spec: optimized modular multiply, numerically
`(a*b) mod m`. -/
def mul_mod (a b m : ℤ) : ℤ := a * b % m

/-- Modelled from the spec: optimized reduction, numerically `a mod m`. -/
def mod (a m : ℤ) : ℤ := a % m

/-- Modelled from the spec: optimized multiply, numerically `a*b`. -/
def mul (a b : ℤ) : ℤ := a * b

/-- Modelled from the spec: backs CRT recombination and must be numerically
equivalent to `(a*b) mod m`. -/
def mul_mod_new (a b m : ℤ) : ℤ := a * b % m

/-- Modelled from the spec: Python's `int.bit_length`, used by the key
generation loop to insist on an exact modulus bit length.  Fuel-driven so
that it evaluates in the kernel. -/
def bitLenAux : ℕ → ℕ → ℕ
  | 0, _ => 0
  | f+1, n => if n = 0 then 0 else bitLenAux f (n / 2) + 1

def bit_length (x : ℤ) : ℕ := bitLenAux (x.toNat + 1) x.toNat

theorem bitLenAux_spec (f : ℕ) : ∀ n : ℕ, 0 < n → n < f →
    2 ^ (bitLenAux f n - 1) ≤ n ∧ n < 2 ^ (bitLenAux f n) := by
  induction f with
  | zero => intro n h1 h2; omega
  | succ f ih =>
    intro n h1 h2
    rw [bitLenAux]
    simp only [Nat.pos_iff_ne_zero.mp h1, if_false]
    by_cases hsmall : n = 1
    · subst hsmall
      simp [bitLenAux]
      rcases f with _ | f
      · omega
      · rw [bitLenAux]; norm_num
    · have hge2 : 2 ≤ n := by omega
      have hpos : 0 < n / 2 := by omega
      have hlt : n / 2 < f := by omega
      obtain ⟨ih1, ih2⟩ := ih (n / 2) hpos hlt
      have hb : 1 ≤ bitLenAux f (n / 2) := by
        by_contra hc
        have : bitLenAux f (n / 2) = 0 := by omega
        rw [this] at ih2
        omega
      constructor
      · have : 2 ^ (bitLenAux f (n / 2) + 1 - 1) = 2 * 2 ^ (bitLenAux f (n / 2) - 1) := by
          rw [Nat.add_sub_cancel, ← pow_succ']
          congr 1
          omega
        rw [this]
        omega
      · have : 2 ^ (bitLenAux f (n / 2) + 1) = 2 * 2 ^ (bitLenAux f (n / 2)) := by
          rw [← pow_succ']
        rw [this]
        omega

theorem bit_length_spec {x : ℤ} (hx : 0 < x) :
    2 ^ (bit_length x - 1) ≤ x.toNat ∧ x.toNat < 2 ^ (bit_length x) := by
  unfold bit_length
  exact bitLenAux_spec (x.toNat + 1) x.toNat (by omega) (by omega)

/-- Modelled from the spec: the fixed-point radix shared by the scalar and
vector encodings (`phe/encoding.py` is missing from the sources).  The spec
fixes it as a constant but does not pin its value; `16` is used here. -/
def BASE : ℤ := 16

/-- Modelled from the spec: fixed-point representation
`(n, max_int, encoding ∈ [0,n), exponent)`; value is
`encoding · BASE^exponent` folded modulo `n` for sign. -/
structure EncodedNumber where
  n : ℤ
  max_int : ℤ
  encoding : ℤ
  exponent : ℤ

/-- Modelled from the spec: `encode` stores `round(value / BASE^exponent)`
(wrapped into `[0,n)` for sign) at the caller-chosen `exponent`; it fails if
the mapped magnitude exceeds `max_int`.  The exponent-selection policy
(natural exponent of the value, capped by `max_exponent`) lives in the
callers, which pass the chosen exponent explicitly. -/
def EncodedNumber.encode (n max_int : ℤ) (value : ℚ) (exponent : ℤ) :
    Option EncodedNumber :=
  let mant : ℤ := round (value / (BASE : ℚ) ^ exponent)
  if |mant| ≤ max_int then some ⟨n, max_int, mant % n, exponent⟩ else none

/-- Modelled from the spec: `decode` distinguishes the negative half
(`encoding ≥ n − max_int`) from the positive half (`encoding ≤ max_int`)
before returning the signed value; residues in neither half (overflowed
arithmetic) and residues `≥ n` are rejected. -/
def EncodedNumber.decode (x : EncodedNumber) : Option ℚ :=
  if x.n ≤ x.encoding then none
  else if x.encoding ≤ x.max_int then
    some ((x.encoding : ℚ) * (BASE : ℚ) ^ x.exponent)
  else if x.n - x.max_int ≤ x.encoding then
    some (((x.encoding - x.n : ℤ) : ℚ) * (BASE : ℚ) ^ x.exponent)
  else none

/-- Modelled from the spec: rescaling an encoding to a more negative
exponent multiplies the stored integer by the matching power of `BASE`
(keeping it reduced mod `n`); asking for a larger exponent fails. -/
def EncodedNumber.decrease_exponent_to (x : EncodedNumber) (new_exp : ℤ) :
    Option EncodedNumber :=
  if x.exponent < new_exp then none
  else some ⟨x.n, x.max_int, x.encoding * BASE ^ (x.exponent - new_exp).toNat % x.n, new_exp⟩

/-- Modelled from the spec: array-valued counterpart of `EncodedNumber`;
one shared exponent for the whole array. -/
structure EncodedVector where
  n : ℤ
  max_int : ℤ
  encoding : List ℤ
  exponent : ℤ

/-- Modelled from the spec: element-wise encoding at one shared exponent
(sized by the caller for the worst-case element); fails if any element's
mapped magnitude exceeds `max_int`. -/
def EncodedVector.encode (n max_int : ℤ) (values : List ℚ) (exponent : ℤ) :
    Option EncodedVector :=
  let mants : List ℤ := values.map fun v => round (v / (BASE : ℚ) ^ exponent)
  if mants.all fun m => |m| ≤ max_int then
    some ⟨n, max_int, mants.map (· % n), exponent⟩
  else none

/-- Modelled from the spec: element-wise decode sharing one exponent. -/
def EncodedVector.decode (x : EncodedVector) : Option (List ℚ) :=
  x.encoding.mapM fun enc => EncodedNumber.decode ⟨x.n, x.max_int, enc, x.exponent⟩

/-- Public key as built by `PaillierPublicKey.__init__`: modulus `n`,
generator `g = n+1`, `n²`, safe bound `max_int = n // 3 - 1`, optional
precomputed blinding table, noise count and key bit length. -/
structure PaillierPublicKey where
  n : ℤ
  g : ℤ
  nsquare : ℤ
  max_int : ℤ
  r_pow_n_l : Option (List ℤ)
  noise : ℕ
  n_length : ℕ

/-- the `__init__` constructor (`g = n + 1`, `nsquare = n * n`,
`max_int = n // 3 - 1`) -/
def PaillierPublicKey.mk' (n : ℤ) (r_pow_n_l : Option (List ℤ) := none)
    (n_length : ℕ := 2048) (noise : ℕ := 3) : PaillierPublicKey :=
  ⟨n, n + 1, n * n, n / 3 - 1, r_pow_n_l, noise, n_length⟩

/-- The random draws consumed by one call to `raw_encrypt`: the table
indices picked by `randint(1, 16383)` when a blinding table is present, or
the fresh base `r` drawn by `get_random_lt_n` otherwise. -/
structure EncRand where
  idxs : List ℕ
  r : ℤ

/-- the blinding table actually consulted: Python's truthiness test
`if self.r_pow_n_l:` treats both `None` and an empty list as absent -/
def PaillierPublicKey.table (pk : PaillierPublicKey) : List ℤ :=
  pk.r_pow_n_l.getD []

/-- the obfuscator computed by `raw_encrypt`: the product of `noise`
randomly indexed table entries mod `n²` when a table is present, else
`r ^ n mod n²` for a fresh random `r` -/
def PaillierPublicKey.obfuscator (pk : PaillierPublicKey) (rand : EncRand) : ℤ :=
  if pk.table = [] then powmod rand.r pk.n.toNat pk.nsquare
  else rand.idxs.foldl (fun acc i => mul_mod acc (pk.table.getD i 0) pk.nsquare) 1

/-- `PaillierPublicKey.raw_encrypt`.  The `r_value` parameter is accepted
(as in the source) but never read: the nude ciphertext uses the
`(n+1)^m = n·m + 1 (mod n²)` identity (with the inversion shortcut for
encodings in the top `max_int` band below `n`), and the obfuscator comes
from the random draws only. -/
def PaillierPublicKey.raw_encrypt (pk : PaillierPublicKey) (plaintext : ℤ)
    (r_value : Option ℤ) (rand : EncRand) : ℤ :=
  let nude_ciphertext :=
    if pk.n - pk.max_int ≤ plaintext ∧ plaintext < pk.n then
      invert (mod (mul pk.n (pk.n - plaintext) + 1) pk.nsquare) pk.nsquare
    else
      mod (mul pk.n plaintext + 1) pk.nsquare
  mul_mod nude_ciphertext (pk.obfuscator rand) pk.nsquare

/-- Scalar ciphertext `(n, n², max_int, ciphertext, exponent)`. -/
structure EncryptedNumber where
  n : ℤ
  nsquare : ℤ
  max_int : ℤ
  ciphertext : ℤ
  exponent : ℤ

/-- `PaillierPublicKey.encrypt_encoded`: raw-encrypt the encoding (the
forwarded `r_value or 1` is ignored by `raw_encrypt`) and wrap it with the
encoding's exponent. -/
def PaillierPublicKey.encrypt_encoded (pk : PaillierPublicKey)
    (encoding : EncodedNumber) (r_value : Option ℤ) (rand : EncRand) :
    EncryptedNumber :=
  ⟨pk.n, pk.nsquare, pk.max_int,
    pk.raw_encrypt encoding.encoding (some (r_value.getD 1)) rand,
    encoding.exponent⟩

/-- `PaillierPublicKey.encrypt`: encode (at the chosen exponent) then
encrypt. -/
def PaillierPublicKey.encrypt (pk : PaillierPublicKey) (value : ℚ)
    (exponent : ℤ) (r_value : Option ℤ) (rand : EncRand) :
    Option EncryptedNumber :=
  (EncodedNumber.encode pk.n pk.max_int value exponent).map fun enc =>
    pk.encrypt_encoded enc r_value rand

/-- Vector ciphertext: same fields as `EncryptedNumber` but holding a list
of residues mod `n²`. -/
structure EncryptedVector where
  n : ℤ
  nsquare : ℤ
  max_int : ℤ
  ciphertext : List ℤ
  exponent : ℤ

/-- structural helper for mapping with indices (`i`-th element gets the
`i`-th random draw) -/
def mapIdxGo (f : ℕ → ℤ → ℤ) : ℕ → List ℤ → List ℤ
  | _, [] => []
  | i, a :: as => f i a :: mapIdxGo f (i + 1) as

/-- `PaillierPublicKey.encrypt_encoded_new`: raw-encrypt each encoded
element independently. -/
def PaillierPublicKey.encrypt_encoded_new (pk : PaillierPublicKey)
    (encoding : EncodedVector) (rands : ℕ → EncRand) : EncryptedVector :=
  ⟨pk.n, pk.nsquare, pk.max_int,
    mapIdxGo (fun i m => pk.raw_encrypt m none (rands i)) 0 encoding.encoding,
    encoding.exponent⟩

/-- `PaillierPublicKey.encrypt_new`: vector encode-then-encrypt. -/
def PaillierPublicKey.encrypt_new (pk : PaillierPublicKey) (values : List ℚ)
    (exponent : ℤ) (rands : ℕ → EncRand) : Option EncryptedVector :=
  (EncodedVector.encode pk.n pk.max_int values exponent).map fun enc =>
    pk.encrypt_encoded_new enc rands

/-- `PaillierPrivateKey.l_function`: `L(x, p) = (x - 1) // p`. -/
def l_function (x p : ℤ) : ℤ := (x - 1) / p

/-- `PaillierPrivateKey.h_function` for prime `x` (with `xsquare = x²`),
using the public generator `g`. -/
def h_function (g x xsquare : ℤ) : ℤ :=
  invert (l_function (powmod g (x - 1).toNat xsquare) x) x

/-- Private key: public key, normalized primes `p < q`, their squares, the
CRT cross-inverse `p⁻¹ mod q` and the precomputed `h` values. -/
structure PaillierPrivateKey where
  public_key : PaillierPublicKey
  p : ℤ
  q : ℤ
  psquare : ℤ
  qsquare : ℤ
  p_inverse : ℤ
  hp : ℤ
  hq : ℤ

/-- `PaillierPrivateKey.__init__`: fails unless `p * q = n` and `p ≠ q`;
normalizes `p < q` and precomputes the decryption constants. -/
def PaillierPrivateKey.mk' (public_key : PaillierPublicKey) (p q : ℤ) :
    Option PaillierPrivateKey :=
  if p * q ≠ public_key.n then none
  else if p = q then none
  else
    let p' := if q < p then q else p
    let q' := if q < p then p else q
    some ⟨public_key, p', q', p' * p', q' * q', invert p' q',
      h_function public_key.g p' (p' * p'), h_function public_key.g q' (q' * q')⟩

/-- `PaillierPrivateKey.from_totient`: reconstruct `p, q` from the totient
via `p+q = n - totient + 1` and `p-q = isqrt((p+q)² - 4n)`; fails if the
reconstruction does not multiply back to `n`. -/
def PaillierPrivateKey.from_totient (public_key : PaillierPublicKey)
    (totient : ℤ) : Option PaillierPrivateKey :=
  let p_plus_q := public_key.n - totient + 1
  let p_minus_q := isqrt (p_plus_q * p_plus_q - public_key.n * 4)
  let q := (p_plus_q - p_minus_q) / 2
  let p := p_plus_q - q
  if p * q ≠ public_key.n then none
  else PaillierPrivateKey.mk' public_key p q

/-- `PaillierPrivateKey.crt`: `m_p + ((m_q - m_p) · p⁻¹ mod q) · p`. -/
def PaillierPrivateKey.crt (sk : PaillierPrivateKey) (mp mq : ℤ) : ℤ :=
  mp + mul_mod_new (mq - mp) sk.p_inverse sk.q * sk.p

/-- `PaillierPrivateKey.raw_decrypt`: CRT decryption using the `h`
constants. -/
def PaillierPrivateKey.raw_decrypt (sk : PaillierPrivateKey) (ciphertext : ℤ) : ℤ :=
  let decrypt_to_p :=
    mul_mod (l_function (powmod ciphertext (sk.p - 1).toNat sk.psquare) sk.p) sk.hp sk.p
  let decrypt_to_q :=
    mul_mod (l_function (powmod ciphertext (sk.q - 1).toNat sk.qsquare) sk.q) sk.hq sk.q
  sk.crt decrypt_to_p decrypt_to_q

/-- `PaillierPrivateKey.decrypt_encoded`: key-mismatch check then raw
decryption, wrapped as an encoding. -/
def PaillierPrivateKey.decrypt_encoded (sk : PaillierPrivateKey)
    (en : EncryptedNumber) : Option EncodedNumber :=
  if sk.public_key.n ≠ en.n then none
  else some ⟨sk.public_key.n, sk.public_key.max_int,
    sk.raw_decrypt en.ciphertext, en.exponent⟩

/-- `PaillierPrivateKey.decrypt`: decrypt then decode. -/
def PaillierPrivateKey.decrypt (sk : PaillierPrivateKey)
    (en : EncryptedNumber) : Option ℚ :=
  (sk.decrypt_encoded en).bind EncodedNumber.decode

/-- `PaillierPrivateKey.decrypt_encoded_new`: vector analogue. -/
def PaillierPrivateKey.decrypt_encoded_new (sk : PaillierPrivateKey)
    (ev : EncryptedVector) : Option EncodedVector :=
  if sk.public_key.n ≠ ev.n then none
  else some ⟨sk.public_key.n, sk.public_key.max_int,
    ev.ciphertext.map sk.raw_decrypt, ev.exponent⟩

/-- `PaillierPrivateKey.decrypt_new`: decrypt each element then decode. -/
def PaillierPrivateKey.decrypt_new (sk : PaillierPrivateKey)
    (ev : EncryptedVector) : Option (List ℚ) :=
  (sk.decrypt_encoded_new ev).bind EncodedVector.decode

/-- `EncryptedNumber._raw_add`: combine two raw ciphertexts by modular
multiplication mod `n²`. -/
def EncryptedNumber.raw_add (a : EncryptedNumber) (e_a e_b : ℤ) : ℤ :=
  mul_mod e_a e_b a.nsquare

/-- `EncryptedNumber._raw_encrypt`: the nude (unobfuscated) encryption used
when adding an encoded value into a ciphertext. -/
def EncryptedNumber.raw_encrypt (a : EncryptedNumber) (plaintext : ℤ) : ℤ :=
  if a.n - a.max_int ≤ plaintext ∧ plaintext < a.n then
    invert (mod (mul a.n (a.n - plaintext) + 1) a.nsquare) a.nsquare
  else
    mod (mul a.n plaintext + 1) a.nsquare

/-- `EncryptedNumber._raw_mul`: raise the ciphertext to the encoded scalar
power mod `n²`, with the inversion shortcut when the scalar encoding lies
within `max_int` of `n`; scalars outside `[0, n)` are rejected. -/
def EncryptedNumber.raw_mul (a : EncryptedNumber) (plaintext : ℤ) : Option ℤ :=
  if plaintext < 0 ∨ a.n ≤ plaintext then none
  else if a.n - a.max_int ≤ plaintext then
    some (powmod (invert a.ciphertext a.nsquare) (a.n - plaintext).toNat a.nsquare)
  else
    some (powmod a.ciphertext plaintext.toNat a.nsquare)

/-- `EncryptedNumber.__mul__` by a scalar: encode the scalar (at its natural
exponent `ke`), raise the ciphertext to the encoded power, add exponents. -/
def EncryptedNumber.mul_scalar (a : EncryptedNumber) (k : ℚ) (ke : ℤ) :
    Option EncryptedNumber := do
  let enc ← EncodedNumber.encode a.n a.max_int k ke
  let product ← a.raw_mul enc.encoding
  some ⟨a.n, a.nsquare, a.max_int, product, a.exponent + enc.exponent⟩

/-- `EncryptedNumber.decrease_exponent_to`: fails when asked to increase
the exponent; otherwise multiplies by `BASE^(old - new)` and forces the new
exponent. -/
def EncryptedNumber.decrease_exponent_to (a : EncryptedNumber) (new_exp : ℤ) :
    Option EncryptedNumber :=
  if a.exponent < new_exp then none
  else
    (a.mul_scalar ((BASE : ℚ) ^ (a.exponent - new_exp).toNat) 0).map fun m =>
      ⟨m.n, m.nsquare, m.max_int, m.ciphertext, new_exp⟩

/-- `EncryptedNumber._add_encoded`: key-mismatch check, exponent
reconciliation, then nude-encrypt the encoding and multiply it in. -/
def EncryptedNumber.add_encoded (a0 : EncryptedNumber) (b0 : EncodedNumber) :
    Option EncryptedNumber :=
  if a0.n ≠ b0.n then none
  else do
    let (a, b) ←
      if b0.exponent < a0.exponent then do
        let a ← a0.decrease_exponent_to b0.exponent
        pure (a, b0)
      else if a0.exponent < b0.exponent then do
        let b ← b0.decrease_exponent_to a0.exponent
        pure (a0, b)
      else pure (a0, b0)
    let encrypted_scalar := a.raw_encrypt b.encoding
    some ⟨a.n, a.nsquare, a.max_int, a.raw_add a.ciphertext encrypted_scalar, a.exponent⟩

/-- `EncryptedNumber._add_scalar`: encode the scalar with
`max_exponent = self.exponent` (the scalar's natural exponent is `ke`),
then add the encoding. -/
def EncryptedNumber.add_scalar (a : EncryptedNumber) (scalar : ℚ) (ke : ℤ) :
    Option EncryptedNumber :=
  (EncodedNumber.encode a.n a.max_int scalar (min ke a.exponent)).bind a.add_encoded

/-- `EncryptedNumber._add_encrypted`: key-mismatch check, exponent
reconciliation, then modular multiplication of the two ciphertexts. -/
def EncryptedNumber.add_encrypted (a0 b0 : EncryptedNumber) :
    Option EncryptedNumber :=
  if a0.n ≠ b0.n then none
  else do
    let (a, b) ←
      if b0.exponent < a0.exponent then do
        let a ← a0.decrease_exponent_to b0.exponent
        pure (a, b0)
      else if a0.exponent < b0.exponent then do
        let b ← b0.decrease_exponent_to a0.exponent
        pure (a0, b)
      else pure (a0, b0)
    some ⟨a.n, a.nsquare, a.max_int, a.raw_add a.ciphertext b.ciphertext, a.exponent⟩

/-- `EncryptedVector._raw_add` (the right operand is coerced to `int` in
the source; both are already integers here). -/
def EncryptedVector.raw_add (a : EncryptedVector) (e_a e_b : ℤ) : ℤ :=
  mul_mod e_a e_b a.nsquare

/-- `EncryptedVector._raw_mul_2`: `_raw_mul` on an explicitly passed
element ciphertext. -/
def EncryptedVector.raw_mul_2 (a : EncryptedVector) (ciphertext plaintext : ℤ) :
    Option ℤ :=
  if plaintext < 0 ∨ a.n ≤ plaintext then none
  else if a.n - a.max_int ≤ plaintext then
    some (powmod (invert ciphertext a.nsquare) (a.n - plaintext).toNat a.nsquare)
  else
    some (powmod ciphertext plaintext.toNat a.nsquare)

/-- `EncryptedVector.__mul__` with a scalar operand: encode `[k]`, raise
every element to the single encoded power. -/
def EncryptedVector.mul_scalar (a : EncryptedVector) (k : ℚ) (ke : ℤ) :
    Option EncryptedVector := do
  let enc ← EncodedVector.encode a.n a.max_int [k] ke
  let k0 ← enc.encoding.head?
  let product ← a.ciphertext.mapM fun c => a.raw_mul_2 c k0
  some ⟨a.n, a.nsquare, a.max_int, product, a.exponent + enc.exponent⟩

/-- `EncryptedVector.__mul__` with a sequence operand: lengths must match
(`TypeError` otherwise), then element-wise powers. -/
def EncryptedVector.mul_seq (a : EncryptedVector) (others : List ℚ) (ke : ℤ) :
    Option EncryptedVector :=
  if others.length = a.ciphertext.length then do
    let enc ← EncodedVector.encode a.n a.max_int others ke
    let product ← (a.ciphertext.zip enc.encoding).mapM fun cm =>
      a.raw_mul_2 cm.1 cm.2
    some ⟨a.n, a.nsquare, a.max_int, product, a.exponent + enc.exponent⟩
  else none

/-- `EncryptedVector.decrease_exponent_to`: multiply by `BASE^(old - new)`
then force the exponent. -/
def EncryptedVector.decrease_exponent_to (a : EncryptedVector) (new_exp : ℤ) :
    Option EncryptedVector :=
  if a.exponent < new_exp then none
  else
    (a.mul_scalar ((BASE : ℚ) ^ (a.exponent - new_exp).toNat) 0).map fun m =>
      ⟨m.n, m.nsquare, m.max_int, m.ciphertext, new_exp⟩

/-- `EncryptedVector._add_encrypted`: key-mismatch check and exponent
reconciliation, then element-wise modular multiplication over the indices
of the LEFT operand only — the source never compares lengths: a longer
right operand is silently truncated, while a shorter one hits an
out-of-range index (`IndexError`, modelled as `none`). -/
def EncryptedVector.add_encrypted (a0 b0 : EncryptedVector) :
    Option EncryptedVector :=
  if a0.n ≠ b0.n then none
  else do
    let (a, b) ←
      if b0.exponent < a0.exponent then do
        let a ← a0.decrease_exponent_to b0.exponent
        pure (a, b0)
      else if a0.exponent < b0.exponent then do
        let b ← b0.decrease_exponent_to a0.exponent
        pure (a0, b)
      else pure (a0, b0)
    let sum_ciphertext ← (List.range a.ciphertext.length).mapM fun i =>
      (b.ciphertext.get? i).map fun bc => a.raw_add (a.ciphertext.getD i 0) bc
    some ⟨a.n, a.nsquare, a.max_int, sum_ciphertext, a.exponent⟩

/-- `EncryptedVector.sum`: reinterpret the flat residue list as a
`(row, colum)` grid; `dim = 1` folds each row, `dim = 0` folds each column,
both starting from the multiplicative unit `1`; any other `dim` raises
`ValueError`. -/
def EncryptedVector.sum (a : EncryptedVector) (shape : List ℕ) (dim : ℕ) :
    Option EncryptedVector := do
  let shape := if shape.length = 1 then [1, shape.getD 0 0] else shape
  let row := shape.getD 0 0
  let colum := shape.getD 1 0
  if dim = 0 then
    let sums ← (List.range colum).mapM fun i =>
      (List.range row).foldlM (fun acc j =>
        (a.ciphertext.get? (i + colum * j)).map fun c => a.raw_add acc c) 1
    some ⟨a.n, a.nsquare, a.max_int, sums, a.exponent⟩
  else if dim = 1 then
    let sums ← (List.range row).mapM fun i =>
      (List.range colum).foldlM (fun acc j =>
        (a.ciphertext.get? (colum * i + j)).map fun c => a.raw_add acc c) 1
    some ⟨a.n, a.nsquare, a.max_int, sums, a.exponent⟩
  else none

/-- `EncryptedVector.bind_to_vector`: takes the first residue of every
input vector and shares the first input's parameters.  The source's length
check `assert (f"...")` asserts a non-empty string literal, which is always
truthy, so no length restriction is enforced; only genuinely missing first
elements (`IndexError`) can fail. -/
def EncryptedVector.bind_to_vector (cipher_list : List EncryptedVector) :
    Option EncryptedVector := do
  let tmp ← cipher_list.head?
  let product ← cipher_list.mapM fun v => v.ciphertext.head?
  some ⟨tmp.n, tmp.nsquare, tmp.max_int, product, tmp.exponent⟩

/-- `generate_keys` sampling loop over an explicit stream of prime samples
(the random draws of `getprimeover`): draw `p`, redraw `q` while `q = p`,
accept when `(p*q).bit_length() == n_length`, else restart. -/
def genLoop (n_length : ℕ) (pending : Option ℤ) : List ℤ → Option (ℤ × ℤ × ℤ)
  | [] => none
  | x :: rest =>
    match pending with
    | none => genLoop n_length (some x) rest
    | some p =>
      if x = p then genLoop n_length (some p) rest
      else if bit_length (p * x) = n_length then some (p, x, p * x)
      else genLoop n_length none rest

/-- kernel-friendly divisor search by binary splitting (shallow recursion):
`noDivAux n fuel lo len` is `true` when no `d` with `lo ≤ d < lo + len`
divides `n`; used to certify the concrete primes of the witnesses -/
def noDivAux (n : ℕ) : ℕ → ℕ → ℕ → Bool
  | 0, _, _ => false
  | f+1, lo, len =>
    if len = 0 then true
    else if len = 1 then !(n % lo == 0)
    else noDivAux n f lo (len / 2) && noDivAux n f (lo + len / 2) (len - len / 2)

/-! ### Core correctness of the Paillier arithmetic -/

/-- binomial congruence: `(1+x)^k ≡ 1 + k·x (mod M)` whenever `M ∣ x²` -/
theorem one_add_mul_pow (x M : ℤ) (hM : M ∣ x * x) :
    ∀ k : ℕ, (1 + x) ^ k ≡ 1 + (k : ℤ) * x [ZMOD M] := by
  intro k
  induction k with
  | zero => simp
  | succ k ih =>
    obtain ⟨d, hd⟩ := hM
    calc (1 + x) ^ (k + 1) = (1 + x) ^ k * (1 + x) := pow_succ _ _
      _ ≡ (1 + (k : ℤ) * x) * (1 + x) [ZMOD M] := ih.mul_right _
      _ = 1 + ((k : ℕ) + 1 : ℤ) * x + (x * x) * k := by push_cast; ring
      _ = 1 + ((k + 1 : ℕ) : ℤ) * x + M * (d * k) := by rw [hd]; push_cast; ring
      _ ≡ 1 + ((k + 1 : ℕ) : ℤ) * x [ZMOD M] := Int.modEq_add_fac_self

theorem prime_not_dvd_prime {a b : ℤ} (ha : Prime a) (hb : Prime b)
    (ha0 : 0 < a) (hb0 : 0 < b) (hne : a ≠ b) : ¬ a ∣ b := by
  intro h
  have h1 : a.natAbs ∣ b.natAbs := Int.natAbs_dvd_natAbs.mpr h
  have ha' : Nat.Prime a.natAbs := Int.prime_iff_natAbs_prime.mp ha
  have hb' : Nat.Prime b.natAbs := Int.prime_iff_natAbs_prime.mp hb
  have := (Nat.prime_dvd_prime_iff_eq ha' hb').mp h1
  omega

theorem not_dvd_of_gcd_one {a s n : ℤ} (ha1 : 1 < a) (hdvd : a ∣ n)
    (h : Int.gcd s n = 1) : ¬ a ∣ s := by
  intro hs
  have h2 : a ∣ (Int.gcd s n : ℤ) := Int.dvd_gcd hs hdvd
  rw [h] at h2
  have := Int.le_of_dvd one_pos h2
  omega

theorem gcd_primes_eq_one {a b : ℤ} (ha : Prime a) (hb : Prime b)
    (ha1 : 1 < a) (hb1 : 1 < b) (hne : a ≠ b) : Int.gcd a b = 1 :=
  Int.isCoprime_iff_gcd_eq_one.mp
    ((ha.coprime_iff_not_dvd).mpr (prime_not_dvd_prime ha hb (by omega) (by omega) hne))

/-- lifting Fermat's little theorem to the prime square -/
theorem fermat_sq {p : ℤ} (hp : Prime p) (hp1 : 1 < p) {s : ℤ} (hs : ¬ p ∣ s) :
    s ^ ((p.toNat - 1) * p.toNat) ≡ 1 [ZMOD p * p] := by
  set P := p.toNat with hPdef
  have hPcast : (P : ℤ) = p := Int.toNat_of_nonneg (by omega)
  have hPp : Nat.Prime P := by
    have h1 := Int.prime_iff_natAbs_prime.mp hp
    have h2 : p.natAbs = P := by omega
    rwa [h2] at h1
  have hcop : IsCoprime s (p : ℤ) := ((hp.coprime_iff_not_dvd).mpr hs).symm
  have hfer : s ^ (P - 1) ≡ 1 [ZMOD p] := by
    have := Int.ModEq.pow_card_sub_one_eq_one hPp (by rwa [hPcast])
    rwa [hPcast] at this
  set w := s ^ (P - 1) with hwdef
  have hw : p ∣ w - 1 := by
    have h1 := Int.modEq_iff_dvd.mp hfer
    rwa [show (1 : ℤ) - w = -(w - 1) by ring, dvd_neg] at h1
  have hbig : w ^ P ≡ 1 [ZMOD p * p] := by
    have h2 : (p * p) ∣ (w - 1) * (w - 1) := mul_dvd_mul hw hw
    have h3 : (1 + (w - 1)) ^ P ≡ 1 + (P : ℤ) * (w - 1) [ZMOD p * p] :=
      one_add_mul_pow _ _ h2 P
    have h4 : (1 : ℤ) + (w - 1) = w := by ring
    obtain ⟨d, hd⟩ := hw
    calc w ^ P = (1 + (w - 1)) ^ P := by rw [h4]
      _ ≡ 1 + (P : ℤ) * (w - 1) [ZMOD p * p] := h3
      _ = 1 + (p * p) * d := by rw [hPcast, hd]; ring
      _ ≡ 1 [ZMOD p * p] := Int.modEq_add_fac_self
  rw [pow_mul]
  exact hbig

/-- the `L`-function divides out exactly one factor of `p` -/
theorem l_function_spec {p x y : ℤ} (hp : 1 < p) (hx0 : 0 ≤ x) (hx1 : x < p * p)
    (hcong : x ≡ 1 + y * p [ZMOD p * p]) :
    l_function x p ≡ y [ZMOD p] ∧ 0 ≤ l_function x p ∧ l_function x p < p := by
  obtain ⟨t, ht⟩ := Int.modEq_iff_dvd.mp hcong
  have hx1' : x - 1 = p * (y - p * t) := by linear_combination -ht
  have hL : l_function x p = y - p * t := by
    unfold l_function
    rw [hx1', Int.mul_ediv_cancel_left _ (by omega)]
  refine ⟨?_, ?_, ?_⟩
  · rw [hL]
    have h5 : y - p * t = y + p * (-t) := by ring
    rw [h5]
    exact Int.modEq_add_fac_self
  · rw [hL]; nlinarith
  · rw [hL]; nlinarith

/-- per-prime half of CRT decryption: decrypting a ciphertext congruent to
`(1+n)^M · s^n (mod n²)` modulo the prime `pr` (where `n = pr·co`) yields
`M mod pr` -/
theorem dec_part_spec {pr co s : ℤ} (hpr : Prime pr) (h1 : 1 < pr) (hco : 0 < co)
    (hdvd : ¬ pr ∣ co) (hs : ¬ pr ∣ s) (M : ℕ) {c : ℤ}
    (hc : c ≡ (1 + pr * co) ^ M * s ^ (pr * co).toNat [ZMOD (pr * co) * (pr * co)]) :
    mul_mod (l_function (powmod c (pr - 1).toNat (pr * pr)) pr)
      (h_function (pr * co + 1) pr (pr * pr)) pr = (M : ℤ) % pr := by
  show (l_function (powmod c (pr - 1).toNat (pr * pr)) pr *
      invert (l_function (powmod (pr * co + 1) (pr - 1).toNat (pr * pr)) pr) pr) % pr
    = (M : ℤ) % pr
  set P := pr.toNat with hPdef
  have hPcast : (P : ℤ) = pr := Int.toNat_of_nonneg (by omega)
  have hP2 : 2 ≤ P := by omega
  set Q' := co.toNat with hQdef
  have hQcast : (Q' : ℤ) = co := Int.toNat_of_nonneg (by omega)
  have hpsq0 : (0 : ℤ) < pr * pr := by nlinarith
  have hpsq_dvd : (pr * pr) ∣ (pr * co) * (pr * co) := ⟨co * co, by ring⟩
  have htoNat : (pr - 1).toNat = P - 1 := by omega
  have hNtoNat : (pr * co).toNat = P * Q' := by
    rw [← Int.toNat_natCast (P * Q')]
    congr 1
    push_cast
    rw [hPcast, hQcast]
  have hbin : ∀ k : ℕ, (1 + pr * co) ^ k ≡ 1 + (k : ℤ) * (pr * co) [ZMOD pr * pr] :=
    one_add_mul_pow (pr * co) (pr * pr) hpsq_dvd
  -- the h constant: L(g^(p-1) mod p², p) is congruent to (p-1)·co mod p
  have hxg_eq : powmod (pr * co + 1) (pr - 1).toNat (pr * pr)
      = (pr * co + 1) ^ (P - 1) % (pr * pr) := by
    rw [powmod_eq, htoNat]
  have hxg_cong : powmod (pr * co + 1) (pr - 1).toNat (pr * pr)
      ≡ 1 + (((P - 1 : ℕ) : ℤ) * co) * pr [ZMOD pr * pr] := by
    rw [hxg_eq]
    calc (pr * co + 1) ^ (P - 1) % (pr * pr)
        ≡ (pr * co + 1) ^ (P - 1) [ZMOD pr * pr] := Int.mod_modEq _ _
      _ = (1 + pr * co) ^ (P - 1) := by ring_nf
      _ ≡ 1 + ((P - 1 : ℕ) : ℤ) * (pr * co) [ZMOD pr * pr] := hbin (P - 1)
      _ = 1 + (((P - 1 : ℕ) : ℤ) * co) * pr := by ring
  obtain ⟨ht1cong, ht1nn, ht1lt⟩ :=
    l_function_spec h1 (hxg_eq ▸ Int.emod_nonneg _ (by omega))
      (hxg_eq ▸ Int.emod_lt_of_pos _ hpsq0) hxg_cong
  set t1 := l_function (powmod (pr * co + 1) (pr - 1).toNat (pr * pr)) pr with ht1def
  -- t1 is invertible mod pr
  have hy1dvd : ¬ pr ∣ ((P - 1 : ℕ) : ℤ) * co := by
    intro hcontra
    rcases hpr.dvd_mul.mp hcontra with h | h
    · have h6 : ((P - 1 : ℕ) : ℤ) = pr - 1 := by omega
      rw [h6] at h
      have := Int.le_of_dvd (by omega) h
      omega
    · exact hdvd h
  have ht1dvd : ¬ pr ∣ t1 := by
    intro hcontra
    apply hy1dvd
    have h7 : t1 ≡ 0 [ZMOD pr] := (Int.modEq_zero_iff_dvd).mpr hcontra
    exact (Int.modEq_zero_iff_dvd).mp (ht1cong.symm.trans h7)
  have ht1gcd : Int.gcd t1 pr = 1 :=
    Int.isCoprime_iff_gcd_eq_one.mp ((hpr.coprime_iff_not_dvd).mpr ht1dvd).symm
  obtain ⟨hv0, hv1, hv2⟩ := invert_spec h1 ht1gcd
  -- the ciphertext part: L(c^(p-1) mod p², p) ≡ M·(p-1)·co mod p
  have hxc_eq : powmod c (pr - 1).toNat (pr * pr) = c ^ (P - 1) % (pr * pr) := by
    rw [powmod_eq, htoNat]
  have hcsq : c ≡ (1 + pr * co) ^ M * s ^ (P * Q') [ZMOD pr * pr] := by
    rw [← hNtoNat]
    exact hc.of_dvd hpsq_dvd
  have hfer : s ^ ((P - 1) * P) ≡ 1 [ZMOD pr * pr] := fermat_sq hpr h1 hs
  have hspow : s ^ (P * Q' * (P - 1)) ≡ 1 [ZMOD pr * pr] := by
    have harith : P * Q' * (P - 1) = (P - 1) * P * Q' := by ring
    rw [harith, pow_mul]
    calc (s ^ ((P - 1) * P)) ^ Q' ≡ 1 ^ Q' [ZMOD pr * pr] := hfer.pow Q'
      _ = 1 := one_pow Q'
  have hxc_cong : powmod c (pr - 1).toNat (pr * pr)
      ≡ 1 + (((M * (P - 1) : ℕ) : ℤ) * co) * pr [ZMOD pr * pr] := by
    rw [hxc_eq]
    calc c ^ (P - 1) % (pr * pr)
        ≡ c ^ (P - 1) [ZMOD pr * pr] := Int.mod_modEq _ _
      _ ≡ ((1 + pr * co) ^ M * s ^ (P * Q')) ^ (P - 1) [ZMOD pr * pr] := hcsq.pow _
      _ = (1 + pr * co) ^ (M * (P - 1)) * s ^ (P * Q' * (P - 1)) := by
          rw [mul_pow, ← pow_mul, ← pow_mul]
      _ ≡ (1 + ((M * (P - 1) : ℕ) : ℤ) * (pr * co)) * 1 [ZMOD pr * pr] :=
          (hbin (M * (P - 1))).mul hspow
      _ = 1 + (((M * (P - 1) : ℕ) : ℤ) * co) * pr := by ring
  obtain ⟨htccong, htcnn, htclt⟩ :=
    l_function_spec h1 (hxc_eq ▸ Int.emod_nonneg _ (by omega))
      (hxc_eq ▸ Int.emod_lt_of_pos _ hpsq0) hxc_cong
  set tc := l_function (powmod c (pr - 1).toNat (pr * pr)) pr with htcdef
  -- combine: tc * invert t1 pr ≡ M (mod pr)
  have hfinal : tc * invert t1 pr ≡ (M : ℤ) [ZMOD pr] := by
    have hyy : ((M * (P - 1) : ℕ) : ℤ) * co = (M : ℤ) * (((P - 1 : ℕ) : ℤ) * co) := by
      push_cast; ring
    calc tc * invert t1 pr
        ≡ (((M * (P - 1) : ℕ) : ℤ) * co) * invert t1 pr [ZMOD pr] := htccong.mul_right _
      _ = (M : ℤ) * ((((P - 1 : ℕ) : ℤ) * co) * invert t1 pr) := by rw [hyy]; ring
      _ ≡ (M : ℤ) * (t1 * invert t1 pr) [ZMOD pr] :=
          ((ht1cong.symm).mul_right (invert t1 pr)).mul_left _
      _ ≡ (M : ℤ) * 1 [ZMOD pr] := hv2.mul_left _
      _ = (M : ℤ) := mul_one _
  exact hfinal.eq

/-- CRT recombination recovers `z mod p·q` from `z mod p` and `z mod q` -/
theorem crt_eq {p q mp mq : ℤ} (hp1 : 1 < p) (hq1 : 1 < q) (hgcd : Int.gcd p q = 1)
    {z : ℤ} (hmp : mp = z % p) (hmq : mq = z % q) :
    mp + mul_mod_new (mq - mp) (invert p q) q * p = z % (p * q) := by
  obtain ⟨hi0, hi1, hi2⟩ := invert_spec hq1 hgcd
  set pinv := invert p q with hpinv
  set u := (mq - mp) * pinv % q with hu
  have hu0 : 0 ≤ u := Int.emod_nonneg _ (by omega)
  have hu1 : u < q := Int.emod_lt_of_pos _ (by omega)
  have hmp0 : 0 ≤ mp := hmp ▸ Int.emod_nonneg _ (by omega)
  have hmp1 : mp < p := hmp ▸ Int.emod_lt_of_pos _ (by omega)
  have hres_p : mp + u * p ≡ z [ZMOD p] := by
    calc mp + u * p = mp + p * u := by ring
      _ ≡ mp [ZMOD p] := Int.modEq_add_fac_self
      _ = z % p := hmp
      _ ≡ z [ZMOD p] := Int.mod_modEq _ _
  have hres_q : mp + u * p ≡ z [ZMOD q] := by
    have h1 : u ≡ (mq - mp) * pinv [ZMOD q] := Int.mod_modEq _ _
    have h2 : u * p ≡ mq - mp [ZMOD q] := by
      calc u * p ≡ ((mq - mp) * pinv) * p [ZMOD q] := h1.mul_right p
        _ = (mq - mp) * (p * pinv) := by ring
        _ ≡ (mq - mp) * 1 [ZMOD q] := hi2.mul_left _
        _ = mq - mp := mul_one _
    calc mp + u * p ≡ mp + (mq - mp) [ZMOD q] := (h2.add_left mp)
      _ = mq := by ring
      _ = z % q := hmq
      _ ≡ z [ZMOD q] := Int.mod_modEq _ _
  have hcop : p.natAbs.Coprime q.natAbs := hgcd
  have hmod : mp + u * p ≡ z [ZMOD p * q] :=
    (Int.modEq_and_modEq_iff_modEq_mul hcop).mp ⟨hres_p, hres_q⟩
  have hlt : mp + u * p < p * q := by nlinarith
  have hge : 0 ≤ mp + u * p := by nlinarith
  calc mp + mul_mod_new (mq - mp) pinv q * p = mp + u * p := rfl
    _ = (mp + u * p) % (p * q) := (Int.emod_eq_of_lt hge hlt).symm
    _ = z % (p * q) := hmod

/-- the full CRT decryption expression (for one fixed ordering of the two
primes) recovers `M mod n` -/
theorem decrypt_expr_spec {p' q' s c : ℤ} (hp' : Prime p') (hq' : Prime q')
    (hp'1 : 1 < p') (hq'1 : 1 < q') (hne : p' ≠ q') {g n : ℤ}
    (hn : n = p' * q') (hg : g = n + 1) (M : ℕ)
    (hs : Int.gcd s n = 1)
    (hc : c ≡ (1 + n) ^ M * s ^ n.toNat [ZMOD n * n]) :
    mul_mod (l_function (powmod c (p' - 1).toNat (p' * p')) p')
        (h_function g p' (p' * p')) p' +
      mul_mod_new
        (mul_mod (l_function (powmod c (q' - 1).toNat (q' * q')) q')
            (h_function g q' (q' * q')) q' -
          mul_mod (l_function (powmod c (p' - 1).toNat (p' * p')) p')
            (h_function g p' (p' * p')) p')
        (invert p' q') q' * p' = (M : ℤ) % n := by
  subst hg
  subst hn
  have hnd_pq : ¬ p' ∣ q' := prime_not_dvd_prime hp' hq' (by omega) (by omega) hne
  have hnd_qp : ¬ q' ∣ p' := prime_not_dvd_prime hq' hp' (by omega) (by omega) hne.symm
  have hns : ¬ p' ∣ s := not_dvd_of_gcd_one hp'1 (Dvd.intro q' rfl) hs
  have hqs : ¬ q' ∣ s := not_dvd_of_gcd_one hq'1 (Dvd.intro_left p' rfl) hs
  have hc'' : c ≡ (1 + q' * p') ^ M * s ^ (q' * p').toNat [ZMOD (q' * p') * (q' * p')] := by
    rw [mul_comm q' p']; exact hc
  have hmp := dec_part_spec hp' hp'1 (by omega) hnd_pq hns M hc
  have hmq := dec_part_spec hq' hq'1 (by omega) hnd_qp hqs M hc''
  have hgcd' : Int.gcd p' q' = 1 := gcd_primes_eq_one hp' hq' hp'1 hq'1 hne
  have hgq : p' * q' + 1 = q' * p' + 1 := by ring
  rw [← hgq] at hmq
  rw [hmp, hmq]
  exact crt_eq hp'1 hq'1 hgcd' rfl rfl

/-- master decryption lemma: `raw_decrypt` of a private key built by the
constructor maps any ciphertext congruent to `(1+n)^M · s^n (mod n²)`
(with `s` a unit mod `n`) to `M mod n` -/
theorem raw_decrypt_form {p q : ℤ} (hp : Prime p) (hq : Prime q)
    (hp1 : 1 < p) (hq1 : 1 < q) (hpq : p ≠ q) {pk : PaillierPublicKey}
    (hn : pk.n = p * q) (hg : pk.g = pk.n + 1) {sk : PaillierPrivateKey}
    (hsk : PaillierPrivateKey.mk' pk p q = some sk) (M : ℕ) {s c : ℤ}
    (hs : Int.gcd s pk.n = 1)
    (hc : c ≡ (1 + pk.n) ^ M * s ^ pk.n.toNat [ZMOD pk.n * pk.n]) :
    sk.raw_decrypt c = (M : ℤ) % pk.n := by
  rw [PaillierPrivateKey.mk'] at hsk
  rw [if_neg (fun hcon => hcon hn.symm), if_neg hpq] at hsk
  by_cases hqp : q < p
  · simp only [if_pos hqp] at hsk
    have hsk' : sk = ⟨pk, q, p, q * q, p * p, invert q p,
        h_function pk.g q (q * q), h_function pk.g p (p * p)⟩ :=
      (Option.some.inj hsk).symm
    rw [hsk']
    have hn' : pk.n = q * p := by rw [hn]; ring
    exact decrypt_expr_spec hq hp hq1 hp1 (Ne.symm hpq) hn' hg M hs hc
  · simp only [if_neg hqp] at hsk
    have hsk' : sk = ⟨pk, p, q, p * p, q * q, invert p q,
        h_function pk.g p (p * p), h_function pk.g q (q * q)⟩ :=
      (Option.some.inj hsk).symm
    rw [hsk']
    exact decrypt_expr_spec hp hq hp1 hq1 hpq hn hg M hs hc

/-- coprimality to the modulus transfers along congruence -/
theorem isCoprime_of_modEq {a b m : ℤ} (h : a ≡ b [ZMOD m]) (hc : IsCoprime a m) :
    IsCoprime b m := by
  obtain ⟨u, v, huv⟩ := hc
  obtain ⟨t, ht⟩ := Int.modEq_iff_dvd.mp h
  exact ⟨u, v - u * t, by linear_combination huv + u * ht⟩

/-- the nude ciphertext computed by `raw_encrypt` (either branch) is
congruent to `(1+n)^m (mod n²)` -/
theorem nude_spec {n mi nsq m : ℤ} (hnsq : nsq = n * n) (hn1 : 1 < n)
    (hm0 : 0 ≤ m) (hmn : m < n) :
    (if n - mi ≤ m ∧ m < n then invert (mod (mul n (n - m) + 1) nsq) nsq
     else mod (mul n m + 1) nsq) ≡ (1 + n) ^ m.toNat [ZMOD n * n] := by
  subst hnsq
  have hnsq1 : (1 : ℤ) < n * n := by nlinarith
  have hbin : ∀ k : ℕ, (1 + n) ^ k ≡ 1 + (k : ℤ) * n [ZMOD n * n] :=
    one_add_mul_pow n (n * n) dvd_rfl
  by_cases hbr : n - mi ≤ m ∧ m < n
  · rw [if_pos hbr]
    have hneg0 : 0 < n - m := by omega
    have hmneg : m.toNat + (n - m).toNat = n.toNat := by omega
    have ha2 : mod (mul n (n - m) + 1) (n * n) ≡ 1 + ((n - m).toNat : ℤ) * n [ZMOD n * n] := by
      show (n * (n - m) + 1) % (n * n) ≡ _ [ZMOD n * n]
      calc (n * (n - m) + 1) % (n * n) ≡ n * (n - m) + 1 [ZMOD n * n] := Int.mod_modEq _ _
        _ = 1 + ((n - m).toNat : ℤ) * n := by rw [Int.toNat_of_nonneg (by omega)]; ring
    have ha_cong : mod (mul n (n - m) + 1) (n * n) ≡ (1 + n) ^ (n - m).toNat [ZMOD n * n] :=
      ha2.trans (hbin (n - m).toNat).symm
    have hcop0 : IsCoprime (1 + ((n - m).toNat : ℤ) * n) (n * n) :=
      ⟨1 - ((n - m).toNat : ℤ) * n, ((n - m).toNat : ℤ) * ((n - m).toNat : ℤ), by ring⟩
    have hcopa : IsCoprime (mod (mul n (n - m) + 1) (n * n)) (n * n) :=
      isCoprime_of_modEq ha2.symm hcop0
    obtain ⟨hi0, hi1, hi2⟩ := invert_spec hnsq1 (Int.isCoprime_iff_gcd_eq_one.mp hcopa)
    have hninv : (1 + n) ^ m.toNat * mod (mul n (n - m) + 1) (n * n) ≡ 1 [ZMOD n * n] := by
      calc (1 + n) ^ m.toNat * mod (mul n (n - m) + 1) (n * n)
          ≡ (1 + n) ^ m.toNat * (1 + n) ^ (n - m).toNat [ZMOD n * n] := ha_cong.mul_left _
        _ = (1 + n) ^ n.toNat := by rw [← pow_add, hmneg]
        _ ≡ 1 + (n.toNat : ℤ) * n [ZMOD n * n] := hbin n.toNat
        _ = 1 + (n * n) * 1 := by rw [Int.toNat_of_nonneg (by omega)]; ring
        _ ≡ 1 [ZMOD n * n] := Int.modEq_add_fac_self
    calc invert (mod (mul n (n - m) + 1) (n * n)) (n * n)
        = invert (mod (mul n (n - m) + 1) (n * n)) (n * n) * 1 := (mul_one _).symm
      _ ≡ invert (mod (mul n (n - m) + 1) (n * n)) (n * n) *
          ((1 + n) ^ m.toNat * mod (mul n (n - m) + 1) (n * n)) [ZMOD n * n] :=
            hninv.symm.mul_left _
      _ = (mod (mul n (n - m) + 1) (n * n) *
          invert (mod (mul n (n - m) + 1) (n * n)) (n * n)) * (1 + n) ^ m.toNat := by ring
      _ ≡ 1 * (1 + n) ^ m.toNat [ZMOD n * n] := hi2.mul_right _
      _ = (1 + n) ^ m.toNat := one_mul _
  · rw [if_neg hbr]
    show (n * m + 1) % (n * n) ≡ _ [ZMOD n * n]
    calc (n * m + 1) % (n * n) ≡ n * m + 1 [ZMOD n * n] := Int.mod_modEq _ _
      _ = 1 + (m.toNat : ℤ) * n := by rw [Int.toNat_of_nonneg hm0]; ring
      _ ≡ (1 + n) ^ m.toNat [ZMOD n * n] := (hbin m.toNat).symm

/-- validity of a key's precomputed blinding table: every entry is an
`n`-th power of a unit mod `n²` (the generator fills it with
`r ^ n mod n²` for random `r`) -/
def GoodTable (pk : PaillierPublicKey) : Prop :=
  ∀ ct ∈ pk.table, ∃ r : ℤ, Int.gcd r pk.n = 1 ∧ ct ≡ r ^ pk.n.toNat [ZMOD pk.n * pk.n]

/-- validity of one encryption's random draws: the fresh base is a unit
when no table exists, and the table indices are in range -/
def GoodRand (pk : PaillierPublicKey) (rand : EncRand) : Prop :=
  (pk.table = [] → Int.gcd rand.r pk.n = 1) ∧ ∀ i ∈ rand.idxs, i < pk.table.length

/-- the obfuscator is always an `n`-th power of a unit mod `n²` -/
theorem obfuscator_spec {pk : PaillierPublicKey} (hnsq : pk.nsquare = pk.n * pk.n)
    (hn1 : 1 < pk.n) (htbl : GoodTable pk) {rand : EncRand} (hrand : GoodRand pk rand) :
    ∃ s : ℤ, Int.gcd s pk.n = 1 ∧
      pk.obfuscator rand ≡ s ^ pk.n.toNat [ZMOD pk.n * pk.n] := by
  unfold PaillierPublicKey.obfuscator
  by_cases hnil : pk.table = []
  · rw [if_pos hnil]
    refine ⟨rand.r, hrand.1 hnil, ?_⟩
    rw [powmod_eq, hnsq]
    exact Int.mod_modEq _ _
  · rw [if_neg hnil]
    have fold : ∀ (idxs : List ℕ) (acc s0 : ℤ), Int.gcd s0 pk.n = 1 →
        acc ≡ s0 ^ pk.n.toNat [ZMOD pk.n * pk.n] →
        (∀ i ∈ idxs, i < pk.table.length) →
        ∃ s, Int.gcd s pk.n = 1 ∧
          idxs.foldl (fun acc i => mul_mod acc (pk.table.getD i 0) pk.nsquare) acc
            ≡ s ^ pk.n.toNat [ZMOD pk.n * pk.n] := by
      intro idxs
      induction idxs with
      | nil => intro acc s0 h1 h2 _; exact ⟨s0, h1, h2⟩
      | cons i rest ih =>
        intro acc s0 h1 h2 hin
        have hilen : i < pk.table.length := hin i (List.mem_cons_self i rest)
        have hmem : pk.table.getD i 0 ∈ pk.table := by
          rw [List.getD_eq_getElem pk.table 0 hilen]
          exact List.getElem_mem hilen
        obtain ⟨r, hr1, hr2⟩ := htbl _ hmem
        have hgcd' : Int.gcd (s0 * r) pk.n = 1 :=
          Int.isCoprime_iff_gcd_eq_one.mp
            ((Int.isCoprime_iff_gcd_eq_one.mpr h1).mul_left
              (Int.isCoprime_iff_gcd_eq_one.mpr hr1))
        have hacc' : mul_mod acc (pk.table.getD i 0) pk.nsquare
            ≡ (s0 * r) ^ pk.n.toNat [ZMOD pk.n * pk.n] := by
          show (acc * pk.table.getD i 0) % pk.nsquare ≡ _ [ZMOD _]
          rw [hnsq]
          calc (acc * pk.table.getD i 0) % (pk.n * pk.n)
              ≡ acc * pk.table.getD i 0 [ZMOD pk.n * pk.n] := Int.mod_modEq _ _
            _ ≡ s0 ^ pk.n.toNat * r ^ pk.n.toNat [ZMOD pk.n * pk.n] := h2.mul hr2
            _ = (s0 * r) ^ pk.n.toNat := (mul_pow _ _ _).symm
        exact List.foldl_cons _ _ ▸ ih _ _ hgcd' hacc' fun j hj => hin j (List.mem_cons_of_mem _ hj)
    exact fold rand.idxs 1 1 (by simp [Int.gcd]) (by rw [one_pow]) hrand.2

/-- `raw_encrypt` produces a ciphertext of the canonical form
`(1+n)^m · s^n (mod n²)` with `s` a unit -/
theorem raw_encrypt_spec {pk : PaillierPublicKey} (hnsq : pk.nsquare = pk.n * pk.n)
    (hn1 : 1 < pk.n) (htbl : GoodTable pk) {rand : EncRand} (hrand : GoodRand pk rand)
    {m : ℤ} (hm0 : 0 ≤ m) (hmn : m < pk.n) (rv : Option ℤ) :
    ∃ s : ℤ, Int.gcd s pk.n = 1 ∧
      pk.raw_encrypt m rv rand ≡ (1 + pk.n) ^ m.toNat * s ^ pk.n.toNat
        [ZMOD pk.n * pk.n] := by
  obtain ⟨s, hs1, hs2⟩ := obfuscator_spec hnsq hn1 htbl hrand
  refine ⟨s, hs1, ?_⟩
  show ((if pk.n - pk.max_int ≤ m ∧ m < pk.n then
      invert (mod (mul pk.n (pk.n - m) + 1) pk.nsquare) pk.nsquare
    else mod (mul pk.n m + 1) pk.nsquare) * pk.obfuscator rand) % pk.nsquare
      ≡ (1 + pk.n) ^ m.toNat * s ^ pk.n.toNat [ZMOD pk.n * pk.n]
  have hnude := @nude_spec pk.n pk.max_int pk.nsquare m hnsq hn1 hm0 hmn
  calc ((if pk.n - pk.max_int ≤ m ∧ m < pk.n then
        invert (mod (mul pk.n (pk.n - m) + 1) pk.nsquare) pk.nsquare
      else mod (mul pk.n m + 1) pk.nsquare) * pk.obfuscator rand) % pk.nsquare
      ≡ (if pk.n - pk.max_int ≤ m ∧ m < pk.n then
        invert (mod (mul pk.n (pk.n - m) + 1) pk.nsquare) pk.nsquare
      else mod (mul pk.n m + 1) pk.nsquare) * pk.obfuscator rand [ZMOD pk.n * pk.n] := by
        rw [hnsq]; exact Int.mod_modEq _ _
    _ ≡ (1 + pk.n) ^ m.toNat * s ^ pk.n.toNat [ZMOD pk.n * pk.n] := hnude.mul hs2

/-- the nude encryption used inside ciphertext-plus-encoded addition -/
theorem en_raw_encrypt_spec {a : EncryptedNumber} (hnsq : a.nsquare = a.n * a.n)
    (hn1 : 1 < a.n) {m : ℤ} (hm0 : 0 ≤ m) (hmn : m < a.n) :
    a.raw_encrypt m ≡ (1 + a.n) ^ m.toNat [ZMOD a.n * a.n] := by
  show (if a.n - a.max_int ≤ m ∧ m < a.n then
      invert (mod (mul a.n (a.n - m) + 1) a.nsquare) a.nsquare
    else mod (mul a.n m + 1) a.nsquare) ≡ _ [ZMOD a.n * a.n]
  exact nude_spec hnsq hn1 hm0 hmn

/-- decoding a wrapped mantissa recovers the signed value -/
theorem decode_wrap {n mi x : ℤ} (hn : 2 * mi < n) (hmi : 0 ≤ mi) (hx : |x| ≤ mi)
    (e : ℤ) :
    EncodedNumber.decode ⟨n, mi, x % n, e⟩ = some ((x : ℚ) * (BASE : ℚ) ^ e) := by
  have hx' : -mi ≤ x ∧ x ≤ mi := abs_le.mp hx
  unfold EncodedNumber.decode
  dsimp only
  rcases le_or_lt 0 x with hx0 | hx0
  · have hxmod : x % n = x := Int.emod_eq_of_lt hx0 (by omega)
    rw [hxmod, if_neg (by omega), if_pos (by omega)]
  · have hxmod : x % n = x + n := by
      have h1 : (x + n * 1) % n = x % n := Int.add_mul_emod_self_left x n 1
      have h2 : (x + n * 1) % n = x + n * 1 := Int.emod_eq_of_lt (by omega) (by omega)
      omega
    rw [hxmod, if_neg (by omega), if_neg (by omega), if_pos (by omega)]
    congr 1
    push_cast
    ring

/-- bundled facts about a freshly constructed key pair, used by all the
round-trip claims -/
theorem mk_private_eq {p q : ℤ} (hpq : p ≠ q) {pk : PaillierPublicKey}
    (hn : pk.n = p * q) :
    PaillierPrivateKey.mk' pk p q = some
      (if q < p then
        ⟨pk, q, p, q * q, p * p, invert q p,
          h_function pk.g q (q * q), h_function pk.g p (p * p)⟩
       else
        ⟨pk, p, q, p * p, q * q, invert p q,
          h_function pk.g p (p * p), h_function pk.g q (q * q)⟩) := by
  rw [PaillierPrivateKey.mk', if_neg (fun hcon => hcon hn.symm), if_neg hpq]
  by_cases hqp : q < p
  · simp only [if_pos hqp]
  · simp only [if_neg hqp]

/-- Claim C1.  For every generated key pair and every scalar value within
the safe bound `max_int = n//3 - 1`, decryption inverts encryption: exactly
for integers (more generally whenever the value is exactly representable at
the chosen exponent), and within the chosen precision (half a unit in the
last fixed-point place) for other rationals. -/
theorem claim_C1_encrypt_decrypt_round_trip
    {p q : ℤ} (hp : Prime p) (hq : Prime q) (hp1 : 1 < p) (hq1 : 1 < q)
    (hpq : p ≠ q) (tbl : Option (List ℤ)) (L ns : ℕ) (rv : Option ℤ)
    (rand : EncRand)
    (htbl : GoodTable (PaillierPublicKey.mk' (p * q) tbl L ns))
    (hrand : GoodRand (PaillierPublicKey.mk' (p * q) tbl L ns) rand)
    (v : ℚ) (e : ℤ)
    (hmant : |round (v / (BASE : ℚ) ^ e)| ≤ (PaillierPublicKey.mk' (p * q) tbl L ns).max_int) :
    ((PaillierPrivateKey.mk' (PaillierPublicKey.mk' (p * q) tbl L ns) p q).bind fun sk =>
      ((PaillierPublicKey.mk' (p * q) tbl L ns).encrypt v e rv rand).bind fun ct =>
        sk.decrypt ct)
      = some ((round (v / (BASE : ℚ) ^ e) : ℚ) * (BASE : ℚ) ^ e)
    ∧ |(round (v / (BASE : ℚ) ^ e) : ℚ) * (BASE : ℚ) ^ e - v| ≤ (BASE : ℚ) ^ e / 2
    ∧ ((v / (BASE : ℚ) ^ e).den = 1 →
        (round (v / (BASE : ℚ) ^ e) : ℚ) * (BASE : ℚ) ^ e = v) := by
  set pk := PaillierPublicKey.mk' (p * q) tbl L ns with hpkdef
  have hn : pk.n = p * q := rfl
  have hg : pk.g = pk.n + 1 := rfl
  have hnsq : pk.nsquare = pk.n * pk.n := rfl
  have hmi : pk.max_int = p * q / 3 - 1 := rfl
  have hn4 : 4 ≤ p * q := by nlinarith
  have hn1 : 1 < pk.n := by rw [hn]; omega
  set x := round (v / (BASE : ℚ) ^ e) with hxdef
  -- the encryption succeeds and carries `x % n` at exponent `e`
  have henc : EncodedNumber.encode pk.n pk.max_int v e =
      some ⟨pk.n, pk.max_int, x % pk.n, e⟩ := by
    unfold EncodedNumber.encode
    rw [if_pos hmant]
  have hencr : pk.encrypt v e rv rand = some
      (pk.encrypt_encoded ⟨pk.n, pk.max_int, x % pk.n, e⟩ rv rand) := by
    unfold PaillierPublicKey.encrypt
    rw [henc, Option.map_some']
  -- the ciphertext has the canonical form
  have hx0 : 0 ≤ x % pk.n := Int.emod_nonneg _ (by omega)
  have hx1 : x % pk.n < pk.n := Int.emod_lt_of_pos _ (by omega)
  obtain ⟨s, hs1, hs2⟩ := raw_encrypt_spec hnsq hn1 htbl hrand hx0 hx1 (some (rv.getD 1))
  -- decryption returns `x % n`
  rw [mk_private_eq hpq hn]
  set sk : PaillierPrivateKey :=
    (if q < p then
        ⟨pk, q, p, q * q, p * p, invert q p,
          h_function pk.g q (q * q), h_function pk.g p (p * p)⟩
       else
        ⟨pk, p, q, p * p, q * q, invert p q,
          h_function pk.g p (p * p), h_function pk.g q (q * q)⟩) with hskdef
  have hskeq : PaillierPrivateKey.mk' pk p q = some sk := mk_private_eq hpq hn
  have hraw : sk.raw_decrypt (pk.raw_encrypt (x % pk.n) (some (rv.getD 1)) rand)
      = ((x % pk.n).toNat : ℤ) % pk.n :=
    raw_decrypt_form hp hq hp1 hq1 hpq hn hg hskeq ((x % pk.n).toNat) hs1 hs2
  have hraw' : sk.raw_decrypt (pk.raw_encrypt (x % pk.n) (some (rv.getD 1)) rand)
      = x % pk.n := by
    rw [hraw, Int.toNat_of_nonneg hx0]
    exact Int.emod_emod_of_dvd x dvd_rfl
  have hskpk : sk.public_key = pk := by
    rw [hskdef]; by_cases hqp : q < p
    · simp only [if_pos hqp]
    · simp only [if_neg hqp]
  -- decode bounds
  have hmi0 : 0 ≤ pk.max_int := by rw [hmi]; omega
  have hmi2 : 2 * pk.max_int < pk.n := by rw [hmi, hn]; omega
  have hdec : sk.decrypt (pk.encrypt_encoded ⟨pk.n, pk.max_int, x % pk.n, e⟩ rv rand)
      = some ((x : ℚ) * (BASE : ℚ) ^ e) := by
    unfold PaillierPrivateKey.decrypt PaillierPrivateKey.decrypt_encoded
    rw [hskpk]
    have hctn : (pk.encrypt_encoded ⟨pk.n, pk.max_int, x % pk.n, e⟩ rv rand).n = pk.n := rfl
    rw [if_neg (fun hcon => hcon hctn.symm)]
    show EncodedNumber.decode
        ⟨pk.n, pk.max_int,
          sk.raw_decrypt (pk.raw_encrypt (x % pk.n) (some (rv.getD 1)) rand), e⟩
      = some ((x : ℚ) * (BASE : ℚ) ^ e)
    rw [hraw']
    exact decode_wrap hmi2 hmi0 hmant e
  have h16 : (0 : ℚ) < (BASE : ℚ) := by norm_num [BASE]
  have hB : (0 : ℚ) < (BASE : ℚ) ^ e := zpow_pos h16 e
  have hBne : (BASE : ℚ) ^ e ≠ 0 := ne_of_gt hB
  refine ⟨?_, ?_, ?_⟩
  · rw [hencr]
    show sk.decrypt (pk.encrypt_encoded ⟨pk.n, pk.max_int, x % pk.n, e⟩ rv rand)
      = some ((x : ℚ) * (BASE : ℚ) ^ e)
    exact hdec
  · have hsplit : (x : ℚ) * (BASE : ℚ) ^ e - v
        = ((x : ℚ) - v / (BASE : ℚ) ^ e) * (BASE : ℚ) ^ e := by
      field_simp
    rw [hsplit, abs_mul, abs_of_pos hB]
    have habs : |(x : ℚ) - v / (BASE : ℚ) ^ e| ≤ 1 / 2 := by
      rw [hxdef, abs_sub_comm]
      exact abs_sub_round _
    calc |(x : ℚ) - v / (BASE : ℚ) ^ e| * (BASE : ℚ) ^ e
        ≤ (1 / 2) * (BASE : ℚ) ^ e := mul_le_mul_of_nonneg_right habs hB.le
      _ = (BASE : ℚ) ^ e / 2 := by ring
  · intro hden
    set u := v / (BASE : ℚ) ^ e with hudef
    have huint : ((u.num : ℚ)) = u := by
      conv_rhs => rw [← Rat.num_div_den u]
      rw [hden]
      norm_num
    have hru : round u = u.num := by
      conv_lhs => rw [← huint]
      rw [round_intCast]
    have hxnum : x = u.num := hxdef.trans hru
    rw [hxnum, huint, hudef]
    exact div_mul_cancel₀ v hBne

/-- concrete instance of claim C1: the keypair `p = 5, q = 7` (a reachable
output of the generator at bit length 6), no blinding table, fresh base 2,
value 3 at exponent 0 -/
theorem claim_C1_witness :
    ((PaillierPrivateKey.mk' (PaillierPublicKey.mk' (5 * 7) none 6 3) 5 7).bind fun sk =>
      ((PaillierPublicKey.mk' (5 * 7) none 6 3).encrypt 3 0 none ⟨[], 2⟩).bind fun ct =>
        sk.decrypt ct)
      = some ((round ((3 : ℚ) / (BASE : ℚ) ^ (0 : ℤ)) : ℚ) * (BASE : ℚ) ^ (0 : ℤ))
    ∧ |(round ((3 : ℚ) / (BASE : ℚ) ^ (0 : ℤ)) : ℚ) * (BASE : ℚ) ^ (0 : ℤ) - 3|
        ≤ (BASE : ℚ) ^ (0 : ℤ) / 2
    ∧ (((3 : ℚ) / (BASE : ℚ) ^ (0 : ℤ)).den = 1 →
        (round ((3 : ℚ) / (BASE : ℚ) ^ (0 : ℤ)) : ℚ) * (BASE : ℚ) ^ (0 : ℤ) = 3) :=
  claim_C1_encrypt_decrypt_round_trip
    (p := 5) (q := 7)
    (by norm_num) (by norm_num) (by norm_num) (by norm_num) (by norm_num)
    none 6 3 none ⟨[], 2⟩
    (by intro ct hct; simp [PaillierPublicKey.table, PaillierPublicKey.mk'] at hct)
    ⟨fun _ => by decide, fun i hi => absurd hi (List.not_mem_nil i)⟩
    3 0
    (of_decide_eq_true (by with_unfolding_all rfl))

/-- Claim C10.  `raw_encrypt` never reads its `r_value` parameter: for any
two supplied values the ciphertext is identical as a function of the
internal random draws, and the same holds for `encrypt_encoded`, which
forwards `r_value or 1` — so a caller cannot make encryption deterministic
by fixing `r_value`. -/
theorem claim_C10_raw_encrypt_ignores_r_value (pk : PaillierPublicKey)
    (m : ℤ) (r1 r2 : Option ℤ) (rand : EncRand) (enc : EncodedNumber) :
    pk.raw_encrypt m r1 rand = pk.raw_encrypt m r2 rand
    ∧ pk.encrypt_encoded enc r1 rand = pk.encrypt_encoded enc r2 rand :=
  ⟨rfl, rfl⟩

theorem mapM_option_length {α β : Type} (f : α → Option β) :
    ∀ xs : List α, (∀ x ∈ xs, (f x).isSome) →
      ∃ l, xs.mapM f = some l ∧ l.length = xs.length := by
  intro xs
  induction xs with
  | nil => intro _; exact ⟨[], rfl, rfl⟩
  | cons a rest ih =>
    intro h
    obtain ⟨b, hb⟩ := Option.isSome_iff_exists.mp (h a (List.mem_cons_self a rest))
    obtain ⟨l, hl1, hl2⟩ := ih fun x hx => h x (List.mem_cons_of_mem _ hx)
    refine ⟨b :: l, ?_, by simp [hl2]⟩
    rw [List.mapM_cons, hb, hl1]
    rfl

theorem mapM_option_none {α β : Type} (f : α → Option β) :
    ∀ xs : List α, ∀ x ∈ xs, f x = none → xs.mapM f = none := by
  intro xs
  induction xs with
  | nil => intro x hx; exact absurd hx (List.not_mem_nil x)
  | cons a rest ih =>
    intro x hx hfx
    rw [List.mapM_cons]
    rcases List.mem_cons.mp hx with rfl | hx'
    · rw [hfx]; rfl
    · cases hfa : f a
      · rfl
      · rw [ih x hx' hfx]; rfl

/-- Claim C9.  `bind_to_vector` succeeds on any non-empty list of vectors
whose members each have a first residue (no matter how many residues they
hold, since the length-check assertion asserts a non-empty string literal
and so never fires), returning the list of first residues under the first
input's parameters. -/
theorem claim_C9_bind_to_vector (l : List EncryptedVector) (hd : EncryptedVector)
    (hhd : l.head? = some hd) (hne : ∀ v ∈ l, v.ciphertext ≠ []) :
    EncryptedVector.bind_to_vector l =
      some ⟨hd.n, hd.nsquare, hd.max_int,
        l.map (fun v => v.ciphertext.headD 0), hd.exponent⟩ := by
  unfold EncryptedVector.bind_to_vector
  rw [hhd]
  have hmap : l.mapM (fun v => v.ciphertext.head?) =
      some (l.map fun v => v.ciphertext.headD 0) := by
    clear hhd
    induction l with
    | nil => rfl
    | cons a rest ih =>
      have ha := hne a (List.mem_cons_self a rest)
      rw [List.mapM_cons, ih fun v hv => hne v (List.mem_cons_of_mem _ hv)]
      cases hc : a.ciphertext with
      | nil => exact absurd hc ha
      | cons c cs => simp [List.map_cons, hc]
  rw [hmap]
  rfl

/-- concrete instance of claim C9: two input vectors, the first holding TWO
residues — the unenforced length check does not reject it -/
theorem claim_C9_witness :
    EncryptedVector.bind_to_vector
        [⟨35, 1225, 10, [2, 3], 0⟩, ⟨35, 1225, 10, [4], 0⟩] =
      some ⟨35, 1225, 10, [2, 4], 0⟩ := by
  have h := claim_C9_bind_to_vector
    [⟨35, 1225, 10, [2, 3], 0⟩, ⟨35, 1225, 10, [4], 0⟩]
    ⟨35, 1225, 10, [2, 3], 0⟩ rfl (by decide)
  exact h

/-- counterexample to claim C5 as stated: element-wise ADDITION of vectors
of unequal lengths does not fail with a shape error — with a longer right
operand it silently produces a (truncated) result -/
theorem claim_C5_counterexample :
    EncryptedVector.add_encrypted ⟨35, 1225, 10, [2], 0⟩ ⟨35, 1225, 10, [3, 4], 0⟩
      = some ⟨35, 1225, 10, [6], 0⟩ := by
  with_unfolding_all rfl

/-- Claim C5, amended.  Multiplication by a sequence of mismatching length
always fails with a shape error; addition, however, never compares lengths:
with a right operand at least as long as the left it silently produces a
result of the LEFT operand's length, and with a shorter right operand it
fails with an index error rather than a shape check. -/
theorem claim_C5_amended (a b : EncryptedVector) (others : List ℚ) (ke : ℤ)
    (hlen : others.length ≠ a.ciphertext.length)
    (hab : a.n = b.n) (hexp : a.exponent = b.exponent) :
    a.mul_seq others ke = none
    ∧ (a.ciphertext.length ≤ b.ciphertext.length →
        (a.add_encrypted b).map (fun r => r.ciphertext.length)
          = some a.ciphertext.length)
    ∧ (b.ciphertext.length < a.ciphertext.length → a.add_encrypted b = none) := by
  have hadd : a.add_encrypted b =
      ((List.range a.ciphertext.length).mapM fun i =>
        (b.ciphertext.get? i).map fun bc => a.raw_add (a.ciphertext.getD i 0) bc).bind
        fun sum_ciphertext =>
          some ⟨a.n, a.nsquare, a.max_int, sum_ciphertext, a.exponent⟩ := by
    unfold EncryptedVector.add_encrypted
    rw [if_neg (fun hcon => hcon hab), if_neg (by omega), if_neg (by omega)]
    rfl
  refine ⟨?_, ?_, ?_⟩
  · unfold EncryptedVector.mul_seq
    rw [if_neg hlen]
  · intro hle
    obtain ⟨l, hl1, hl2⟩ := mapM_option_length
      (fun i => (b.ciphertext.get? i).map fun bc => a.raw_add (a.ciphertext.getD i 0) bc)
      (List.range a.ciphertext.length)
      (by
        intro i hi
        have hib : i < b.ciphertext.length := by
          have := List.mem_range.mp hi
          omega
        simp [List.get?_eq_get hib, List.getElem?_eq_getElem hib])
    rw [hadd, hl1]
    simp [hl2]
  · intro hlt
    rw [hadd]
    rw [mapM_option_none _ (List.range a.ciphertext.length) b.ciphertext.length
      (List.mem_range.mpr hlt)
      (by simp [List.get?_eq_none.mpr (le_refl b.ciphertext.length)])]
    rfl

/-- concrete instance of claim C5 amended: a one-element and a two-element
vector (same modulus 35, same exponent) -/
theorem claim_C5_witness :
    EncryptedVector.mul_seq ⟨35, 1225, 10, [2], 0⟩ [2, 3] 0 = none
    ∧ ((1 : ℕ) ≤ 2 →
        (EncryptedVector.add_encrypted ⟨35, 1225, 10, [2], 0⟩
            ⟨35, 1225, 10, [3, 4], 0⟩).map (fun r => r.ciphertext.length) = some 1)
    ∧ ((2 : ℕ) < 1 →
        EncryptedVector.add_encrypted ⟨35, 1225, 10, [2], 0⟩
          ⟨35, 1225, 10, [3, 4], 0⟩ = none) := by
  have h := claim_C5_amended ⟨35, 1225, 10, [2], 0⟩ ⟨35, 1225, 10, [3, 4], 0⟩
    [2, 3] 0 (by decide) rfl rfl
  exact h

theorem mk_private_public {pk : PaillierPublicKey} {p q : ℤ} {sk : PaillierPrivateKey}
    (h : PaillierPrivateKey.mk' pk p q = some sk) : sk.public_key = pk := by
  unfold PaillierPrivateKey.mk' at h
  split at h
  · exact absurd h (by simp)
  · split at h
    · exact absurd h (by simp)
    · rw [← Option.some.inj h]

/-- decrypting any ciphertext of the canonical form
`(1+n)^M · s^n (mod n²)` whose exponent `M` represents the signed mantissa
`x` (with `|x| ≤ max_int`) decodes to `x · BASE^e` -/
theorem decrypt_canonical {p q : ℤ} (hp : Prime p) (hq : Prime q) (hp1 : 1 < p)
    (hq1 : 1 < q) (hpq : p ≠ q) {pk : PaillierPublicKey}
    (hn : pk.n = p * q) (hg : pk.g = pk.n + 1) (hn1 : 1 < pk.n)
    (hmi0 : 0 ≤ pk.max_int) (hmi2 : 2 * pk.max_int < pk.n)
    {sk : PaillierPrivateKey} (hsk : PaillierPrivateKey.mk' pk p q = some sk)
    {x : ℤ} (hx : |x| ≤ pk.max_int) {M : ℕ} (hM : (M : ℤ) ≡ x [ZMOD pk.n])
    {s c : ℤ} (hs : Int.gcd s pk.n = 1)
    (hc : c ≡ (1 + pk.n) ^ M * s ^ pk.n.toNat [ZMOD pk.n * pk.n]) (e : ℤ) :
    sk.decrypt ⟨pk.n, pk.nsquare, pk.max_int, c, e⟩
      = some ((x : ℚ) * (BASE : ℚ) ^ e) := by
  have hraw : sk.raw_decrypt c = (M : ℤ) % pk.n :=
    raw_decrypt_form hp hq hp1 hq1 hpq hn hg hsk M hs hc
  have hraw' : sk.raw_decrypt c = x % pk.n := by rw [hraw]; exact hM.eq
  unfold PaillierPrivateKey.decrypt PaillierPrivateKey.decrypt_encoded
  rw [mk_private_public hsk]
  rw [if_neg (fun hcon => hcon rfl)]
  show EncodedNumber.decode ⟨pk.n, pk.max_int, sk.raw_decrypt c, e⟩
    = some ((x : ℚ) * (BASE : ℚ) ^ e)
  rw [hraw']
  exact decode_wrap hmi2 hmi0 hx e

theorem round_int_div_base_zero (a : ℤ) :
    round ((a : ℚ) / (BASE : ℚ) ^ (0 : ℤ)) = a := by
  rw [zpow_zero, div_one, round_intCast]

/-- encrypting an integer value at exponent 0 succeeds and produces a
ciphertext of the canonical form -/
theorem encrypt_int_form {pk : PaillierPublicKey} (hnsq : pk.nsquare = pk.n * pk.n)
    (hn1 : 1 < pk.n) (htbl : GoodTable pk) {rand : EncRand} (hrand : GoodRand pk rand)
    {a : ℤ} (ha : |a| ≤ pk.max_int) (rv : Option ℤ) :
    ∃ s c, Int.gcd s pk.n = 1 ∧
      pk.encrypt (a : ℚ) 0 rv rand = some ⟨pk.n, pk.nsquare, pk.max_int, c, 0⟩ ∧
      c ≡ (1 + pk.n) ^ (a % pk.n).toNat * s ^ pk.n.toNat [ZMOD pk.n * pk.n] := by
  have hx0 : 0 ≤ a % pk.n := Int.emod_nonneg _ (by omega)
  have hx1 : a % pk.n < pk.n := Int.emod_lt_of_pos _ (by omega)
  obtain ⟨s, hs1, hs2⟩ := raw_encrypt_spec hnsq hn1 htbl hrand hx0 hx1 (some (rv.getD 1))
  refine ⟨s, _, hs1, ?_, hs2⟩
  unfold PaillierPublicKey.encrypt
  have henc : EncodedNumber.encode pk.n pk.max_int (a : ℚ) 0 =
      some ⟨pk.n, pk.max_int, a % pk.n, 0⟩ := by
    unfold EncodedNumber.encode
    rw [round_int_div_base_zero, if_pos ha]
  rw [henc, Option.map_some']
  rfl

/-- adding two ciphertexts with matching modulus and exponent multiplies
the raw ciphertexts mod `n²` -/
theorem add_encrypted_same_exp {a b : EncryptedNumber} (hn : a.n = b.n)
    (he : a.exponent = b.exponent) :
    a.add_encrypted b = some
      ⟨a.n, a.nsquare, a.max_int, mul_mod a.ciphertext b.ciphertext a.nsquare,
        a.exponent⟩ := by
  unfold EncryptedNumber.add_encrypted
  rw [if_neg (fun hcon => hcon hn), if_neg (by omega), if_neg (by omega)]
  rfl

/-- adding an encoded value with matching modulus and exponent multiplies
in the nude encryption of the encoding -/
theorem add_encoded_same_exp {a : EncryptedNumber} {enc : EncodedNumber}
    (hn : a.n = enc.n) (he : a.exponent = enc.exponent) :
    a.add_encoded enc = some
      ⟨a.n, a.nsquare, a.max_int,
        mul_mod a.ciphertext (a.raw_encrypt enc.encoding) a.nsquare, a.exponent⟩ := by
  unfold EncryptedNumber.add_encoded
  rw [if_neg (fun hcon => hcon hn), if_neg (by omega), if_neg (by omega)]
  rfl

/-- multiplying two canonical ciphertexts mod `n²` adds the exponents and
multiplies the blinding factors -/
theorem raw_add_form {n : ℤ} (hn1 : 1 < n) {c1 c2 : ℤ} {M1 M2 : ℕ} {s1 s2 : ℤ}
    (h1 : c1 ≡ (1 + n) ^ M1 * s1 ^ n.toNat [ZMOD n * n])
    (h2 : c2 ≡ (1 + n) ^ M2 * s2 ^ n.toNat [ZMOD n * n]) :
    (c1 * c2) % (n * n) ≡ (1 + n) ^ (M1 + M2) * (s1 * s2) ^ n.toNat [ZMOD n * n] := by
  calc (c1 * c2) % (n * n) ≡ c1 * c2 [ZMOD n * n] := Int.mod_modEq _ _
    _ ≡ ((1 + n) ^ M1 * s1 ^ n.toNat) * ((1 + n) ^ M2 * s2 ^ n.toNat) [ZMOD n * n] :=
        h1.mul h2
    _ = (1 + n) ^ (M1 + M2) * (s1 * s2) ^ n.toNat := by
        rw [pow_add, mul_pow]; ring

/-- Claim C2.  For all integer values `a`, `b` within the safe bound whose
SUM also lies within the bound, both addition forms are homomorphic:
ciphertext plus ciphertext and ciphertext plus plain scalar each decrypt to
`a + b`. -/
theorem claim_C2_addition_homomorphic
    {p q : ℤ} (hp : Prime p) (hq : Prime q) (hp1 : 1 < p) (hq1 : 1 < q)
    (hpq : p ≠ q) (tbl : Option (List ℤ)) (L ns : ℕ) (rv1 rv2 : Option ℤ)
    (rand1 rand2 : EncRand)
    (htbl : GoodTable (PaillierPublicKey.mk' (p * q) tbl L ns))
    (hrand1 : GoodRand (PaillierPublicKey.mk' (p * q) tbl L ns) rand1)
    (hrand2 : GoodRand (PaillierPublicKey.mk' (p * q) tbl L ns) rand2)
    (a b : ℤ)
    (ha : |a| ≤ (PaillierPublicKey.mk' (p * q) tbl L ns).max_int)
    (hb : |b| ≤ (PaillierPublicKey.mk' (p * q) tbl L ns).max_int)
    (hab : |a + b| ≤ (PaillierPublicKey.mk' (p * q) tbl L ns).max_int) :
    ((PaillierPrivateKey.mk' (PaillierPublicKey.mk' (p * q) tbl L ns) p q).bind fun sk =>
      ((PaillierPublicKey.mk' (p * q) tbl L ns).encrypt (a : ℚ) 0 rv1 rand1).bind fun ct1 =>
        ((PaillierPublicKey.mk' (p * q) tbl L ns).encrypt (b : ℚ) 0 rv2 rand2).bind fun ct2 =>
          (ct1.add_encrypted ct2).bind fun ctsum => sk.decrypt ctsum)
      = some ((a : ℚ) + (b : ℚ))
    ∧ ((PaillierPrivateKey.mk' (PaillierPublicKey.mk' (p * q) tbl L ns) p q).bind fun sk =>
      ((PaillierPublicKey.mk' (p * q) tbl L ns).encrypt (a : ℚ) 0 rv1 rand1).bind fun ct1 =>
        (ct1.add_scalar (b : ℚ) 0).bind fun ctsum => sk.decrypt ctsum)
      = some ((a : ℚ) + (b : ℚ)) := by
  set pk := PaillierPublicKey.mk' (p * q) tbl L ns with hpkdef
  have hn : pk.n = p * q := rfl
  have hg : pk.g = pk.n + 1 := rfl
  have hnsq : pk.nsquare = pk.n * pk.n := rfl
  have hmi : pk.max_int = p * q / 3 - 1 := rfl
  have hn4 : 4 ≤ p * q := by nlinarith
  have hn1 : 1 < pk.n := by rw [hn]; omega
  have hmi0 : 0 ≤ pk.max_int := by rw [hmi]; omega
  have hmi2 : 2 * pk.max_int < pk.n := by rw [hmi, hn]; omega
  have hskeq := mk_private_eq hpq hn
  set sk : PaillierPrivateKey :=
    (if q < p then
        ⟨pk, q, p, q * q, p * p, invert q p,
          h_function pk.g q (q * q), h_function pk.g p (p * p)⟩
       else
        ⟨pk, p, q, p * p, q * q, invert p q,
          h_function pk.g p (p * p), h_function pk.g q (q * q)⟩) with hskdef
  obtain ⟨s1, c1, hs1, hct1, hc1⟩ := encrypt_int_form hnsq hn1 htbl hrand1 ha rv1
  obtain ⟨s2, c2, hs2, hct2, hc2⟩ := encrypt_int_form hnsq hn1 htbl hrand2 hb rv2
  have hMsum : (((a % pk.n).toNat + (b % pk.n).toNat : ℕ) : ℤ) ≡ a + b [ZMOD pk.n] := by
    have h1 : (((a % pk.n).toNat : ℤ)) = a % pk.n := Int.toNat_of_nonneg (Int.emod_nonneg _ (by omega))
    have h2 : (((b % pk.n).toNat : ℤ)) = b % pk.n := Int.toNat_of_nonneg (Int.emod_nonneg _ (by omega))
    push_cast
    rw [h1, h2]
    exact (Int.mod_modEq a pk.n).add (Int.mod_modEq b pk.n)
  constructor
  · rw [hskeq, hct1, hct2]
    show (EncryptedNumber.add_encrypted ⟨pk.n, pk.nsquare, pk.max_int, c1, 0⟩
        ⟨pk.n, pk.nsquare, pk.max_int, c2, 0⟩).bind (fun ctsum => sk.decrypt ctsum)
      = some ((a : ℚ) + (b : ℚ))
    rw [add_encrypted_same_exp (a := ⟨pk.n, pk.nsquare, pk.max_int, c1, 0⟩)
      (b := ⟨pk.n, pk.nsquare, pk.max_int, c2, 0⟩) rfl rfl]
    show sk.decrypt ⟨pk.n, pk.nsquare, pk.max_int,
        mul_mod c1 c2 pk.nsquare, 0⟩ = some ((a : ℚ) + (b : ℚ))
    have hsum : mul_mod c1 c2 pk.nsquare
        ≡ (1 + pk.n) ^ ((a % pk.n).toNat + (b % pk.n).toNat)
            * (s1 * s2) ^ pk.n.toNat [ZMOD pk.n * pk.n] := by
      show (c1 * c2) % pk.nsquare ≡ _ [ZMOD _]
      rw [hnsq]
      exact raw_add_form hn1 hc1 hc2
    have hgcd12 : Int.gcd (s1 * s2) pk.n = 1 :=
      Int.isCoprime_iff_gcd_eq_one.mp
        ((Int.isCoprime_iff_gcd_eq_one.mpr hs1).mul_left
          (Int.isCoprime_iff_gcd_eq_one.mpr hs2))
    have := decrypt_canonical hp hq hp1 hq1 hpq hn hg hn1 hmi0 hmi2 hskeq
      hab hMsum hgcd12 hsum 0
    rw [this]
    rw [zpow_zero, mul_one]
    norm_num
  · rw [hskeq, hct1]
    show (EncryptedNumber.add_scalar ⟨pk.n, pk.nsquare, pk.max_int, c1, 0⟩ (b : ℚ) 0).bind
        (fun ctsum => sk.decrypt ctsum) = some ((a : ℚ) + (b : ℚ))
    have hencb : EncodedNumber.encode pk.n pk.max_int (b : ℚ) (min 0 0) =
        some ⟨pk.n, pk.max_int, b % pk.n, 0⟩ := by
      unfold EncodedNumber.encode
      rw [show min (0:ℤ) 0 = 0 from rfl, round_int_div_base_zero, if_pos hb]
    unfold EncryptedNumber.add_scalar
    rw [hencb]
    show (EncryptedNumber.add_encoded ⟨pk.n, pk.nsquare, pk.max_int, c1, 0⟩
        ⟨pk.n, pk.max_int, b % pk.n, 0⟩).bind (fun ctsum => sk.decrypt ctsum)
      = some ((a : ℚ) + (b : ℚ))
    rw [@add_encoded_same_exp ⟨pk.n, pk.nsquare, pk.max_int, c1, 0⟩
      ⟨pk.n, pk.max_int, b % pk.n, 0⟩ rfl rfl]
    show sk.decrypt ⟨pk.n, pk.nsquare, pk.max_int,
        mul_mod c1 (EncryptedNumber.raw_encrypt ⟨pk.n, pk.nsquare, pk.max_int, c1, 0⟩
          (b % pk.n)) pk.nsquare, 0⟩ = some ((a : ℚ) + (b : ℚ))
    have hb0 : 0 ≤ b % pk.n := Int.emod_nonneg _ (by omega)
    have hb1 : b % pk.n < pk.n := Int.emod_lt_of_pos _ (by omega)
    have hesc : EncryptedNumber.raw_encrypt ⟨pk.n, pk.nsquare, pk.max_int, c1, 0⟩ (b % pk.n)
        ≡ (1 + pk.n) ^ (b % pk.n).toNat * 1 ^ pk.n.toNat [ZMOD pk.n * pk.n] := by
      rw [one_pow, mul_one]
      exact en_raw_encrypt_spec hnsq hn1 hb0 hb1
    have hsum : mul_mod c1
        (EncryptedNumber.raw_encrypt ⟨pk.n, pk.nsquare, pk.max_int, c1, 0⟩ (b % pk.n))
        pk.nsquare
        ≡ (1 + pk.n) ^ ((a % pk.n).toNat + (b % pk.n).toNat)
            * (s1 * 1) ^ pk.n.toNat [ZMOD pk.n * pk.n] := by
      show (c1 * _) % pk.nsquare ≡ _ [ZMOD _]
      rw [hnsq]
      exact raw_add_form hn1 hc1 hesc
    have hgcd1 : Int.gcd (s1 * 1) pk.n = 1 := by rwa [mul_one]
    have := decrypt_canonical hp hq hp1 hq1 hpq hn hg hn1 hmi0 hmi2 hskeq
      hab hMsum hgcd1 hsum 0
    rw [this]
    rw [zpow_zero, mul_one]
    norm_num

/-- counterexample to claim C2 as stated: with the keypair `p = 5, q = 7`
(so `max_int = 10`) and `a = b = 10` — both within the safe bound — the sum
of the two ciphertexts decrypts to a residue in neither decodable half, so
decryption fails instead of returning `20` -/
theorem claim_C2_counterexample :
    ((PaillierPrivateKey.mk' (PaillierPublicKey.mk' (5 * 7) none 6 3) 5 7).bind fun sk =>
      ((PaillierPublicKey.mk' (5 * 7) none 6 3).encrypt ((10 : ℤ) : ℚ) 0 none ⟨[], 2⟩).bind
        fun ct1 =>
        ((PaillierPublicKey.mk' (5 * 7) none 6 3).encrypt ((10 : ℤ) : ℚ) 0 none ⟨[], 3⟩).bind
          fun ct2 =>
          (ct1.add_encrypted ct2).bind fun ctsum => sk.decrypt ctsum)
      = none := by
  with_unfolding_all rfl

/-- concrete instance of claim C2 (amended): `a = 3`, `b = 4`, sum `7`
within the bound `10` -/
theorem claim_C2_witness :
    ((PaillierPrivateKey.mk' (PaillierPublicKey.mk' (5 * 7) none 6 3) 5 7).bind fun sk =>
      ((PaillierPublicKey.mk' (5 * 7) none 6 3).encrypt ((3 : ℤ) : ℚ) 0 none ⟨[], 2⟩).bind
        fun ct1 =>
        ((PaillierPublicKey.mk' (5 * 7) none 6 3).encrypt ((4 : ℤ) : ℚ) 0 none ⟨[], 3⟩).bind
          fun ct2 =>
          (ct1.add_encrypted ct2).bind fun ctsum => sk.decrypt ctsum)
      = some (((3 : ℤ) : ℚ) + ((4 : ℤ) : ℚ))
    ∧ ((PaillierPrivateKey.mk' (PaillierPublicKey.mk' (5 * 7) none 6 3) 5 7).bind fun sk =>
      ((PaillierPublicKey.mk' (5 * 7) none 6 3).encrypt ((3 : ℤ) : ℚ) 0 none ⟨[], 2⟩).bind
        fun ct1 =>
        (ct1.add_scalar ((4 : ℤ) : ℚ) 0).bind fun ctsum => sk.decrypt ctsum)
      = some (((3 : ℤ) : ℚ) + ((4 : ℤ) : ℚ)) :=
  claim_C2_addition_homomorphic
    (p := 5) (q := 7)
    (by norm_num) (by norm_num) (by norm_num) (by norm_num) (by norm_num)
    none 6 3 none none ⟨[], 2⟩ ⟨[], 3⟩
    (by intro ct hct; simp [PaillierPublicKey.table, PaillierPublicKey.mk'] at hct)
    ⟨fun _ => by decide, fun i hi => absurd hi (List.not_mem_nil i)⟩
    ⟨fun _ => by decide, fun i hi => absurd hi (List.not_mem_nil i)⟩
    3 4 (by decide) (by decide) (by decide)

/-- the modular inverse of a canonical ciphertext is again canonical, with
a pseudo-exponent congruent to the negated original -/
theorem invert_canonical {n : ℤ} (hn1 : 1 < n) {c : ℤ} {M : ℕ} {s : ℤ}
    (hs : Int.gcd s n = 1) (hc : c ≡ (1 + n) ^ M * s ^ n.toNat [ZMOD n * n]) :
    ∃ (s' : ℤ) (M' : ℕ), Int.gcd s' n = 1 ∧
      invert c (n * n) ≡ (1 + n) ^ M' * s' ^ n.toNat [ZMOD n * n] ∧
      (M' : ℤ) ≡ -(M : ℤ) [ZMOD n] := by
  have hnsq1 : (1 : ℤ) < n * n := by nlinarith
  set N := n.toNat with hNdef
  have hNcast : (N : ℤ) = n := Int.toNat_of_nonneg (by omega)
  have hbin := one_add_mul_pow n (n * n) dvd_rfl
  have h1N : (1 + n) ^ N ≡ 1 [ZMOD n * n] := by
    calc (1 + n) ^ N ≡ 1 + (N : ℤ) * n [ZMOD n * n] := hbin N
      _ = 1 + (n * n) * 1 := by rw [hNcast]; ring
      _ ≡ 1 [ZMOD n * n] := Int.modEq_add_fac_self
  have hcop1n : IsCoprime (1 + n) (n * n) := ⟨1 - n, 1, by ring⟩
  have hcopsn : IsCoprime s n := Int.isCoprime_iff_gcd_eq_one.mpr hs
  have hcops : IsCoprime s (n * n) := hcopsn.mul_right hcopsn
  have hcopc : IsCoprime c (n * n) :=
    isCoprime_of_modEq hc.symm ((hcop1n.pow_left).mul_left (hcops.pow_left))
  obtain ⟨_, _, hcinv⟩ := invert_spec hnsq1 (Int.isCoprime_iff_gcd_eq_one.mp hcopc)
  obtain ⟨_, _, hsinv⟩ := invert_spec hnsq1 (Int.isCoprime_iff_gcd_eq_one.mp hcops)
  set sinv := invert s (n * n) with hsinvdef
  have hsinv_n : s * sinv ≡ 1 [ZMOD n] := hsinv.of_dvd (dvd_mul_right n n)
  have hcop_sinv : Int.gcd sinv n = 1 := by
    obtain ⟨t, ht⟩ := Int.modEq_iff_dvd.mp hsinv_n
    exact Int.isCoprime_iff_gcd_eq_one.mp ⟨s, t, by linear_combination -ht⟩
  have hmodN : M % N < N := Nat.mod_lt M (by omega)
  set Bc := N - M % N with hBcdef
  have hpowM : (1 + n) ^ M = ((1 + n) ^ N) ^ (M / N) * (1 + n) ^ (M % N) := by
    rw [← pow_mul, ← pow_add, Nat.div_add_mod]
  have hMBc : (1 + n) ^ (M + Bc) ≡ 1 [ZMOD n * n] := by
    have hsplit : (1 + n) ^ (M + Bc)
        = ((1 + n) ^ N) ^ (M / N) * ((1 + n) ^ N) := by
      rw [pow_add, hpowM, mul_assoc, ← pow_add, hBcdef,
        Nat.add_sub_cancel' hmodN.le]
    rw [hsplit]
    calc ((1 + n) ^ N) ^ (M / N) * ((1 + n) ^ N)
        ≡ 1 ^ (M / N) * 1 [ZMOD n * n] := (h1N.pow _).mul h1N
      _ = 1 := by ring
  have hssinvN : (s * sinv) ^ N ≡ 1 [ZMOD n * n] := by
    calc (s * sinv) ^ N ≡ 1 ^ N [ZMOD n * n] := hsinv.pow N
      _ = 1 := one_pow _
  have hcw : c * ((1 + n) ^ Bc * sinv ^ N) ≡ 1 [ZMOD n * n] := by
    calc c * ((1 + n) ^ Bc * sinv ^ N)
        ≡ ((1 + n) ^ M * s ^ N) * ((1 + n) ^ Bc * sinv ^ N) [ZMOD n * n] :=
          hc.mul_right _
      _ = (1 + n) ^ (M + Bc) * (s * sinv) ^ N := by rw [pow_add, mul_pow]; ring
      _ ≡ 1 * 1 [ZMOD n * n] := hMBc.mul hssinvN
      _ = 1 := one_mul 1
  refine ⟨sinv, Bc, hcop_sinv, ?_, ?_⟩
  · calc invert c (n * n)
        = invert c (n * n) * 1 := (mul_one _).symm
      _ ≡ invert c (n * n) * (c * ((1 + n) ^ Bc * sinv ^ N)) [ZMOD n * n] :=
          hcw.symm.mul_left _
      _ = (c * invert c (n * n)) * ((1 + n) ^ Bc * sinv ^ N) := by ring
      _ ≡ 1 * ((1 + n) ^ Bc * sinv ^ N) [ZMOD n * n] := hcinv.mul_right _
      _ = (1 + n) ^ Bc * sinv ^ N := one_mul _
  · have hcastBc : (Bc : ℤ) = n - (M : ℤ) % n := by
      rw [hBcdef]
      push_cast [Nat.cast_sub hmodN.le]
      rw [hNcast]
    calc (Bc : ℤ) = n - (M : ℤ) % n := hcastBc
      _ ≡ 0 - (M : ℤ) % n [ZMOD n] := by
          refine Int.ModEq.sub_right _ ?_
          exact (Int.modEq_zero_iff_dvd).mpr dvd_rfl
      _ = -((M : ℤ) % n) := by ring
      _ ≡ -(M : ℤ) [ZMOD n] := (Int.mod_modEq (M : ℤ) n).neg

/-- raising a canonical ciphertext to a power stays canonical, multiplying
the exponent -/
theorem pow_canonical {n : ℤ} {c : ℤ} {M : ℕ} {s : ℤ}
    (hc : c ≡ (1 + n) ^ M * s ^ n.toNat [ZMOD n * n]) (t : ℕ) :
    c ^ t % (n * n) ≡ (1 + n) ^ (M * t) * (s ^ t) ^ n.toNat [ZMOD n * n] := by
  calc c ^ t % (n * n) ≡ c ^ t [ZMOD n * n] := Int.mod_modEq _ _
    _ ≡ ((1 + n) ^ M * s ^ n.toNat) ^ t [ZMOD n * n] := hc.pow t
    _ = (1 + n) ^ (M * t) * (s ^ t) ^ n.toNat := by
        rw [mul_pow, ← pow_mul, ← pow_mul, ← pow_mul, Nat.mul_comm n.toNat t]

/-- `_raw_mul` of a canonical ciphertext by a scalar in `[0, n)` succeeds
and yields a canonical ciphertext whose pseudo-exponent is congruent to
`M · k (mod n)` — in both the plain and the inverse-shortcut branch -/
theorem raw_mul_form {a : EncryptedNumber} (hnsq : a.nsquare = a.n * a.n)
    (hn1 : 1 < a.n) {M : ℕ} {s : ℤ} (hs : Int.gcd s a.n = 1)
    (hc : a.ciphertext ≡ (1 + a.n) ^ M * s ^ a.n.toNat [ZMOD a.n * a.n])
    {k : ℤ} (hk0 : 0 ≤ k) (hkn : k < a.n) :
    ∃ (c' s' : ℤ) (M' : ℕ), a.raw_mul k = some c' ∧ Int.gcd s' a.n = 1 ∧
      c' ≡ (1 + a.n) ^ M' * s' ^ a.n.toNat [ZMOD a.n * a.n] ∧
      (M' : ℤ) ≡ (M : ℤ) * k [ZMOD a.n] := by
  unfold EncryptedNumber.raw_mul
  rw [if_neg (by omega)]
  by_cases hbr : a.n - a.max_int ≤ k
  · rw [if_pos hbr]
    obtain ⟨s0, M0, hgcd0, hinv0, hM0⟩ := invert_canonical hn1 hs hc
    refine ⟨_, s0 ^ (a.n - k).toNat, M0 * (a.n - k).toNat, rfl, ?_, ?_, ?_⟩
    · exact Int.isCoprime_iff_gcd_eq_one.mp
        ((Int.isCoprime_iff_gcd_eq_one.mpr hgcd0).pow_left)
    · rw [powmod_eq, hnsq]
      exact pow_canonical hinv0 (a.n - k).toNat
    · have hcast : (((a.n - k).toNat : ℕ) : ℤ) = a.n - k :=
        Int.toNat_of_nonneg (by omega)
      push_cast
      rw [hcast]
      calc (M0 : ℤ) * (a.n - k) ≡ (-(M : ℤ)) * (0 - k) [ZMOD a.n] := by
            refine hM0.mul ?_
            refine Int.ModEq.sub_right k ?_
            exact (Int.modEq_zero_iff_dvd).mpr dvd_rfl
        _ = (M : ℤ) * k := by ring
  · rw [if_neg hbr]
    refine ⟨_, s ^ k.toNat, M * k.toNat, rfl, ?_, ?_, ?_⟩
    · exact Int.isCoprime_iff_gcd_eq_one.mp
        ((Int.isCoprime_iff_gcd_eq_one.mpr hs).pow_left)
    · rw [powmod_eq, hnsq]
      exact pow_canonical hc k.toNat
    · push_cast
      rw [Int.toNat_of_nonneg hk0]

/-- Claim C3.  For an integer value `a` and integer scalar `k`, each within
the safe bound and with product also within the bound, ciphertext-by-scalar
multiplication is homomorphic: `decrypt(encrypt(a) * k) = a * k`. -/
theorem claim_C3_scalar_multiplication_homomorphic
    {p q : ℤ} (hp : Prime p) (hq : Prime q) (hp1 : 1 < p) (hq1 : 1 < q)
    (hpq : p ≠ q) (tbl : Option (List ℤ)) (L ns : ℕ) (rv : Option ℤ)
    (rand : EncRand)
    (htbl : GoodTable (PaillierPublicKey.mk' (p * q) tbl L ns))
    (hrand : GoodRand (PaillierPublicKey.mk' (p * q) tbl L ns) rand)
    (a k : ℤ)
    (ha : |a| ≤ (PaillierPublicKey.mk' (p * q) tbl L ns).max_int)
    (hk : |k| ≤ (PaillierPublicKey.mk' (p * q) tbl L ns).max_int)
    (hak : |a * k| ≤ (PaillierPublicKey.mk' (p * q) tbl L ns).max_int) :
    ((PaillierPrivateKey.mk' (PaillierPublicKey.mk' (p * q) tbl L ns) p q).bind fun sk =>
      ((PaillierPublicKey.mk' (p * q) tbl L ns).encrypt (a : ℚ) 0 rv rand).bind fun ct =>
        (ct.mul_scalar (k : ℚ) 0).bind fun ctprod => sk.decrypt ctprod)
      = some ((a : ℚ) * (k : ℚ)) := by
  set pk := PaillierPublicKey.mk' (p * q) tbl L ns with hpkdef
  have hn : pk.n = p * q := rfl
  have hg : pk.g = pk.n + 1 := rfl
  have hnsq : pk.nsquare = pk.n * pk.n := rfl
  have hmi : pk.max_int = p * q / 3 - 1 := rfl
  have hn4 : 4 ≤ p * q := by nlinarith
  have hn1 : 1 < pk.n := by rw [hn]; omega
  have hmi0 : 0 ≤ pk.max_int := by rw [hmi]; omega
  have hmi2 : 2 * pk.max_int < pk.n := by rw [hmi, hn]; omega
  have hskeq := mk_private_eq hpq hn
  set sk : PaillierPrivateKey :=
    (if q < p then
        ⟨pk, q, p, q * q, p * p, invert q p,
          h_function pk.g q (q * q), h_function pk.g p (p * p)⟩
       else
        ⟨pk, p, q, p * p, q * q, invert p q,
          h_function pk.g p (p * p), h_function pk.g q (q * q)⟩) with hskdef
  obtain ⟨s1, c1, hs1, hct1, hc1⟩ := encrypt_int_form hnsq hn1 htbl hrand ha rv
  have hk0 : 0 ≤ k % pk.n := Int.emod_nonneg _ (by omega)
  have hk1 : k % pk.n < pk.n := Int.emod_lt_of_pos _ (by omega)
  obtain ⟨c', s', M', hmul, hgcd', hform', hM'⟩ :=
    raw_mul_form (a := ⟨pk.n, pk.nsquare, pk.max_int, c1, 0⟩) hnsq hn1 hs1 hc1 hk0 hk1
  have hmuls : EncryptedNumber.mul_scalar ⟨pk.n, pk.nsquare, pk.max_int, c1, 0⟩ (k : ℚ) 0
      = some ⟨pk.n, pk.nsquare, pk.max_int, c', 0 + 0⟩ := by
    unfold EncryptedNumber.mul_scalar
    have henck : EncodedNumber.encode pk.n pk.max_int (k : ℚ) 0 =
        some ⟨pk.n, pk.max_int, k % pk.n, 0⟩ := by
      unfold EncodedNumber.encode
      rw [round_int_div_base_zero, if_pos hk]
    rw [henck]
    show (EncryptedNumber.raw_mul ⟨pk.n, pk.nsquare, pk.max_int, c1, 0⟩ (k % pk.n)).bind
        (fun product =>
          some (⟨pk.n, pk.nsquare, pk.max_int, product, 0 + 0⟩ : EncryptedNumber))
      = some (⟨pk.n, pk.nsquare, pk.max_int, c', 0 + 0⟩ : EncryptedNumber)
    rw [hmul]
    rfl
  rw [hskeq, hct1]
  show (EncryptedNumber.mul_scalar ⟨pk.n, pk.nsquare, pk.max_int, c1, 0⟩ (k : ℚ) 0).bind
      (fun ctprod => sk.decrypt ctprod) = some ((a : ℚ) * (k : ℚ))
  rw [hmuls]
  show sk.decrypt ⟨pk.n, pk.nsquare, pk.max_int, c', 0⟩ = some ((a : ℚ) * (k : ℚ))
  have hMa : (((a % pk.n).toNat : ℕ) : ℤ) = a % pk.n :=
    Int.toNat_of_nonneg (Int.emod_nonneg _ (by omega))
  have hM : (M' : ℤ) ≡ a * k [ZMOD pk.n] := by
    calc (M' : ℤ)
        ≡ (((a % pk.n).toNat : ℕ) : ℤ) * (k % pk.n) [ZMOD pk.n] := hM'
      _ = (a % pk.n) * (k % pk.n) := by rw [hMa]
      _ ≡ a * k [ZMOD pk.n] := (Int.mod_modEq a pk.n).mul (Int.mod_modEq k pk.n)
  have hdec := decrypt_canonical hp hq hp1 hq1 hpq hn hg hn1 hmi0 hmi2 hskeq
    hak hM hgcd' hform' 0
  rw [hdec, zpow_zero, mul_one]
  norm_num

/-- counterexample to claim C3 as stated: with the keypair `p = 5, q = 7`
(so `max_int = 10`), `a = 10` and `k = 10` — both within the safe bound —
the product ciphertext decrypts to `-5` (the residue `100 mod 35 = 30`
falls in the negative half), not to `100` -/
theorem claim_C3_counterexample :
    ((PaillierPrivateKey.mk' (PaillierPublicKey.mk' (5 * 7) none 6 3) 5 7).bind fun sk =>
      ((PaillierPublicKey.mk' (5 * 7) none 6 3).encrypt ((10 : ℤ) : ℚ) 0 none ⟨[], 2⟩).bind
        fun ct =>
        (ct.mul_scalar ((10 : ℤ) : ℚ) 0).bind fun ctprod => sk.decrypt ctprod)
      = some (-5 : ℚ)
    ∧ (-5 : ℚ) ≠ ((10 : ℤ) : ℚ) * ((10 : ℤ) : ℚ) := by
  refine ⟨?_, by norm_num⟩
  with_unfolding_all rfl

/-- concrete instance of claim C3 (amended): `a = 3`, `k = 2`, product `6`
within the bound `10` -/
theorem claim_C3_witness :
    ((PaillierPrivateKey.mk' (PaillierPublicKey.mk' (5 * 7) none 6 3) 5 7).bind fun sk =>
      ((PaillierPublicKey.mk' (5 * 7) none 6 3).encrypt ((3 : ℤ) : ℚ) 0 none ⟨[], 2⟩).bind
        fun ct =>
        (ct.mul_scalar ((2 : ℤ) : ℚ) 0).bind fun ctprod => sk.decrypt ctprod)
      = some (((3 : ℤ) : ℚ) * ((2 : ℤ) : ℚ)) :=
  claim_C3_scalar_multiplication_homomorphic
    (p := 5) (q := 7)
    (by norm_num) (by norm_num) (by norm_num) (by norm_num) (by norm_num)
    none 6 3 none ⟨[], 2⟩
    (by intro ct hct; simp [PaillierPublicKey.table, PaillierPublicKey.mk'] at hct)
    ⟨fun _ => by decide, fun i hi => absurd hi (List.not_mem_nil i)⟩
    3 2 (by decide) (by decide) (by decide)

theorem round_base_pow (d : ℕ) :
    round ((BASE : ℚ) ^ d / (BASE : ℚ) ^ ((0 : ℤ))) = (BASE : ℤ) ^ d := by
  have h : ((BASE : ℚ)) ^ d = (((BASE : ℤ) ^ d : ℤ) : ℚ) := by push_cast; ring
  rw [h, round_int_div_base_zero]

theorem base_pow_cancel (a : ℤ) (d : ℕ) :
    ((a * BASE ^ d : ℤ) : ℚ) * (BASE : ℚ) ^ (-(d : ℤ)) = (a : ℚ) := by
  have hB0 : ((BASE : ℤ) : ℚ) ≠ 0 := by norm_num [BASE]
  push_cast
  rw [mul_assoc, ← zpow_natCast ((BASE : ℤ) : ℚ) d, ← zpow_add₀ hB0]
  simp

theorem encode_vec_singleton (n mi : ℤ) (v : ℚ) (e : ℤ)
    (h : |round (v / (BASE : ℚ) ^ e)| ≤ mi) :
    EncodedVector.encode n mi [v] e
      = some ⟨n, mi, [round (v / (BASE : ℚ) ^ e) % n], e⟩ := by
  unfold EncodedVector.encode
  simp only [List.map_cons, List.map_nil]
  rw [if_pos (by simp [h])]

/-- Claim C7.  `decrease_exponent_to` with a strictly larger (less
negative) target always fails, for scalars and for vectors; a smaller
(more negative) target `-d`, provided `BASE^d` and the rescaled value stay
within the safe bound, keeps the decoded value and sets the exponent. -/
theorem claim_C7_decrease_exponent_to
    {p q : ℤ} (hp : Prime p) (hq : Prime q) (hp1 : 1 < p) (hq1 : 1 < q)
    (hpq : p ≠ q) (tbl : Option (List ℤ)) (L ns : ℕ) (rv : Option ℤ)
    (rand : EncRand) (rands : ℕ → EncRand)
    (htbl : GoodTable (PaillierPublicKey.mk' (p * q) tbl L ns))
    (hrand : GoodRand (PaillierPublicKey.mk' (p * q) tbl L ns) rand)
    (hrands : ∀ i, GoodRand (PaillierPublicKey.mk' (p * q) tbl L ns) (rands i))
    (d : ℕ) (a : ℤ)
    (ha : |a| ≤ (PaillierPublicKey.mk' (p * q) tbl L ns).max_int)
    (hd : (BASE : ℤ) ^ d ≤ (PaillierPublicKey.mk' (p * q) tbl L ns).max_int)
    (had : |a * BASE ^ d| ≤ (PaillierPublicKey.mk' (p * q) tbl L ns).max_int) :
    (∀ (x : EncryptedNumber) (e : ℤ), x.exponent < e →
      x.decrease_exponent_to e = none)
    ∧ (∀ (v : EncryptedVector) (e : ℤ), v.exponent < e →
      v.decrease_exponent_to e = none)
    ∧ ((PaillierPrivateKey.mk' (PaillierPublicKey.mk' (p * q) tbl L ns) p q).bind fun sk =>
      ((PaillierPublicKey.mk' (p * q) tbl L ns).encrypt (a : ℚ) 0 rv rand).bind fun ct =>
        (ct.decrease_exponent_to (-(d : ℤ))).bind fun ct2 =>
          some (ct2.exponent, sk.decrypt ct2))
      = some (-(d : ℤ), some (a : ℚ))
    ∧ ((PaillierPrivateKey.mk' (PaillierPublicKey.mk' (p * q) tbl L ns) p q).bind fun sk =>
      ((PaillierPublicKey.mk' (p * q) tbl L ns).encrypt_new [(a : ℚ)] 0 rands).bind fun ev =>
        (ev.decrease_exponent_to (-(d : ℤ))).bind fun ev2 =>
          some (ev2.exponent, sk.decrypt_new ev2))
      = some (-(d : ℤ), some [(a : ℚ)]) := by
  set pk := PaillierPublicKey.mk' (p * q) tbl L ns with hpkdef
  have hn : pk.n = p * q := rfl
  have hg : pk.g = pk.n + 1 := rfl
  have hnsq : pk.nsquare = pk.n * pk.n := rfl
  have hmi : pk.max_int = p * q / 3 - 1 := rfl
  have hn4 : 4 ≤ p * q := by nlinarith
  have hn1 : 1 < pk.n := by rw [hn]; omega
  have hmi0 : 0 ≤ pk.max_int := by rw [hmi]; omega
  have hmi2 : 2 * pk.max_int < pk.n := by rw [hmi, hn]; omega
  have hskeq := mk_private_eq hpq hn
  set sk : PaillierPrivateKey :=
    (if q < p then
        ⟨pk, q, p, q * q, p * p, invert q p,
          h_function pk.g q (q * q), h_function pk.g p (p * p)⟩
       else
        ⟨pk, p, q, p * p, q * q, invert p q,
          h_function pk.g p (p * p), h_function pk.g q (q * q)⟩) with hskdef
  have hcond : ¬((0 : ℤ) < -(d : ℤ)) := by omega
  have htn : ((0 : ℤ) - -(d : ℤ)).toNat = d := by omega
  have habs : |(BASE : ℤ) ^ d| ≤ pk.max_int := by
    rw [abs_of_nonneg (pow_nonneg (by norm_num [BASE]) d)]
    exact hd
  have hk0 : 0 ≤ (BASE : ℤ) ^ d % pk.n := Int.emod_nonneg _ (by omega)
  have hk1 : (BASE : ℤ) ^ d % pk.n < pk.n := Int.emod_lt_of_pos _ (by omega)
  have hMa : (((a % pk.n).toNat : ℕ) : ℤ) = a % pk.n :=
    Int.toNat_of_nonneg (Int.emod_nonneg _ (by omega))
  refine ⟨?_, ?_, ?_, ?_⟩
  · intro x e h
    unfold EncryptedNumber.decrease_exponent_to
    rw [if_pos h]
  · intro v e h
    unfold EncryptedVector.decrease_exponent_to
    rw [if_pos h]
  · obtain ⟨s1, c1, hs1, hct1, hc1⟩ := encrypt_int_form hnsq hn1 htbl hrand ha rv
    obtain ⟨c', s', M', hmul, hgcd', hform', hM'⟩ :=
      raw_mul_form (a := ⟨pk.n, pk.nsquare, pk.max_int, c1, 0⟩) hnsq hn1 hs1 hc1 hk0 hk1
    have hM : (M' : ℤ) ≡ a * BASE ^ d [ZMOD pk.n] := by
      calc (M' : ℤ)
          ≡ (((a % pk.n).toNat : ℕ) : ℤ) * ((BASE : ℤ) ^ d % pk.n) [ZMOD pk.n] := hM'
        _ = (a % pk.n) * ((BASE : ℤ) ^ d % pk.n) := by rw [hMa]
        _ ≡ a * BASE ^ d [ZMOD pk.n] :=
            (Int.mod_modEq a pk.n).mul (Int.mod_modEq ((BASE : ℤ) ^ d) pk.n)
    have hmuls : EncryptedNumber.mul_scalar ⟨pk.n, pk.nsquare, pk.max_int, c1, 0⟩
        ((BASE : ℚ) ^ d) 0
        = some ⟨pk.n, pk.nsquare, pk.max_int, c', 0 + 0⟩ := by
      unfold EncryptedNumber.mul_scalar
      have henck : EncodedNumber.encode pk.n pk.max_int ((BASE : ℚ) ^ d) 0 =
          some ⟨pk.n, pk.max_int, (BASE : ℤ) ^ d % pk.n, 0⟩ := by
        unfold EncodedNumber.encode
        rw [round_base_pow, if_pos habs]
      rw [henck]
      show (EncryptedNumber.raw_mul ⟨pk.n, pk.nsquare, pk.max_int, c1, 0⟩
          ((BASE : ℤ) ^ d % pk.n)).bind
          (fun product =>
            some (⟨pk.n, pk.nsquare, pk.max_int, product, 0 + 0⟩ : EncryptedNumber))
        = some (⟨pk.n, pk.nsquare, pk.max_int, c', 0 + 0⟩ : EncryptedNumber)
      rw [hmul]
      rfl
    rw [hskeq, hct1]
    show ((if (0 : ℤ) < -(d : ℤ) then none
        else (EncryptedNumber.mul_scalar ⟨pk.n, pk.nsquare, pk.max_int, c1, 0⟩
          ((BASE : ℚ) ^ ((0 : ℤ) - -(d : ℤ)).toNat) 0).map fun m =>
            (⟨m.n, m.nsquare, m.max_int, m.ciphertext, -(d : ℤ)⟩ : EncryptedNumber)).bind
        fun ct2 => some (ct2.exponent, sk.decrypt ct2))
      = some (-(d : ℤ), some (a : ℚ))
    rw [if_neg hcond, htn, hmuls]
    show some (-(d : ℤ), sk.decrypt ⟨pk.n, pk.nsquare, pk.max_int, c', -(d : ℤ)⟩)
      = some (-(d : ℤ), some (a : ℚ))
    have hdec := decrypt_canonical hp hq hp1 hq1 hpq hn hg hn1 hmi0 hmi2 hskeq
      had hM hgcd' hform' (-(d : ℤ))
    rw [hdec, base_pow_cancel]
  · have ha0 : 0 ≤ a % pk.n := Int.emod_nonneg _ (by omega)
    have ha1 : a % pk.n < pk.n := Int.emod_lt_of_pos _ (by omega)
    obtain ⟨s1, hs1, hc1⟩ := raw_encrypt_spec hnsq hn1 htbl (hrands 0) ha0 ha1 none
    obtain ⟨c', s', M', hmul, hgcd', hform', hM'⟩ :=
      raw_mul_form
        (a := ⟨pk.n, pk.nsquare, pk.max_int, pk.raw_encrypt (a % pk.n) none (rands 0), 0⟩)
        hnsq hn1 hs1 hc1 hk0 hk1
    have hM : (M' : ℤ) ≡ a * BASE ^ d [ZMOD pk.n] := by
      calc (M' : ℤ)
          ≡ (((a % pk.n).toNat : ℕ) : ℤ) * ((BASE : ℤ) ^ d % pk.n) [ZMOD pk.n] := hM'
        _ = (a % pk.n) * ((BASE : ℤ) ^ d % pk.n) := by rw [hMa]
        _ ≡ a * BASE ^ d [ZMOD pk.n] :=
            (Int.mod_modEq a pk.n).mul (Int.mod_modEq ((BASE : ℤ) ^ d) pk.n)
    have hctv : pk.encrypt_new [(a : ℚ)] 0 rands
        = some ⟨pk.n, pk.nsquare, pk.max_int,
            [pk.raw_encrypt (a % pk.n) none (rands 0)], 0⟩ := by
      unfold PaillierPublicKey.encrypt_new
      have henc : EncodedVector.encode pk.n pk.max_int [(a : ℚ)] 0
          = some ⟨pk.n, pk.max_int, [a % pk.n], 0⟩ := by
        have h0 := encode_vec_singleton pk.n pk.max_int ((a : ℚ)) 0
          (by rw [round_int_div_base_zero]; exact ha)
        rwa [round_int_div_base_zero] at h0
      rw [henc, Option.map_some']
      rfl
    have hmulv : EncryptedVector.mul_scalar
        ⟨pk.n, pk.nsquare, pk.max_int, [pk.raw_encrypt (a % pk.n) none (rands 0)], 0⟩
        ((BASE : ℚ) ^ d) 0
        = some ⟨pk.n, pk.nsquare, pk.max_int, [c'], 0 + 0⟩ := by
      unfold EncryptedVector.mul_scalar
      have henck : EncodedVector.encode pk.n pk.max_int [((BASE : ℚ)) ^ d] 0
          = some ⟨pk.n, pk.max_int, [(BASE : ℤ) ^ d % pk.n], 0⟩ := by
        have h0 := encode_vec_singleton pk.n pk.max_int ((BASE : ℚ) ^ d) 0
          (by rw [round_base_pow]; exact habs)
        rwa [round_base_pow] at h0
      rw [henck]
      have hmul2 : EncryptedVector.raw_mul_2
          ⟨pk.n, pk.nsquare, pk.max_int, [pk.raw_encrypt (a % pk.n) none (rands 0)], 0⟩
          (pk.raw_encrypt (a % pk.n) none (rands 0)) ((BASE : ℤ) ^ d % pk.n)
          = some c' := hmul
      show ([pk.raw_encrypt (a % pk.n) none (rands 0)].mapM fun c =>
          EncryptedVector.raw_mul_2
            ⟨pk.n, pk.nsquare, pk.max_int,
              [pk.raw_encrypt (a % pk.n) none (rands 0)], 0⟩
            c ((BASE : ℤ) ^ d % pk.n)).bind
          (fun product =>
            some (⟨pk.n, pk.nsquare, pk.max_int, product, 0 + 0⟩ : EncryptedVector))
        = some (⟨pk.n, pk.nsquare, pk.max_int, [c'], 0 + 0⟩ : EncryptedVector)
      rw [List.mapM_cons, hmul2]
      rfl
    rw [hskeq, hctv]
    show ((if (0 : ℤ) < -(d : ℤ) then none
        else (EncryptedVector.mul_scalar
          ⟨pk.n, pk.nsquare, pk.max_int,
            [pk.raw_encrypt (a % pk.n) none (rands 0)], 0⟩
          ((BASE : ℚ) ^ ((0 : ℤ) - -(d : ℤ)).toNat) 0).map fun m =>
            (⟨m.n, m.nsquare, m.max_int, m.ciphertext, -(d : ℤ)⟩ : EncryptedVector)).bind
        fun ev2 => some (ev2.exponent, sk.decrypt_new ev2))
      = some (-(d : ℤ), some [(a : ℚ)])
    rw [if_neg hcond, htn, hmulv]
    show some (-(d : ℤ), sk.decrypt_new ⟨pk.n, pk.nsquare, pk.max_int, [c'], -(d : ℤ)⟩)
      = some (-(d : ℤ), some [(a : ℚ)])
    have hraw : sk.raw_decrypt c' = (M' : ℤ) % pk.n :=
      raw_decrypt_form hp hq hp1 hq1 hpq hn hg hskeq M' hgcd' hform'
    have hraw' : sk.raw_decrypt c' = (a * BASE ^ d) % pk.n := by
      rw [hraw]; exact hM.eq
    have hdecv : sk.decrypt_new ⟨pk.n, pk.nsquare, pk.max_int, [c'], -(d : ℤ)⟩
        = some [(a : ℚ)] := by
      unfold PaillierPrivateKey.decrypt_new PaillierPrivateKey.decrypt_encoded_new
      rw [mk_private_public hskeq]
      rw [if_neg (fun hcon => hcon rfl)]
      show EncodedVector.decode ⟨pk.n, pk.max_int, [sk.raw_decrypt c'], -(d : ℤ)⟩
        = some [(a : ℚ)]
      unfold EncodedVector.decode
      show ([sk.raw_decrypt c'].mapM fun enc =>
          EncodedNumber.decode ⟨pk.n, pk.max_int, enc, -(d : ℤ)⟩) = some [(a : ℚ)]
      rw [List.mapM_cons, hraw', decode_wrap hmi2 hmi0 had (-(d : ℤ)),
        base_pow_cancel]
      rfl
    rw [hdecv]

theorem map_round_cast (l : List ℤ) :
    (l.map fun a : ℤ => (a : ℚ)).map
      (fun v => round (v / (BASE : ℚ) ^ ((0 : ℤ)))) = l := by
  induction l with
  | nil => rfl
  | cons x xs ih => simp only [List.map_cons, round_int_div_base_zero, ih]

theorem encode_vec_int (n mi : ℤ) (l : List ℤ) (h : ∀ x ∈ l, |x| ≤ mi) :
    EncodedVector.encode n mi (l.map fun a : ℤ => (a : ℚ)) 0
      = some ⟨n, mi, l.map (· % n), 0⟩ := by
  simp only [EncodedVector.encode]
  rw [map_round_cast]
  rw [if_pos (by simp only [List.all_eq_true, decide_eq_true_eq]; exact h)]

theorem gcd_one_mul {n s1 s2 : ℤ} (h1 : Int.gcd s1 n = 1) (h2 : Int.gcd s2 n = 1) :
    Int.gcd (s1 * s2) n = 1 :=
  Int.isCoprime_iff_gcd_eq_one.mp
    ((Int.isCoprime_iff_gcd_eq_one.mpr h1).mul_left
      (Int.isCoprime_iff_gcd_eq_one.mpr h2))

/-- decoding one raw-decrypted canonical element -/
theorem decode_decrypt_elt {p q : ℤ} (hp : Prime p) (hq : Prime q) (hp1 : 1 < p)
    (hq1 : 1 < q) (hpq : p ≠ q) {pk : PaillierPublicKey}
    (hn : pk.n = p * q) (hg : pk.g = pk.n + 1)
    (hmi0 : 0 ≤ pk.max_int) (hmi2 : 2 * pk.max_int < pk.n)
    {sk : PaillierPrivateKey} (hsk : PaillierPrivateKey.mk' pk p q = some sk)
    {x : ℤ} (hx : |x| ≤ pk.max_int) {M : ℕ} (hM : (M : ℤ) ≡ x [ZMOD pk.n])
    {s c : ℤ} (hs : Int.gcd s pk.n = 1)
    (hc : c ≡ (1 + pk.n) ^ M * s ^ pk.n.toNat [ZMOD pk.n * pk.n]) (e : ℤ) :
    EncodedNumber.decode ⟨pk.n, pk.max_int, sk.raw_decrypt c, e⟩
      = some ((x : ℚ) * (BASE : ℚ) ^ e) := by
  have hraw : sk.raw_decrypt c = (M : ℤ) % pk.n :=
    raw_decrypt_form hp hq hp1 hq1 hpq hn hg hsk M hs hc
  have hraw' : sk.raw_decrypt c = x % pk.n := by rw [hraw]; exact hM.eq
  rw [hraw']
  exact decode_wrap hmi2 hmi0 hx e

/-- Claim C6, amended.  For a flat encryption of a row-major 2×3 grid
whose row and column sums also stay within the safe bound, `sum` with
`dim = 1` yields the two row sums, `dim = 0` the three column sums, and any
other `dim` fails.  Without the bound on the sums the original claim is
false: an overflowing row sum makes decryption fail (see the
counterexample). -/
theorem claim_C6_sum_grid
    {p q : ℤ} (hp : Prime p) (hq : Prime q) (hp1 : 1 < p) (hq1 : 1 < q)
    (hpq : p ≠ q) (tbl : Option (List ℤ)) (L ns : ℕ) (rands : ℕ → EncRand)
    (htbl : GoodTable (PaillierPublicKey.mk' (p * q) tbl L ns))
    (hrands : ∀ i, GoodRand (PaillierPublicKey.mk' (p * q) tbl L ns) (rands i))
    (a1 a2 a3 a4 a5 a6 : ℤ)
    (h1 : |a1| ≤ (PaillierPublicKey.mk' (p * q) tbl L ns).max_int)
    (h2 : |a2| ≤ (PaillierPublicKey.mk' (p * q) tbl L ns).max_int)
    (h3 : |a3| ≤ (PaillierPublicKey.mk' (p * q) tbl L ns).max_int)
    (h4 : |a4| ≤ (PaillierPublicKey.mk' (p * q) tbl L ns).max_int)
    (h5 : |a5| ≤ (PaillierPublicKey.mk' (p * q) tbl L ns).max_int)
    (h6 : |a6| ≤ (PaillierPublicKey.mk' (p * q) tbl L ns).max_int)
    (hrow1 : |a1 + a2 + a3| ≤ (PaillierPublicKey.mk' (p * q) tbl L ns).max_int)
    (hrow2 : |a4 + a5 + a6| ≤ (PaillierPublicKey.mk' (p * q) tbl L ns).max_int)
    (hcol1 : |a1 + a4| ≤ (PaillierPublicKey.mk' (p * q) tbl L ns).max_int)
    (hcol2 : |a2 + a5| ≤ (PaillierPublicKey.mk' (p * q) tbl L ns).max_int)
    (hcol3 : |a3 + a6| ≤ (PaillierPublicKey.mk' (p * q) tbl L ns).max_int) :
    ((PaillierPrivateKey.mk' (PaillierPublicKey.mk' (p * q) tbl L ns) p q).bind fun sk =>
      ((PaillierPublicKey.mk' (p * q) tbl L ns).encrypt_new
          [(a1 : ℚ), (a2 : ℚ), (a3 : ℚ), (a4 : ℚ), (a5 : ℚ), (a6 : ℚ)] 0 rands).bind
        fun ev => (ev.sum [2, 3] 1).bind fun evr => sk.decrypt_new evr)
      = some [(a1 : ℚ) + (a2 : ℚ) + (a3 : ℚ), (a4 : ℚ) + (a5 : ℚ) + (a6 : ℚ)]
    ∧ ((PaillierPrivateKey.mk' (PaillierPublicKey.mk' (p * q) tbl L ns) p q).bind fun sk =>
      ((PaillierPublicKey.mk' (p * q) tbl L ns).encrypt_new
          [(a1 : ℚ), (a2 : ℚ), (a3 : ℚ), (a4 : ℚ), (a5 : ℚ), (a6 : ℚ)] 0 rands).bind
        fun ev => (ev.sum [2, 3] 0).bind fun evc => sk.decrypt_new evc)
      = some [(a1 : ℚ) + (a4 : ℚ), (a2 : ℚ) + (a5 : ℚ), (a3 : ℚ) + (a6 : ℚ)]
    ∧ ∀ (v : EncryptedVector) (shape : List ℕ) (dim : ℕ), dim ≠ 0 → dim ≠ 1 →
        v.sum shape dim = none := by
  set pk := PaillierPublicKey.mk' (p * q) tbl L ns with hpkdef
  have hn : pk.n = p * q := rfl
  have hg : pk.g = pk.n + 1 := rfl
  have hnsq : pk.nsquare = pk.n * pk.n := rfl
  have hmi : pk.max_int = p * q / 3 - 1 := rfl
  have hn4 : 4 ≤ p * q := by nlinarith
  have hn1 : 1 < pk.n := by rw [hn]; omega
  have hmi0 : 0 ≤ pk.max_int := by rw [hmi]; omega
  have hmi2 : 2 * pk.max_int < pk.n := by rw [hmi, hn]; omega
  have hskeq := mk_private_eq hpq hn
  set sk : PaillierPrivateKey :=
    (if q < p then
        ⟨pk, q, p, q * q, p * p, invert q p,
          h_function pk.g q (q * q), h_function pk.g p (p * p)⟩
       else
        ⟨pk, p, q, p * p, q * q, invert p q,
          h_function pk.g p (p * p), h_function pk.g q (q * q)⟩) with hskdef
  have hmod0 : ∀ a : ℤ, 0 ≤ a % pk.n := fun a => Int.emod_nonneg _ (by omega)
  have hmod1 : ∀ a : ℤ, a % pk.n < pk.n := fun a => Int.emod_lt_of_pos _ (by omega)
  have hMcast : ∀ a : ℤ, (((a % pk.n).toNat : ℕ) : ℤ) = a % pk.n :=
    fun a => Int.toNat_of_nonneg (hmod0 a)
  obtain ⟨s1, hs1, hc1⟩ := raw_encrypt_spec hnsq hn1 htbl (hrands 0) (hmod0 a1) (hmod1 a1) none
  obtain ⟨s2, hs2, hc2⟩ := raw_encrypt_spec hnsq hn1 htbl (hrands 1) (hmod0 a2) (hmod1 a2) none
  obtain ⟨s3, hs3, hc3⟩ := raw_encrypt_spec hnsq hn1 htbl (hrands 2) (hmod0 a3) (hmod1 a3) none
  obtain ⟨s4, hs4, hc4⟩ := raw_encrypt_spec hnsq hn1 htbl (hrands 3) (hmod0 a4) (hmod1 a4) none
  obtain ⟨s5, hs5, hc5⟩ := raw_encrypt_spec hnsq hn1 htbl (hrands 4) (hmod0 a5) (hmod1 a5) none
  obtain ⟨s6, hs6, hc6⟩ := raw_encrypt_spec hnsq hn1 htbl (hrands 5) (hmod0 a6) (hmod1 a6) none
  have hencv : EncodedVector.encode pk.n pk.max_int
      [(a1 : ℚ), (a2 : ℚ), (a3 : ℚ), (a4 : ℚ), (a5 : ℚ), (a6 : ℚ)] 0
      = some ⟨pk.n, pk.max_int,
          [a1 % pk.n, a2 % pk.n, a3 % pk.n, a4 % pk.n, a5 % pk.n, a6 % pk.n], 0⟩ := by
    have h0 := encode_vec_int pk.n pk.max_int [a1, a2, a3, a4, a5, a6]
      (by
        intro x hx
        simp only [List.mem_cons, List.not_mem_nil, or_false] at hx
        rcases hx with rfl | rfl | rfl | rfl | rfl | rfl <;> assumption)
    simpa using h0
  have hctv : pk.encrypt_new
      [(a1 : ℚ), (a2 : ℚ), (a3 : ℚ), (a4 : ℚ), (a5 : ℚ), (a6 : ℚ)] 0 rands
      = some ⟨pk.n, pk.nsquare, pk.max_int,
          [pk.raw_encrypt (a1 % pk.n) none (rands 0),
           pk.raw_encrypt (a2 % pk.n) none (rands 1),
           pk.raw_encrypt (a3 % pk.n) none (rands 2),
           pk.raw_encrypt (a4 % pk.n) none (rands 3),
           pk.raw_encrypt (a5 % pk.n) none (rands 4),
           pk.raw_encrypt (a6 % pk.n) none (rands 5)], 0⟩ := by
    unfold PaillierPublicKey.encrypt_new
    rw [hencv, Option.map_some']
    rfl
  have hone : (1 : ℤ) ≡ (1 + pk.n) ^ (0 : ℕ) * (1 : ℤ) ^ pk.n.toNat
      [ZMOD pk.n * pk.n] := by simp
  have hgone : Int.gcd (1 : ℤ) pk.n = 1 := by simp [Int.gcd]
  refine ⟨?_, ?_, ?_⟩
  · rw [hskeq, hctv]
    show (EncryptedVector.sum ⟨pk.n, pk.nsquare, pk.max_int,
        [pk.raw_encrypt (a1 % pk.n) none (rands 0),
         pk.raw_encrypt (a2 % pk.n) none (rands 1),
         pk.raw_encrypt (a3 % pk.n) none (rands 2),
         pk.raw_encrypt (a4 % pk.n) none (rands 3),
         pk.raw_encrypt (a5 % pk.n) none (rands 4),
         pk.raw_encrypt (a6 % pk.n) none (rands 5)], 0⟩ [2, 3] 1).bind
        (fun evr => sk.decrypt_new evr)
      = some [(a1 : ℚ) + (a2 : ℚ) + (a3 : ℚ), (a4 : ℚ) + (a5 : ℚ) + (a6 : ℚ)]
    have er11 : mul_mod 1 (pk.raw_encrypt (a1 % pk.n) none (rands 0)) pk.nsquare
        ≡ (1 + pk.n) ^ (0 + (a1 % pk.n).toNat) * (1 * s1) ^ pk.n.toNat
          [ZMOD pk.n * pk.n] := by
      show (1 * pk.raw_encrypt (a1 % pk.n) none (rands 0)) % pk.nsquare ≡ _ [ZMOD _]
      rw [hnsq]; exact raw_add_form hn1 hone hc1
    have er12 : mul_mod (mul_mod 1 (pk.raw_encrypt (a1 % pk.n) none (rands 0)) pk.nsquare)
        (pk.raw_encrypt (a2 % pk.n) none (rands 1)) pk.nsquare
        ≡ (1 + pk.n) ^ ((0 + (a1 % pk.n).toNat) + (a2 % pk.n).toNat)
          * ((1 * s1) * s2) ^ pk.n.toNat [ZMOD pk.n * pk.n] := by
      show (mul_mod 1 (pk.raw_encrypt (a1 % pk.n) none (rands 0)) pk.nsquare
        * pk.raw_encrypt (a2 % pk.n) none (rands 1)) % pk.nsquare ≡ _ [ZMOD _]
      rw [hnsq]; exact raw_add_form hn1 er11 hc2
    have er13 : mul_mod (mul_mod (mul_mod 1
          (pk.raw_encrypt (a1 % pk.n) none (rands 0)) pk.nsquare)
          (pk.raw_encrypt (a2 % pk.n) none (rands 1)) pk.nsquare)
          (pk.raw_encrypt (a3 % pk.n) none (rands 2)) pk.nsquare
        ≡ (1 + pk.n) ^ (((0 + (a1 % pk.n).toNat) + (a2 % pk.n).toNat) + (a3 % pk.n).toNat)
          * (((1 * s1) * s2) * s3) ^ pk.n.toNat [ZMOD pk.n * pk.n] := by
      show (mul_mod (mul_mod 1 (pk.raw_encrypt (a1 % pk.n) none (rands 0)) pk.nsquare)
        (pk.raw_encrypt (a2 % pk.n) none (rands 1)) pk.nsquare
        * pk.raw_encrypt (a3 % pk.n) none (rands 2)) % pk.nsquare ≡ _ [ZMOD _]
      rw [hnsq]; exact raw_add_form hn1 er12 hc3
    have er21 : mul_mod 1 (pk.raw_encrypt (a4 % pk.n) none (rands 3)) pk.nsquare
        ≡ (1 + pk.n) ^ (0 + (a4 % pk.n).toNat) * (1 * s4) ^ pk.n.toNat
          [ZMOD pk.n * pk.n] := by
      show (1 * pk.raw_encrypt (a4 % pk.n) none (rands 3)) % pk.nsquare ≡ _ [ZMOD _]
      rw [hnsq]; exact raw_add_form hn1 hone hc4
    have er22 : mul_mod (mul_mod 1 (pk.raw_encrypt (a4 % pk.n) none (rands 3)) pk.nsquare)
        (pk.raw_encrypt (a5 % pk.n) none (rands 4)) pk.nsquare
        ≡ (1 + pk.n) ^ ((0 + (a4 % pk.n).toNat) + (a5 % pk.n).toNat)
          * ((1 * s4) * s5) ^ pk.n.toNat [ZMOD pk.n * pk.n] := by
      show (mul_mod 1 (pk.raw_encrypt (a4 % pk.n) none (rands 3)) pk.nsquare
        * pk.raw_encrypt (a5 % pk.n) none (rands 4)) % pk.nsquare ≡ _ [ZMOD _]
      rw [hnsq]; exact raw_add_form hn1 er21 hc5
    have er23 : mul_mod (mul_mod (mul_mod 1
          (pk.raw_encrypt (a4 % pk.n) none (rands 3)) pk.nsquare)
          (pk.raw_encrypt (a5 % pk.n) none (rands 4)) pk.nsquare)
          (pk.raw_encrypt (a6 % pk.n) none (rands 5)) pk.nsquare
        ≡ (1 + pk.n) ^ (((0 + (a4 % pk.n).toNat) + (a5 % pk.n).toNat) + (a6 % pk.n).toNat)
          * (((1 * s4) * s5) * s6) ^ pk.n.toNat [ZMOD pk.n * pk.n] := by
      show (mul_mod (mul_mod 1 (pk.raw_encrypt (a4 % pk.n) none (rands 3)) pk.nsquare)
        (pk.raw_encrypt (a5 % pk.n) none (rands 4)) pk.nsquare
        * pk.raw_encrypt (a6 % pk.n) none (rands 5)) % pk.nsquare ≡ _ [ZMOD _]
      rw [hnsq]; exact raw_add_form hn1 er22 hc6
    have hXr1 : (((((0 + (a1 % pk.n).toNat) + (a2 % pk.n).toNat) + (a3 % pk.n).toNat
        : ℕ)) : ℤ) ≡ a1 + a2 + a3 [ZMOD pk.n] := by
      push_cast
      rw [hMcast a1, hMcast a2, hMcast a3]
      simpa using ((Int.mod_modEq a1 pk.n).add (Int.mod_modEq a2 pk.n)).add
        (Int.mod_modEq a3 pk.n)
    have hXr2 : (((((0 + (a4 % pk.n).toNat) + (a5 % pk.n).toNat) + (a6 % pk.n).toNat
        : ℕ)) : ℤ) ≡ a4 + a5 + a6 [ZMOD pk.n] := by
      push_cast
      rw [hMcast a4, hMcast a5, hMcast a6]
      simpa using ((Int.mod_modEq a4 pk.n).add (Int.mod_modEq a5 pk.n)).add
        (Int.mod_modEq a6 pk.n)
    have hd1 := decode_decrypt_elt hp hq hp1 hq1 hpq hn hg hmi0 hmi2 hskeq
      hrow1 hXr1 (gcd_one_mul (gcd_one_mul (gcd_one_mul hgone hs1) hs2) hs3) er13 (0 : ℤ)
    have hd2 := decode_decrypt_elt hp hq hp1 hq1 hpq hn hg hmi0 hmi2 hskeq
      hrow2 hXr2 (gcd_one_mul (gcd_one_mul (gcd_one_mul hgone hs4) hs5) hs6) er23 (0 : ℤ)
    show sk.decrypt_new ⟨pk.n, pk.nsquare, pk.max_int,
        [mul_mod (mul_mod (mul_mod 1
            (pk.raw_encrypt (a1 % pk.n) none (rands 0)) pk.nsquare)
            (pk.raw_encrypt (a2 % pk.n) none (rands 1)) pk.nsquare)
            (pk.raw_encrypt (a3 % pk.n) none (rands 2)) pk.nsquare,
         mul_mod (mul_mod (mul_mod 1
            (pk.raw_encrypt (a4 % pk.n) none (rands 3)) pk.nsquare)
            (pk.raw_encrypt (a5 % pk.n) none (rands 4)) pk.nsquare)
            (pk.raw_encrypt (a6 % pk.n) none (rands 5)) pk.nsquare], 0⟩
      = some [(a1 : ℚ) + (a2 : ℚ) + (a3 : ℚ), (a4 : ℚ) + (a5 : ℚ) + (a6 : ℚ)]
    unfold PaillierPrivateKey.decrypt_new PaillierPrivateKey.decrypt_encoded_new
    rw [mk_private_public hskeq]
    rw [if_neg (fun hcon => hcon rfl)]
    show (EncodedVector.decode ⟨pk.n, pk.max_int, _, (0 : ℤ)⟩) = _
    unfold EncodedVector.decode
    show ([sk.raw_decrypt (mul_mod (mul_mod (mul_mod 1
            (pk.raw_encrypt (a1 % pk.n) none (rands 0)) pk.nsquare)
            (pk.raw_encrypt (a2 % pk.n) none (rands 1)) pk.nsquare)
            (pk.raw_encrypt (a3 % pk.n) none (rands 2)) pk.nsquare),
          sk.raw_decrypt (mul_mod (mul_mod (mul_mod 1
            (pk.raw_encrypt (a4 % pk.n) none (rands 3)) pk.nsquare)
            (pk.raw_encrypt (a5 % pk.n) none (rands 4)) pk.nsquare)
            (pk.raw_encrypt (a6 % pk.n) none (rands 5)) pk.nsquare)].mapM fun enc =>
        EncodedNumber.decode ⟨pk.n, pk.max_int, enc, (0 : ℤ)⟩) = _
    rw [List.mapM_cons, List.mapM_cons, List.mapM_nil, hd1, hd2]
    push_cast [zpow_zero, mul_one]
    rfl
  · rw [hskeq, hctv]
    show (EncryptedVector.sum ⟨pk.n, pk.nsquare, pk.max_int,
        [pk.raw_encrypt (a1 % pk.n) none (rands 0),
         pk.raw_encrypt (a2 % pk.n) none (rands 1),
         pk.raw_encrypt (a3 % pk.n) none (rands 2),
         pk.raw_encrypt (a4 % pk.n) none (rands 3),
         pk.raw_encrypt (a5 % pk.n) none (rands 4),
         pk.raw_encrypt (a6 % pk.n) none (rands 5)], 0⟩ [2, 3] 0).bind
        (fun evc => sk.decrypt_new evc)
      = some [(a1 : ℚ) + (a4 : ℚ), (a2 : ℚ) + (a5 : ℚ), (a3 : ℚ) + (a6 : ℚ)]
    have ec11 : mul_mod 1 (pk.raw_encrypt (a1 % pk.n) none (rands 0)) pk.nsquare
        ≡ (1 + pk.n) ^ (0 + (a1 % pk.n).toNat) * (1 * s1) ^ pk.n.toNat
          [ZMOD pk.n * pk.n] := by
      show (1 * pk.raw_encrypt (a1 % pk.n) none (rands 0)) % pk.nsquare ≡ _ [ZMOD _]
      rw [hnsq]; exact raw_add_form hn1 hone hc1
    have ec12 : mul_mod (mul_mod 1 (pk.raw_encrypt (a1 % pk.n) none (rands 0)) pk.nsquare)
        (pk.raw_encrypt (a4 % pk.n) none (rands 3)) pk.nsquare
        ≡ (1 + pk.n) ^ ((0 + (a1 % pk.n).toNat) + (a4 % pk.n).toNat)
          * ((1 * s1) * s4) ^ pk.n.toNat [ZMOD pk.n * pk.n] := by
      show (mul_mod 1 (pk.raw_encrypt (a1 % pk.n) none (rands 0)) pk.nsquare
        * pk.raw_encrypt (a4 % pk.n) none (rands 3)) % pk.nsquare ≡ _ [ZMOD _]
      rw [hnsq]; exact raw_add_form hn1 ec11 hc4
    have ec21 : mul_mod 1 (pk.raw_encrypt (a2 % pk.n) none (rands 1)) pk.nsquare
        ≡ (1 + pk.n) ^ (0 + (a2 % pk.n).toNat) * (1 * s2) ^ pk.n.toNat
          [ZMOD pk.n * pk.n] := by
      show (1 * pk.raw_encrypt (a2 % pk.n) none (rands 1)) % pk.nsquare ≡ _ [ZMOD _]
      rw [hnsq]; exact raw_add_form hn1 hone hc2
    have ec22 : mul_mod (mul_mod 1 (pk.raw_encrypt (a2 % pk.n) none (rands 1)) pk.nsquare)
        (pk.raw_encrypt (a5 % pk.n) none (rands 4)) pk.nsquare
        ≡ (1 + pk.n) ^ ((0 + (a2 % pk.n).toNat) + (a5 % pk.n).toNat)
          * ((1 * s2) * s5) ^ pk.n.toNat [ZMOD pk.n * pk.n] := by
      show (mul_mod 1 (pk.raw_encrypt (a2 % pk.n) none (rands 1)) pk.nsquare
        * pk.raw_encrypt (a5 % pk.n) none (rands 4)) % pk.nsquare ≡ _ [ZMOD _]
      rw [hnsq]; exact raw_add_form hn1 ec21 hc5
    have ec31 : mul_mod 1 (pk.raw_encrypt (a3 % pk.n) none (rands 2)) pk.nsquare
        ≡ (1 + pk.n) ^ (0 + (a3 % pk.n).toNat) * (1 * s3) ^ pk.n.toNat
          [ZMOD pk.n * pk.n] := by
      show (1 * pk.raw_encrypt (a3 % pk.n) none (rands 2)) % pk.nsquare ≡ _ [ZMOD _]
      rw [hnsq]; exact raw_add_form hn1 hone hc3
    have ec32 : mul_mod (mul_mod 1 (pk.raw_encrypt (a3 % pk.n) none (rands 2)) pk.nsquare)
        (pk.raw_encrypt (a6 % pk.n) none (rands 5)) pk.nsquare
        ≡ (1 + pk.n) ^ ((0 + (a3 % pk.n).toNat) + (a6 % pk.n).toNat)
          * ((1 * s3) * s6) ^ pk.n.toNat [ZMOD pk.n * pk.n] := by
      show (mul_mod 1 (pk.raw_encrypt (a3 % pk.n) none (rands 2)) pk.nsquare
        * pk.raw_encrypt (a6 % pk.n) none (rands 5)) % pk.nsquare ≡ _ [ZMOD _]
      rw [hnsq]; exact raw_add_form hn1 ec31 hc6
    have hXc1 : ((((0 + (a1 % pk.n).toNat) + (a4 % pk.n).toNat : ℕ)) : ℤ)
        ≡ a1 + a4 [ZMOD pk.n] := by
      push_cast
      rw [hMcast a1, hMcast a4]
      simpa using (Int.mod_modEq a1 pk.n).add (Int.mod_modEq a4 pk.n)
    have hXc2 : ((((0 + (a2 % pk.n).toNat) + (a5 % pk.n).toNat : ℕ)) : ℤ)
        ≡ a2 + a5 [ZMOD pk.n] := by
      push_cast
      rw [hMcast a2, hMcast a5]
      simpa using (Int.mod_modEq a2 pk.n).add (Int.mod_modEq a5 pk.n)
    have hXc3 : ((((0 + (a3 % pk.n).toNat) + (a6 % pk.n).toNat : ℕ)) : ℤ)
        ≡ a3 + a6 [ZMOD pk.n] := by
      push_cast
      rw [hMcast a3, hMcast a6]
      simpa using (Int.mod_modEq a3 pk.n).add (Int.mod_modEq a6 pk.n)
    have hd1 := decode_decrypt_elt hp hq hp1 hq1 hpq hn hg hmi0 hmi2 hskeq
      hcol1 hXc1 (gcd_one_mul (gcd_one_mul hgone hs1) hs4) ec12 (0 : ℤ)
    have hd2 := decode_decrypt_elt hp hq hp1 hq1 hpq hn hg hmi0 hmi2 hskeq
      hcol2 hXc2 (gcd_one_mul (gcd_one_mul hgone hs2) hs5) ec22 (0 : ℤ)
    have hd3 := decode_decrypt_elt hp hq hp1 hq1 hpq hn hg hmi0 hmi2 hskeq
      hcol3 hXc3 (gcd_one_mul (gcd_one_mul hgone hs3) hs6) ec32 (0 : ℤ)
    show sk.decrypt_new ⟨pk.n, pk.nsquare, pk.max_int,
        [mul_mod (mul_mod 1 (pk.raw_encrypt (a1 % pk.n) none (rands 0)) pk.nsquare)
            (pk.raw_encrypt (a4 % pk.n) none (rands 3)) pk.nsquare,
         mul_mod (mul_mod 1 (pk.raw_encrypt (a2 % pk.n) none (rands 1)) pk.nsquare)
            (pk.raw_encrypt (a5 % pk.n) none (rands 4)) pk.nsquare,
         mul_mod (mul_mod 1 (pk.raw_encrypt (a3 % pk.n) none (rands 2)) pk.nsquare)
            (pk.raw_encrypt (a6 % pk.n) none (rands 5)) pk.nsquare], 0⟩
      = some [(a1 : ℚ) + (a4 : ℚ), (a2 : ℚ) + (a5 : ℚ), (a3 : ℚ) + (a6 : ℚ)]
    unfold PaillierPrivateKey.decrypt_new PaillierPrivateKey.decrypt_encoded_new
    rw [mk_private_public hskeq]
    rw [if_neg (fun hcon => hcon rfl)]
    show (EncodedVector.decode ⟨pk.n, pk.max_int, _, (0 : ℤ)⟩) = _
    unfold EncodedVector.decode
    show ([sk.raw_decrypt (mul_mod (mul_mod 1
            (pk.raw_encrypt (a1 % pk.n) none (rands 0)) pk.nsquare)
            (pk.raw_encrypt (a4 % pk.n) none (rands 3)) pk.nsquare),
          sk.raw_decrypt (mul_mod (mul_mod 1
            (pk.raw_encrypt (a2 % pk.n) none (rands 1)) pk.nsquare)
            (pk.raw_encrypt (a5 % pk.n) none (rands 4)) pk.nsquare),
          sk.raw_decrypt (mul_mod (mul_mod 1
            (pk.raw_encrypt (a3 % pk.n) none (rands 2)) pk.nsquare)
            (pk.raw_encrypt (a6 % pk.n) none (rands 5)) pk.nsquare)].mapM fun enc =>
        EncodedNumber.decode ⟨pk.n, pk.max_int, enc, (0 : ℤ)⟩) = _
    rw [List.mapM_cons, List.mapM_cons, List.mapM_cons, List.mapM_nil, hd1, hd2, hd3]
    push_cast [zpow_zero, mul_one]
    rfl
  · intro v shape dim h0 h1
    simp [EncryptedVector.sum, h0, h1]

/-- counterexample to claim C6 as stated: with the keypair `p = 5, q = 7`
(`max_int = 10`) and the grid `[[5, 5, 5], [0, 0, 0]]` — every element
within the safe bound — the first row's sum `15` lands in the undecodable
band `(10, 25)`, so `sum(shape=[2,3], dim=1)` decrypts to `none` rather
than the row sums -/
theorem claim_C6_counterexample :
    ((PaillierPrivateKey.mk' (PaillierPublicKey.mk' (5 * 7) none 6 3) 5 7).bind fun sk =>
      ((PaillierPublicKey.mk' (5 * 7) none 6 3).encrypt_new
          [((5 : ℤ) : ℚ), ((5 : ℤ) : ℚ), ((5 : ℤ) : ℚ),
           ((0 : ℤ) : ℚ), ((0 : ℤ) : ℚ), ((0 : ℤ) : ℚ)] 0 (fun _ => ⟨[], 2⟩)).bind
        fun ev => (ev.sum [2, 3] 1).bind fun evr => sk.decrypt_new evr)
      = none := by
  with_unfolding_all rfl

/-- concrete instance of claim C6 (amended): the grid `[[1, 2, 3], [0, 1, 2]]`
under the keypair `p = 5, q = 7`; row sums `[6, 3]`, column sums `[1, 3, 5]`,
and `dim = 5` fails -/
theorem claim_C6_witness :
    (((PaillierPrivateKey.mk' (PaillierPublicKey.mk' (5 * 7) none 6 3) 5 7).bind fun sk =>
      ((PaillierPublicKey.mk' (5 * 7) none 6 3).encrypt_new
          [((1 : ℤ) : ℚ), ((2 : ℤ) : ℚ), ((3 : ℤ) : ℚ),
           ((0 : ℤ) : ℚ), ((1 : ℤ) : ℚ), ((2 : ℤ) : ℚ)] 0 (fun _ => ⟨[], 2⟩)).bind
        fun ev => (ev.sum [2, 3] 1).bind fun evr => sk.decrypt_new evr)
      = some [((1 : ℤ) : ℚ) + ((2 : ℤ) : ℚ) + ((3 : ℤ) : ℚ),
              ((0 : ℤ) : ℚ) + ((1 : ℤ) : ℚ) + ((2 : ℤ) : ℚ)])
    ∧ (((PaillierPrivateKey.mk' (PaillierPublicKey.mk' (5 * 7) none 6 3) 5 7).bind fun sk =>
      ((PaillierPublicKey.mk' (5 * 7) none 6 3).encrypt_new
          [((1 : ℤ) : ℚ), ((2 : ℤ) : ℚ), ((3 : ℤ) : ℚ),
           ((0 : ℤ) : ℚ), ((1 : ℤ) : ℚ), ((2 : ℤ) : ℚ)] 0 (fun _ => ⟨[], 2⟩)).bind
        fun ev => (ev.sum [2, 3] 0).bind fun evc => sk.decrypt_new evc)
      = some [((1 : ℤ) : ℚ) + ((0 : ℤ) : ℚ), ((2 : ℤ) : ℚ) + ((1 : ℤ) : ℚ),
              ((3 : ℤ) : ℚ) + ((2 : ℤ) : ℚ)])
    ∧ EncryptedVector.sum ⟨35, 1225, 10, [], 0⟩ [2, 3] 5 = none := by
  have h := claim_C6_sum_grid
    (p := 5) (q := 7)
    (by norm_num) (by norm_num) (by norm_num) (by norm_num) (by norm_num)
    none 6 3 (fun _ => ⟨[], 2⟩)
    (by intro ct hct; simp [PaillierPublicKey.table, PaillierPublicKey.mk'] at hct)
    (fun _ => (⟨fun _ => by decide, fun i hi => absurd hi (List.not_mem_nil i)⟩ :
      GoodRand (PaillierPublicKey.mk' (5 * 7) none 6 3) ⟨[], 2⟩))
    1 2 3 0 1 2
    (by decide) (by decide) (by decide) (by decide) (by decide) (by decide)
    (by decide) (by decide) (by decide) (by decide) (by decide)
  exact ⟨h.1, h.2.1, h.2.2 ⟨35, 1225, 10, [], 0⟩ [2, 3] 5 (by decide) (by decide)⟩

/-- adding two ciphertext vectors with matching modulus and exponent
combines them element-wise over the left operand's indices -/
theorem add_encrypted_vec_same {a b : EncryptedVector} (hn : a.n = b.n)
    (he : a.exponent = b.exponent) :
    a.add_encrypted b = ((List.range a.ciphertext.length).mapM fun i =>
        (b.ciphertext.get? i).map fun bc => a.raw_add (a.ciphertext.getD i 0) bc).bind
      fun sum_ciphertext =>
        some ⟨a.n, a.nsquare, a.max_int, sum_ciphertext, a.exponent⟩ := by
  unfold EncryptedVector.add_encrypted
  rw [if_neg (fun hcon => hcon hn), if_neg (by omega), if_neg (by omega)]
  rfl

theorem genLoop_spec (L : ℕ) (src : List ℤ) : ∀ (pending : Option ℤ),
    (∀ x ∈ src, Prime x ∧ 1 < x) →
    (∀ y, pending = some y → Prime y ∧ 1 < y) →
    ∀ p q n : ℤ, genLoop L pending src = some (p, q, n) →
    Prime p ∧ Prime q ∧ 1 < p ∧ 1 < q ∧ p ≠ q ∧ n = p * q
      ∧ bit_length (p * q) = L := by
  induction src with
  | nil =>
    intro pending _ _ p q n h
    exact absurd h (by simp [genLoop])
  | cons x rest ih =>
    intro pending hsrc hpend p q n h
    rw [genLoop.eq_def] at h
    cases pending with
    | none =>
      dsimp only at h
      exact ih (some x) (fun y hy => hsrc y (List.mem_cons_of_mem x hy))
        (fun y hy => (Option.some.inj hy) ▸ hsrc x (List.mem_cons_self x rest))
        p q n h
    | some p0 =>
      dsimp only at h
      by_cases hx : x = p0
      · rw [if_pos hx] at h
        exact ih (some p0) (fun y hy => hsrc y (List.mem_cons_of_mem x hy))
          hpend p q n h
      · rw [if_neg hx] at h
        by_cases hbl : bit_length (p0 * x) = L
        · rw [if_pos hbl] at h
          simp only [Option.some.injEq, Prod.mk.injEq] at h
          obtain ⟨rfl, rfl, rfl⟩ := h
          obtain ⟨hpp, hp1p⟩ := hpend p0 rfl
          obtain ⟨hxp, hx1⟩ := hsrc x (List.mem_cons_self x rest)
          exact ⟨hpp, hxp, hp1p, hx1, fun hcon => hx hcon.symm, rfl, hbl⟩
        · rw [if_neg hbl] at h
          exact ih none (fun y hy => hsrc y (List.mem_cons_of_mem x hy))
            (fun y hy => by simp at hy) p q n h

/-- evaluating `from_totient` at the true totient of `n = p·q` -/
theorem from_totient_eval {p q : ℤ} (hp1 : 1 < p) (hq1 : 1 < q) (hpq : p ≠ q)
    (tbl : Option (List ℤ)) (L0 ns : ℕ) :
    PaillierPrivateKey.from_totient (PaillierPublicKey.mk' (p * q) tbl L0 ns)
        ((p - 1) * (q - 1))
      = some ⟨PaillierPublicKey.mk' (p * q) tbl L0 ns, min p q, max p q,
          min p q * min p q, max p q * max p q, invert (min p q) (max p q),
          h_function (PaillierPublicKey.mk' (p * q) tbl L0 ns).g (min p q)
            (min p q * min p q),
          h_function (PaillierPublicKey.mk' (p * q) tbl L0 ns).g (max p q)
            (max p q * max p q)⟩ := by
  set pk := PaillierPublicKey.mk' (p * q) tbl L0 ns with hpkdef
  have hn : pk.n = p * q := rfl
  simp only [PaillierPrivateKey.from_totient]
  have key1 : pk.n - (p - 1) * (q - 1) + 1 = p + q := by rw [hn]; ring
  rw [key1]
  have key2 : (p + q) * (p + q) - pk.n * 4 = |p - q| * |p - q| := by
    rw [hn, abs_mul_abs_self]; ring
  rw [key2, isqrt_sq _ (abs_nonneg _)]
  have key3 : (p + q - |p - q|) / 2 = min p q := by
    rcases le_total p q with h | h
    · rw [abs_of_nonpos (by omega), min_eq_left h]; omega
    · rw [abs_of_nonneg (by omega), min_eq_right h]; omega
  rw [key3]
  have key4 : p + q - min p q = max p q := by
    have := min_add_max p q
    omega
  rw [key4]
  have key5 : max p q * min p q = pk.n := by
    rcases le_total p q with h | h
    · rw [max_eq_right h, min_eq_left h, hn, mul_comm]
    · rw [max_eq_left h, min_eq_right h, hn]
  rw [if_neg (fun hcon => hcon key5)]
  have hne : max p q ≠ min p q := by
    rcases lt_or_gt_of_ne hpq with h | h
    · rw [max_eq_right h.le, min_eq_left h.le]; exact h.ne'
    · rw [max_eq_left h.le, min_eq_right h.le]; exact h.ne'
  have hlt : min p q < max p q := by
    rcases lt_or_gt_of_ne hpq with h | h
    · rw [max_eq_right h.le, min_eq_left h.le]; exact h
    · rw [max_eq_left h.le, min_eq_right h.le]; exact h
  simp only [PaillierPrivateKey.mk']
  rw [if_neg (fun hcon => hcon key5), if_neg hne, if_pos hlt, if_pos hlt]

/-- Claim C8.  A successful run of the `generate_keys` sampling loop over a
stream of primes yields distinct primes with `n = p·q` of the requested bit
length, and `from_totient` at the true totient reconstructs `(p, q)` up to
ordering. -/
theorem claim_C8_generate_keys
    (L : ℕ) (src : List ℤ) (hsrc : ∀ x ∈ src, Prime x ∧ 1 < x)
    (tbl : Option (List ℤ)) (ns : ℕ)
    {p q n : ℤ} (h : genLoop L none src = some (p, q, n)) :
    Prime p ∧ Prime q ∧ p ≠ q ∧ n = p * q
    ∧ bit_length n = L ∧ 2 ^ (L - 1) ≤ n.toNat ∧ n.toNat < 2 ^ L
    ∧ PaillierPrivateKey.from_totient (PaillierPublicKey.mk' n tbl L ns)
        ((p - 1) * (q - 1))
      = some ⟨PaillierPublicKey.mk' n tbl L ns, min p q, max p q,
          min p q * min p q, max p q * max p q, invert (min p q) (max p q),
          h_function (PaillierPublicKey.mk' n tbl L ns).g (min p q)
            (min p q * min p q),
          h_function (PaillierPublicKey.mk' n tbl L ns).g (max p q)
            (max p q * max p q)⟩ := by
  obtain ⟨hp, hq, hp1, hq1, hpq, hn, hbl⟩ :=
    genLoop_spec L src none hsrc (fun y hy => by simp at hy) p q n h
  subst hn
  have hbits := bit_length_spec (x := p * q) (by nlinarith)
  rw [hbl] at hbits
  exact ⟨hp, hq, hpq, rfl, hbl, hbits.1, hbits.2, from_totient_eval hp1 hq1 hpq tbl L ns⟩

/-- concrete instance of claim C8: the prime stream `[5, 7]` at requested
bit length `6` yields `n = 35`, and `from_totient` at `24` reconstructs
`(5, 7)` -/
theorem claim_C8_witness :
    Prime (5 : ℤ) ∧ Prime (7 : ℤ) ∧ (5 : ℤ) ≠ 7 ∧ (35 : ℤ) = 5 * 7
    ∧ bit_length 35 = 6 ∧ 2 ^ (6 - 1) ≤ (35 : ℤ).toNat ∧ (35 : ℤ).toNat < 2 ^ 6
    ∧ PaillierPrivateKey.from_totient (PaillierPublicKey.mk' 35 none 6 3)
        ((5 - 1) * (7 - 1))
      = some ⟨PaillierPublicKey.mk' 35 none 6 3, min 5 7, max 5 7,
          min 5 7 * min 5 7, max 5 7 * max 5 7, invert (min 5 7) (max 5 7),
          h_function (PaillierPublicKey.mk' 35 none 6 3).g (min 5 7)
            (min 5 7 * min 5 7),
          h_function (PaillierPublicKey.mk' 35 none 6 3).g (max 5 7)
            (max 5 7 * max 5 7)⟩ :=
  claim_C8_generate_keys 6 [5, 7]
    (by
      intro x hx
      simp only [List.mem_cons, List.not_mem_nil, or_false] at hx
      rcases hx with rfl | rfl
      · exact ⟨by norm_num, by norm_num⟩
      · exact ⟨by norm_num, by norm_num⟩)
    none 3 (by decide)

/-- Claim C4, amended.  The vector demo: encrypting `[3.5, 2.1, 7.9]` (as
the exact dyadic rationals the IEEE doubles denote, at fixed-point exponent
`-13`), adding the ciphertext vector to itself and decrypting yields the
exact doubles `[7.0, 4.2, 15.8]`; multiplying that doubled ciphertext
vector by the scalar `4` and decrypting yields `[28.0, 16.8, 63.2]` — 8×
the original values — and NOT the `[14.0, 8.4, 31.6]` (4× the originals)
that the claim, following the demo's comment, asserts. -/
theorem claim_C4_vector_demo
    {p q : ℤ} (hp : Prime p) (hq : Prime q) (hp1 : 1 < p) (hq1 : 1 < q)
    (hpq : p ≠ q) (tbl : Option (List ℤ)) (L ns : ℕ) (rands : ℕ → EncRand)
    (htbl : GoodTable (PaillierPublicKey.mk' (p * q) tbl L ns))
    (hrands : ∀ i, GoodRand (PaillierPublicKey.mk' (p * q) tbl L ns) (rands i))
    (hbig : (284627496449815360 : ℤ) ≤ (PaillierPublicKey.mk' (p * q) tbl L ns).max_int) :
    ((PaillierPrivateKey.mk' (PaillierPublicKey.mk' (p * q) tbl L ns) p q).bind fun sk =>
      ((PaillierPublicKey.mk' (p * q) tbl L ns).encrypt_new
          [(7 / 2 : ℚ), (4728779608739021 / 2251799813685248 : ℚ),
           (4447304632028365 / 562949953421312 : ℚ)] (-13) rands).bind fun ev =>
        (ev.add_encrypted ev).bind fun ev2 => sk.decrypt_new ev2)
      = some [(7 : ℚ), (4728779608739021 / 1125899906842624 : ℚ),
              (4447304632028365 / 281474976710656 : ℚ)]
    ∧ ((PaillierPrivateKey.mk' (PaillierPublicKey.mk' (p * q) tbl L ns) p q).bind fun sk =>
      ((PaillierPublicKey.mk' (p * q) tbl L ns).encrypt_new
          [(7 / 2 : ℚ), (4728779608739021 / 2251799813685248 : ℚ),
           (4447304632028365 / 562949953421312 : ℚ)] (-13) rands).bind fun ev =>
        (ev.add_encrypted ev).bind fun ev2 =>
          (ev2.mul_scalar ((4 : ℤ) : ℚ) 0).bind fun ev3 => sk.decrypt_new ev3)
      = some [(28 : ℚ), (4728779608739021 / 281474976710656 : ℚ),
              (4447304632028365 / 70368744177664 : ℚ)] := by
  set pk := PaillierPublicKey.mk' (p * q) tbl L ns with hpkdef
  have hn : pk.n = p * q := rfl
  have hg : pk.g = pk.n + 1 := rfl
  have hnsq : pk.nsquare = pk.n * pk.n := rfl
  have hmi : pk.max_int = p * q / 3 - 1 := rfl
  have hn4 : 4 ≤ p * q := by nlinarith
  have hn1 : 1 < pk.n := by rw [hn]; omega
  have hmi0 : 0 ≤ pk.max_int := by rw [hmi]; omega
  have hmi2 : 2 * pk.max_int < pk.n := by rw [hmi, hn]; omega
  have hskeq := mk_private_eq hpq hn
  set sk : PaillierPrivateKey :=
    (if q < p then
        ⟨pk, q, p, q * q, p * p, invert q p,
          h_function pk.g q (q * q), h_function pk.g p (p * p)⟩
       else
        ⟨pk, p, q, p * p, q * q, invert p q,
          h_function pk.g p (p * p), h_function pk.g q (q * q)⟩) with hskdef
  have hmod0 : ∀ a : ℤ, 0 ≤ a % pk.n := fun a => Int.emod_nonneg _ (by omega)
  have hmod1 : ∀ a : ℤ, a % pk.n < pk.n := fun a => Int.emod_lt_of_pos _ (by omega)
  have hMcast : ∀ a : ℤ, (((a % pk.n).toNat : ℕ) : ℤ) = a % pk.n :=
    fun a => Int.toNat_of_nonneg (hmod0 a)
  have hr1 : round ((7 / 2 : ℚ) / (BASE : ℚ) ^ (-13 : ℤ))
      = (15762598695796736 : ℤ) := by with_unfolding_all rfl
  have hr2 : round ((4728779608739021 / 2251799813685248 : ℚ) / (BASE : ℚ) ^ (-13 : ℤ))
      = (9457559217478042 : ℤ) := by with_unfolding_all rfl
  have hr3 : round ((4447304632028365 / 562949953421312 : ℚ) / (BASE : ℚ) ^ (-13 : ℤ))
      = (35578437056226920 : ℤ) := by with_unfolding_all rfl
  have hencv : EncodedVector.encode pk.n pk.max_int
      [(7 / 2 : ℚ), (4728779608739021 / 2251799813685248 : ℚ),
       (4447304632028365 / 562949953421312 : ℚ)] (-13)
      = some ⟨pk.n, pk.max_int,
          [(15762598695796736 : ℤ) % pk.n, (9457559217478042 : ℤ) % pk.n,
           (35578437056226920 : ℤ) % pk.n], -13⟩ := by
    simp only [EncodedVector.encode, List.map_cons, List.map_nil]
    rw [hr1, hr2, hr3]
    rw [if_pos (by
      simp only [List.all_cons, List.all_nil, Bool.and_true, Bool.and_eq_true,
        decide_eq_true_eq]
      refine ⟨?_, ?_, ?_⟩ <;> · rw [abs_of_nonneg (by norm_num)]; linarith)]
  have hctv : pk.encrypt_new
      [(7 / 2 : ℚ), (4728779608739021 / 2251799813685248 : ℚ),
       (4447304632028365 / 562949953421312 : ℚ)] (-13) rands
      = some ⟨pk.n, pk.nsquare, pk.max_int,
          [pk.raw_encrypt ((15762598695796736 : ℤ) % pk.n) none (rands 0),
           pk.raw_encrypt ((9457559217478042 : ℤ) % pk.n) none (rands 1),
           pk.raw_encrypt ((35578437056226920 : ℤ) % pk.n) none (rands 2)], -13⟩ := by
    unfold PaillierPublicKey.encrypt_new
    rw [hencv, Option.map_some']
    rfl
  obtain ⟨s1, hs1, hc1⟩ := raw_encrypt_spec hnsq hn1 htbl (hrands 0)
    (hmod0 15762598695796736) (hmod1 15762598695796736) none
  obtain ⟨s2, hs2, hc2⟩ := raw_encrypt_spec hnsq hn1 htbl (hrands 1)
    (hmod0 9457559217478042) (hmod1 9457559217478042) none
  obtain ⟨s3, hs3, hc3⟩ := raw_encrypt_spec hnsq hn1 htbl (hrands 2)
    (hmod0 35578437056226920) (hmod1 35578437056226920) none
  have haddv : EncryptedVector.add_encrypted
      ⟨pk.n, pk.nsquare, pk.max_int,
        [pk.raw_encrypt ((15762598695796736 : ℤ) % pk.n) none (rands 0),
         pk.raw_encrypt ((9457559217478042 : ℤ) % pk.n) none (rands 1),
         pk.raw_encrypt ((35578437056226920 : ℤ) % pk.n) none (rands 2)], -13⟩
      ⟨pk.n, pk.nsquare, pk.max_int,
        [pk.raw_encrypt ((15762598695796736 : ℤ) % pk.n) none (rands 0),
         pk.raw_encrypt ((9457559217478042 : ℤ) % pk.n) none (rands 1),
         pk.raw_encrypt ((35578437056226920 : ℤ) % pk.n) none (rands 2)], -13⟩
      = some ⟨pk.n, pk.nsquare, pk.max_int,
          [mul_mod (pk.raw_encrypt ((15762598695796736 : ℤ) % pk.n) none (rands 0))
             (pk.raw_encrypt ((15762598695796736 : ℤ) % pk.n) none (rands 0)) pk.nsquare,
           mul_mod (pk.raw_encrypt ((9457559217478042 : ℤ) % pk.n) none (rands 1))
             (pk.raw_encrypt ((9457559217478042 : ℤ) % pk.n) none (rands 1)) pk.nsquare,
           mul_mod (pk.raw_encrypt ((35578437056226920 : ℤ) % pk.n) none (rands 2))
             (pk.raw_encrypt ((35578437056226920 : ℤ) % pk.n) none (rands 2)) pk.nsquare],
          -13⟩ := by
    rw [add_encrypted_vec_same
      (a := ⟨pk.n, pk.nsquare, pk.max_int,
        [pk.raw_encrypt ((15762598695796736 : ℤ) % pk.n) none (rands 0),
         pk.raw_encrypt ((9457559217478042 : ℤ) % pk.n) none (rands 1),
         pk.raw_encrypt ((35578437056226920 : ℤ) % pk.n) none (rands 2)], -13⟩)
      (b := ⟨pk.n, pk.nsquare, pk.max_int,
        [pk.raw_encrypt ((15762598695796736 : ℤ) % pk.n) none (rands 0),
         pk.raw_encrypt ((9457559217478042 : ℤ) % pk.n) none (rands 1),
         pk.raw_encrypt ((35578437056226920 : ℤ) % pk.n) none (rands 2)], -13⟩)
      rfl rfl]
    rfl
  have hu1 : mul_mod (pk.raw_encrypt ((15762598695796736 : ℤ) % pk.n) none (rands 0))
      (pk.raw_encrypt ((15762598695796736 : ℤ) % pk.n) none (rands 0)) pk.nsquare
      ≡ (1 + pk.n) ^ (((15762598695796736 : ℤ) % pk.n).toNat
          + ((15762598695796736 : ℤ) % pk.n).toNat)
        * (s1 * s1) ^ pk.n.toNat [ZMOD pk.n * pk.n] := by
    show (pk.raw_encrypt ((15762598695796736 : ℤ) % pk.n) none (rands 0)
      * pk.raw_encrypt ((15762598695796736 : ℤ) % pk.n) none (rands 0)) % pk.nsquare
      ≡ _ [ZMOD _]
    rw [hnsq]; exact raw_add_form hn1 hc1 hc1
  have hu2 : mul_mod (pk.raw_encrypt ((9457559217478042 : ℤ) % pk.n) none (rands 1))
      (pk.raw_encrypt ((9457559217478042 : ℤ) % pk.n) none (rands 1)) pk.nsquare
      ≡ (1 + pk.n) ^ (((9457559217478042 : ℤ) % pk.n).toNat
          + ((9457559217478042 : ℤ) % pk.n).toNat)
        * (s2 * s2) ^ pk.n.toNat [ZMOD pk.n * pk.n] := by
    show (pk.raw_encrypt ((9457559217478042 : ℤ) % pk.n) none (rands 1)
      * pk.raw_encrypt ((9457559217478042 : ℤ) % pk.n) none (rands 1)) % pk.nsquare
      ≡ _ [ZMOD _]
    rw [hnsq]; exact raw_add_form hn1 hc2 hc2
  have hu3 : mul_mod (pk.raw_encrypt ((35578437056226920 : ℤ) % pk.n) none (rands 2))
      (pk.raw_encrypt ((35578437056226920 : ℤ) % pk.n) none (rands 2)) pk.nsquare
      ≡ (1 + pk.n) ^ (((35578437056226920 : ℤ) % pk.n).toNat
          + ((35578437056226920 : ℤ) % pk.n).toNat)
        * (s3 * s3) ^ pk.n.toNat [ZMOD pk.n * pk.n] := by
    show (pk.raw_encrypt ((35578437056226920 : ℤ) % pk.n) none (rands 2)
      * pk.raw_encrypt ((35578437056226920 : ℤ) % pk.n) none (rands 2)) % pk.nsquare
      ≡ _ [ZMOD _]
    rw [hnsq]; exact raw_add_form hn1 hc3 hc3
  have hX1 : (((((15762598695796736 : ℤ) % pk.n).toNat
      + ((15762598695796736 : ℤ) % pk.n).toNat : ℕ)) : ℤ)
      ≡ (15762598695796736 : ℤ) + 15762598695796736 [ZMOD pk.n] := by
    push_cast
    rw [hMcast 15762598695796736]
    exact (Int.mod_modEq _ _).add (Int.mod_modEq _ _)
  have hX2 : (((((9457559217478042 : ℤ) % pk.n).toNat
      + ((9457559217478042 : ℤ) % pk.n).toNat : ℕ)) : ℤ)
      ≡ (9457559217478042 : ℤ) + 9457559217478042 [ZMOD pk.n] := by
    push_cast
    rw [hMcast 9457559217478042]
    exact (Int.mod_modEq _ _).add (Int.mod_modEq _ _)
  have hX3 : (((((35578437056226920 : ℤ) % pk.n).toNat
      + ((35578437056226920 : ℤ) % pk.n).toNat : ℕ)) : ℤ)
      ≡ (35578437056226920 : ℤ) + 35578437056226920 [ZMOD pk.n] := by
    push_cast
    rw [hMcast 35578437056226920]
    exact (Int.mod_modEq _ _).add (Int.mod_modEq _ _)
  have habs1 : |(15762598695796736 : ℤ) + 15762598695796736| ≤ pk.max_int := by
    rw [abs_of_nonneg (by norm_num)]; linarith
  have habs2 : |(9457559217478042 : ℤ) + 9457559217478042| ≤ pk.max_int := by
    rw [abs_of_nonneg (by norm_num)]; linarith
  have habs3 : |(35578437056226920 : ℤ) + 35578437056226920| ≤ pk.max_int := by
    rw [abs_of_nonneg (by norm_num)]; linarith
  have hd1 := decode_decrypt_elt hp hq hp1 hq1 hpq hn hg hmi0 hmi2 hskeq
    habs1 hX1 (gcd_one_mul hs1 hs1) hu1 (-13 : ℤ)
  have hd2 := decode_decrypt_elt hp hq hp1 hq1 hpq hn hg hmi0 hmi2 hskeq
    habs2 hX2 (gcd_one_mul hs2 hs2) hu2 (-13 : ℤ)
  have hd3 := decode_decrypt_elt hp hq hp1 hq1 hpq hn hg hmi0 hmi2 hskeq
    habs3 hX3 (gcd_one_mul hs3 hs3) hu3 (-13 : ℤ)
  constructor
  · rw [hskeq, hctv]
    show (EncryptedVector.add_encrypted
        ⟨pk.n, pk.nsquare, pk.max_int,
          [pk.raw_encrypt ((15762598695796736 : ℤ) % pk.n) none (rands 0),
           pk.raw_encrypt ((9457559217478042 : ℤ) % pk.n) none (rands 1),
           pk.raw_encrypt ((35578437056226920 : ℤ) % pk.n) none (rands 2)], -13⟩
        ⟨pk.n, pk.nsquare, pk.max_int,
          [pk.raw_encrypt ((15762598695796736 : ℤ) % pk.n) none (rands 0),
           pk.raw_encrypt ((9457559217478042 : ℤ) % pk.n) none (rands 1),
           pk.raw_encrypt ((35578437056226920 : ℤ) % pk.n) none (rands 2)], -13⟩).bind
        (fun ev2 => sk.decrypt_new ev2)
      = some [(7 : ℚ), (4728779608739021 / 1125899906842624 : ℚ),
              (4447304632028365 / 281474976710656 : ℚ)]
    rw [haddv]
    show sk.decrypt_new ⟨pk.n, pk.nsquare, pk.max_int,
        [mul_mod (pk.raw_encrypt ((15762598695796736 : ℤ) % pk.n) none (rands 0))
           (pk.raw_encrypt ((15762598695796736 : ℤ) % pk.n) none (rands 0)) pk.nsquare,
         mul_mod (pk.raw_encrypt ((9457559217478042 : ℤ) % pk.n) none (rands 1))
           (pk.raw_encrypt ((9457559217478042 : ℤ) % pk.n) none (rands 1)) pk.nsquare,
         mul_mod (pk.raw_encrypt ((35578437056226920 : ℤ) % pk.n) none (rands 2))
           (pk.raw_encrypt ((35578437056226920 : ℤ) % pk.n) none (rands 2)) pk.nsquare],
        -13⟩
      = some [(7 : ℚ), (4728779608739021 / 1125899906842624 : ℚ),
              (4447304632028365 / 281474976710656 : ℚ)]
    unfold PaillierPrivateKey.decrypt_new PaillierPrivateKey.decrypt_encoded_new
    rw [mk_private_public hskeq]
    rw [if_neg (fun hcon => hcon rfl)]
    show (EncodedVector.decode ⟨pk.n, pk.max_int, _, (-13 : ℤ)⟩) = _
    unfold EncodedVector.decode
    show ([sk.raw_decrypt (mul_mod
            (pk.raw_encrypt ((15762598695796736 : ℤ) % pk.n) none (rands 0))
            (pk.raw_encrypt ((15762598695796736 : ℤ) % pk.n) none (rands 0)) pk.nsquare),
          sk.raw_decrypt (mul_mod
            (pk.raw_encrypt ((9457559217478042 : ℤ) % pk.n) none (rands 1))
            (pk.raw_encrypt ((9457559217478042 : ℤ) % pk.n) none (rands 1)) pk.nsquare),
          sk.raw_decrypt (mul_mod
            (pk.raw_encrypt ((35578437056226920 : ℤ) % pk.n) none (rands 2))
            (pk.raw_encrypt ((35578437056226920 : ℤ) % pk.n) none (rands 2))
            pk.nsquare)].mapM fun enc =>
        EncodedNumber.decode ⟨pk.n, pk.max_int, enc, (-13 : ℤ)⟩) = _
    rw [List.mapM_cons, List.mapM_cons, List.mapM_cons, List.mapM_nil, hd1, hd2, hd3]
    with_unfolding_all rfl
  · rw [hskeq, hctv]
    show (EncryptedVector.add_encrypted
        ⟨pk.n, pk.nsquare, pk.max_int,
          [pk.raw_encrypt ((15762598695796736 : ℤ) % pk.n) none (rands 0),
           pk.raw_encrypt ((9457559217478042 : ℤ) % pk.n) none (rands 1),
           pk.raw_encrypt ((35578437056226920 : ℤ) % pk.n) none (rands 2)], -13⟩
        ⟨pk.n, pk.nsquare, pk.max_int,
          [pk.raw_encrypt ((15762598695796736 : ℤ) % pk.n) none (rands 0),
           pk.raw_encrypt ((9457559217478042 : ℤ) % pk.n) none (rands 1),
           pk.raw_encrypt ((35578437056226920 : ℤ) % pk.n) none (rands 2)], -13⟩).bind
        (fun ev2 => (ev2.mul_scalar ((4 : ℤ) : ℚ) 0).bind fun ev3 => sk.decrypt_new ev3)
      = some [(28 : ℚ), (4728779608739021 / 281474976710656 : ℚ),
              (4447304632028365 / 70368744177664 : ℚ)]
    rw [haddv]
    have hk0 : 0 ≤ (4 : ℤ) % pk.n := hmod0 4
    have hk1 : (4 : ℤ) % pk.n < pk.n := hmod1 4
    obtain ⟨w1, sw1, Mw1, hm1, hgw1, hfw1, hMw1⟩ :=
      raw_mul_form (a := ⟨pk.n, pk.nsquare, pk.max_int,
        mul_mod (pk.raw_encrypt ((15762598695796736 : ℤ) % pk.n) none (rands 0))
          (pk.raw_encrypt ((15762598695796736 : ℤ) % pk.n) none (rands 0)) pk.nsquare,
        -13⟩) hnsq hn1 (gcd_one_mul hs1 hs1) hu1 hk0 hk1
    obtain ⟨w2, sw2, Mw2, hm2, hgw2, hfw2, hMw2⟩ :=
      raw_mul_form (a := ⟨pk.n, pk.nsquare, pk.max_int,
        mul_mod (pk.raw_encrypt ((9457559217478042 : ℤ) % pk.n) none (rands 1))
          (pk.raw_encrypt ((9457559217478042 : ℤ) % pk.n) none (rands 1)) pk.nsquare,
        -13⟩) hnsq hn1 (gcd_one_mul hs2 hs2) hu2 hk0 hk1
    obtain ⟨w3, sw3, Mw3, hm3, hgw3, hfw3, hMw3⟩ :=
      raw_mul_form (a := ⟨pk.n, pk.nsquare, pk.max_int,
        mul_mod (pk.raw_encrypt ((35578437056226920 : ℤ) % pk.n) none (rands 2))
          (pk.raw_encrypt ((35578437056226920 : ℤ) % pk.n) none (rands 2)) pk.nsquare,
        -13⟩) hnsq hn1 (gcd_one_mul hs3 hs3) hu3 hk0 hk1
    have hmulv : EncryptedVector.mul_scalar
        ⟨pk.n, pk.nsquare, pk.max_int,
          [mul_mod (pk.raw_encrypt ((15762598695796736 : ℤ) % pk.n) none (rands 0))
             (pk.raw_encrypt ((15762598695796736 : ℤ) % pk.n) none (rands 0)) pk.nsquare,
           mul_mod (pk.raw_encrypt ((9457559217478042 : ℤ) % pk.n) none (rands 1))
             (pk.raw_encrypt ((9457559217478042 : ℤ) % pk.n) none (rands 1)) pk.nsquare,
           mul_mod (pk.raw_encrypt ((35578437056226920 : ℤ) % pk.n) none (rands 2))
             (pk.raw_encrypt ((35578437056226920 : ℤ) % pk.n) none (rands 2)) pk.nsquare],
          -13⟩ ((4 : ℤ) : ℚ) 0
        = some ⟨pk.n, pk.nsquare, pk.max_int, [w1, w2, w3], -13 + 0⟩ := by
      unfold EncryptedVector.mul_scalar
      have henck : EncodedVector.encode pk.n pk.max_int [((4 : ℤ) : ℚ)] 0
          = some ⟨pk.n, pk.max_int, [(4 : ℤ) % pk.n], 0⟩ := by
        have h0 := encode_vec_singleton pk.n pk.max_int ((4 : ℤ) : ℚ) 0
          (by rw [round_int_div_base_zero, abs_of_nonneg (by norm_num)]; linarith)
        rwa [round_int_div_base_zero] at h0
      rw [henck]
      have hm1v : EncryptedVector.raw_mul_2
          ⟨pk.n, pk.nsquare, pk.max_int,
            [mul_mod (pk.raw_encrypt ((15762598695796736 : ℤ) % pk.n) none (rands 0))
               (pk.raw_encrypt ((15762598695796736 : ℤ) % pk.n) none (rands 0)) pk.nsquare,
             mul_mod (pk.raw_encrypt ((9457559217478042 : ℤ) % pk.n) none (rands 1))
               (pk.raw_encrypt ((9457559217478042 : ℤ) % pk.n) none (rands 1)) pk.nsquare,
             mul_mod (pk.raw_encrypt ((35578437056226920 : ℤ) % pk.n) none (rands 2))
               (pk.raw_encrypt ((35578437056226920 : ℤ) % pk.n) none (rands 2))
               pk.nsquare], -13⟩
          (mul_mod (pk.raw_encrypt ((15762598695796736 : ℤ) % pk.n) none (rands 0))
            (pk.raw_encrypt ((15762598695796736 : ℤ) % pk.n) none (rands 0)) pk.nsquare)
          ((4 : ℤ) % pk.n) = some w1 := hm1
      have hm2v : EncryptedVector.raw_mul_2
          ⟨pk.n, pk.nsquare, pk.max_int,
            [mul_mod (pk.raw_encrypt ((15762598695796736 : ℤ) % pk.n) none (rands 0))
               (pk.raw_encrypt ((15762598695796736 : ℤ) % pk.n) none (rands 0)) pk.nsquare,
             mul_mod (pk.raw_encrypt ((9457559217478042 : ℤ) % pk.n) none (rands 1))
               (pk.raw_encrypt ((9457559217478042 : ℤ) % pk.n) none (rands 1)) pk.nsquare,
             mul_mod (pk.raw_encrypt ((35578437056226920 : ℤ) % pk.n) none (rands 2))
               (pk.raw_encrypt ((35578437056226920 : ℤ) % pk.n) none (rands 2))
               pk.nsquare], -13⟩
          (mul_mod (pk.raw_encrypt ((9457559217478042 : ℤ) % pk.n) none (rands 1))
            (pk.raw_encrypt ((9457559217478042 : ℤ) % pk.n) none (rands 1)) pk.nsquare)
          ((4 : ℤ) % pk.n) = some w2 := hm2
      have hm3v : EncryptedVector.raw_mul_2
          ⟨pk.n, pk.nsquare, pk.max_int,
            [mul_mod (pk.raw_encrypt ((15762598695796736 : ℤ) % pk.n) none (rands 0))
               (pk.raw_encrypt ((15762598695796736 : ℤ) % pk.n) none (rands 0)) pk.nsquare,
             mul_mod (pk.raw_encrypt ((9457559217478042 : ℤ) % pk.n) none (rands 1))
               (pk.raw_encrypt ((9457559217478042 : ℤ) % pk.n) none (rands 1)) pk.nsquare,
             mul_mod (pk.raw_encrypt ((35578437056226920 : ℤ) % pk.n) none (rands 2))
               (pk.raw_encrypt ((35578437056226920 : ℤ) % pk.n) none (rands 2))
               pk.nsquare], -13⟩
          (mul_mod (pk.raw_encrypt ((35578437056226920 : ℤ) % pk.n) none (rands 2))
            (pk.raw_encrypt ((35578437056226920 : ℤ) % pk.n) none (rands 2)) pk.nsquare)
          ((4 : ℤ) % pk.n) = some w3 := hm3
      show ([mul_mod (pk.raw_encrypt ((15762598695796736 : ℤ) % pk.n) none (rands 0))
               (pk.raw_encrypt ((15762598695796736 : ℤ) % pk.n) none (rands 0)) pk.nsquare,
             mul_mod (pk.raw_encrypt ((9457559217478042 : ℤ) % pk.n) none (rands 1))
               (pk.raw_encrypt ((9457559217478042 : ℤ) % pk.n) none (rands 1)) pk.nsquare,
             mul_mod (pk.raw_encrypt ((35578437056226920 : ℤ) % pk.n) none (rands 2))
               (pk.raw_encrypt ((35578437056226920 : ℤ) % pk.n) none (rands 2))
               pk.nsquare].mapM fun c =>
          EncryptedVector.raw_mul_2
            ⟨pk.n, pk.nsquare, pk.max_int,
              [mul_mod (pk.raw_encrypt ((15762598695796736 : ℤ) % pk.n) none (rands 0))
                 (pk.raw_encrypt ((15762598695796736 : ℤ) % pk.n) none (rands 0))
                 pk.nsquare,
               mul_mod (pk.raw_encrypt ((9457559217478042 : ℤ) % pk.n) none (rands 1))
                 (pk.raw_encrypt ((9457559217478042 : ℤ) % pk.n) none (rands 1))
                 pk.nsquare,
               mul_mod (pk.raw_encrypt ((35578437056226920 : ℤ) % pk.n) none (rands 2))
                 (pk.raw_encrypt ((35578437056226920 : ℤ) % pk.n) none (rands 2))
                 pk.nsquare], -13⟩
            c ((4 : ℤ) % pk.n)).bind
          (fun product =>
            some (⟨pk.n, pk.nsquare, pk.max_int, product, -13 + 0⟩ : EncryptedVector))
        = some (⟨pk.n, pk.nsquare, pk.max_int, [w1, w2, w3], -13 + 0⟩ : EncryptedVector)
      rw [List.mapM_cons, List.mapM_cons, List.mapM_cons, List.mapM_nil,
        hm1v, hm2v, hm3v]
      rfl
    show (EncryptedVector.mul_scalar
        ⟨pk.n, pk.nsquare, pk.max_int,
          [mul_mod (pk.raw_encrypt ((15762598695796736 : ℤ) % pk.n) none (rands 0))
             (pk.raw_encrypt ((15762598695796736 : ℤ) % pk.n) none (rands 0)) pk.nsquare,
           mul_mod (pk.raw_encrypt ((9457559217478042 : ℤ) % pk.n) none (rands 1))
             (pk.raw_encrypt ((9457559217478042 : ℤ) % pk.n) none (rands 1)) pk.nsquare,
           mul_mod (pk.raw_encrypt ((35578437056226920 : ℤ) % pk.n) none (rands 2))
             (pk.raw_encrypt ((35578437056226920 : ℤ) % pk.n) none (rands 2)) pk.nsquare],
          -13⟩ ((4 : ℤ) : ℚ) 0).bind (fun ev3 => sk.decrypt_new ev3)
      = some [(28 : ℚ), (4728779608739021 / 281474976710656 : ℚ),
              (4447304632028365 / 70368744177664 : ℚ)]
    rw [hmulv]
    have hXw1 : ((Mw1 : ℕ) : ℤ)
        ≡ ((15762598695796736 : ℤ) + 15762598695796736) * 4 [ZMOD pk.n] :=
      hMw1.trans (hX1.mul (Int.mod_modEq 4 pk.n))
    have hXw2 : ((Mw2 : ℕ) : ℤ)
        ≡ ((9457559217478042 : ℤ) + 9457559217478042) * 4 [ZMOD pk.n] :=
      hMw2.trans (hX2.mul (Int.mod_modEq 4 pk.n))
    have hXw3 : ((Mw3 : ℕ) : ℤ)
        ≡ ((35578437056226920 : ℤ) + 35578437056226920) * 4 [ZMOD pk.n] :=
      hMw3.trans (hX3.mul (Int.mod_modEq 4 pk.n))
    have habsw1 : |((15762598695796736 : ℤ) + 15762598695796736) * 4| ≤ pk.max_int := by
      rw [abs_of_nonneg (by norm_num)]; linarith
    have habsw2 : |((9457559217478042 : ℤ) + 9457559217478042) * 4| ≤ pk.max_int := by
      rw [abs_of_nonneg (by norm_num)]; linarith
    have habsw3 : |((35578437056226920 : ℤ) + 35578437056226920) * 4| ≤ pk.max_int := by
      rw [abs_of_nonneg (by norm_num)]; linarith
    have hdw1 := decode_decrypt_elt hp hq hp1 hq1 hpq hn hg hmi0 hmi2 hskeq
      habsw1 hXw1 hgw1 hfw1 (-13 + 0 : ℤ)
    have hdw2 := decode_decrypt_elt hp hq hp1 hq1 hpq hn hg hmi0 hmi2 hskeq
      habsw2 hXw2 hgw2 hfw2 (-13 + 0 : ℤ)
    have hdw3 := decode_decrypt_elt hp hq hp1 hq1 hpq hn hg hmi0 hmi2 hskeq
      habsw3 hXw3 hgw3 hfw3 (-13 + 0 : ℤ)
    show sk.decrypt_new ⟨pk.n, pk.nsquare, pk.max_int, [w1, w2, w3], -13 + 0⟩
      = some [(28 : ℚ), (4728779608739021 / 281474976710656 : ℚ),
              (4447304632028365 / 70368744177664 : ℚ)]
    unfold PaillierPrivateKey.decrypt_new PaillierPrivateKey.decrypt_encoded_new
    rw [mk_private_public hskeq]
    rw [if_neg (fun hcon => hcon rfl)]
    show (EncodedVector.decode ⟨pk.n, pk.max_int, _, (-13 + 0 : ℤ)⟩) = _
    unfold EncodedVector.decode
    show ([sk.raw_decrypt w1, sk.raw_decrypt w2, sk.raw_decrypt w3].mapM fun enc =>
        EncodedNumber.decode ⟨pk.n, pk.max_int, enc, (-13 + 0 : ℤ)⟩) = _
    rw [List.mapM_cons, List.mapM_cons, List.mapM_cons, List.mapM_nil,
      hdw1, hdw2, hdw3]
    with_unfolding_all rfl

theorem noDivAux_sound (n : ℕ) : ∀ f lo len, 0 < lo →
    noDivAux n f lo len = true → ∀ d, lo ≤ d → d < lo + len → ¬ d ∣ n := by
  intro f
  induction f with
  | zero =>
    intro lo len _ h
    exact absurd h (by simp [noDivAux])
  | succ f ih =>
    intro lo len hlo h d hd1 hd2
    rw [noDivAux] at h
    by_cases h0 : len = 0
    · rw [if_pos h0] at h
      omega
    · rw [if_neg h0] at h
      by_cases h1 : len = 1
      · rw [if_pos h1] at h
        have hd : d = lo := by omega
        subst hd
        intro hdvd
        have hne : n % d ≠ 0 := by simpa using h
        exact hne (Nat.mod_eq_zero_of_dvd hdvd)
      · rw [if_neg h1] at h
        rw [Bool.and_eq_true] at h
        by_cases hsplit : d < lo + len / 2
        · exact ih lo (len / 2) hlo h.1 d hd1 hsplit
        · exact ih (lo + len / 2) (len - len / 2) (by omega) h.2 d (by omega) (by omega)

/-- trial division up to `b` with `b² > n` certifies primality -/
theorem prime_of_noDiv {n b : ℕ} (h2 : 2 ≤ n) (hb : n < b * b)
    (h : noDivAux n 64 2 (b - 2) = true) : Nat.Prime n := by
  have hnd := noDivAux_sound n 64 2 (b - 2) (by omega) h
  have hb2 : 2 ≤ b := by nlinarith
  rw [Nat.prime_def_lt']
  refine ⟨h2, fun m hm2 hmn hmdvd => ?_⟩
  obtain ⟨k, hk⟩ := id hmdvd
  have hk2 : 1 < k := by
    rcases Nat.lt_or_ge k 2 with hlt | hge
    · interval_cases k <;> omega
    · omega
  have hkdvd : k ∣ n := ⟨m, by rw [hk]; ring⟩
  rcases Nat.lt_or_ge m b with hmb | hmb
  · exact absurd hmdvd (hnd m hm2 (by omega))
  · have hkb : k < b := by nlinarith
    exact absurd hkdvd (hnd k (by omega) (by omega))

set_option maxRecDepth 40000 in
set_option maxHeartbeats 8000000 in
theorem prime_int_1073741827 : Prime (1073741827 : ℤ) := by
  exact_mod_cast Nat.prime_iff_prime_int.mp
    (prime_of_noDiv (by norm_num) (by norm_num : (1073741827 : ℕ) < 32769 * 32769)
      (by decide))

set_option maxRecDepth 40000 in
set_option maxHeartbeats 8000000 in
theorem prime_int_1073741857 : Prime (1073741857 : ℤ) := by
  exact_mod_cast Nat.prime_iff_prime_int.mp
    (prime_of_noDiv (by norm_num) (by norm_num : (1073741857 : ℕ) < 32769 * 32769)
      (by decide))

/-- concrete instance of claim C4: the demo run under the 60-bit keypair
`p = 1073741827, q = 1073741857` (whose `max_int` exceeds every mantissa
that arises) -/
theorem claim_C4_witness :
    ((PaillierPrivateKey.mk'
        (PaillierPublicKey.mk' (1073741827 * 1073741857) none 60 3)
        1073741827 1073741857).bind fun sk =>
      ((PaillierPublicKey.mk' (1073741827 * 1073741857) none 60 3).encrypt_new
          [(7 / 2 : ℚ), (4728779608739021 / 2251799813685248 : ℚ),
           (4447304632028365 / 562949953421312 : ℚ)] (-13) (fun _ => ⟨[], 2⟩)).bind
        fun ev => (ev.add_encrypted ev).bind fun ev2 => sk.decrypt_new ev2)
      = some [(7 : ℚ), (4728779608739021 / 1125899906842624 : ℚ),
              (4447304632028365 / 281474976710656 : ℚ)]
    ∧ ((PaillierPrivateKey.mk'
        (PaillierPublicKey.mk' (1073741827 * 1073741857) none 60 3)
        1073741827 1073741857).bind fun sk =>
      ((PaillierPublicKey.mk' (1073741827 * 1073741857) none 60 3).encrypt_new
          [(7 / 2 : ℚ), (4728779608739021 / 2251799813685248 : ℚ),
           (4447304632028365 / 562949953421312 : ℚ)] (-13) (fun _ => ⟨[], 2⟩)).bind
        fun ev => (ev.add_encrypted ev).bind fun ev2 =>
          (ev2.mul_scalar ((4 : ℤ) : ℚ) 0).bind fun ev3 => sk.decrypt_new ev3)
      = some [(28 : ℚ), (4728779608739021 / 281474976710656 : ℚ),
              (4447304632028365 / 70368744177664 : ℚ)] :=
  claim_C4_vector_demo
    (p := 1073741827) (q := 1073741857)
    prime_int_1073741827 prime_int_1073741857
    (by norm_num) (by norm_num) (by norm_num)
    none 60 3 (fun _ => ⟨[], 2⟩)
    (by intro ct hct; simp [PaillierPublicKey.table, PaillierPublicKey.mk'] at hct)
    (fun _ => (⟨fun _ => by decide, fun i hi => absurd hi (List.not_mem_nil i)⟩ :
      GoodRand (PaillierPublicKey.mk' (1073741827 * 1073741857) none 60 3) ⟨[], 2⟩))
    (by decide)

set_option maxRecDepth 1000000 in
set_option maxHeartbeats 16000000 in
/-- counterexample to claim C4 as stated: running the demo's second stage
concretely (keypair `p = 1073741827, q = 1073741857`, fresh base `2`), the
decryption after multiplying the doubled vector by `4` evaluates to
`[28, 16.8, 63.2]` — its first component is `28`, not the `14.0` the claim
asserts (`[14.0, 8.4, 31.6]` being 4× the originals, whereas the program
computes 8×) -/
theorem claim_C4_counterexample :
    ((PaillierPrivateKey.mk'
        (PaillierPublicKey.mk' (1073741827 * 1073741857) none 60 3)
        1073741827 1073741857).bind fun sk =>
      ((PaillierPublicKey.mk' (1073741827 * 1073741857) none 60 3).encrypt_new
          [(7 / 2 : ℚ), (4728779608739021 / 2251799813685248 : ℚ),
           (4447304632028365 / 562949953421312 : ℚ)] (-13) (fun _ => ⟨[], 2⟩)).bind
        fun ev => (ev.add_encrypted ev).bind fun ev2 =>
          (ev2.mul_scalar ((4 : ℤ) : ℚ) 0).bind fun ev3 => sk.decrypt_new ev3)
      = some [(28 : ℚ), (4728779608739021 / 281474976710656 : ℚ),
              (4447304632028365 / 70368744177664 : ℚ)]
    ∧ (28 : ℚ) ≠ (14 : ℚ) := by
  refine ⟨?_, by norm_num⟩
  with_unfolding_all rfl

/-- counterexample to claim C7 as stated: with the keypair `p = 5, q = 7`
(so `max_int = 10`) and a freshly encrypted `1` at exponent `0`, asking for
the smaller exponent `-1` fails (the rescaling factor `16` exceeds
`max_int`) instead of returning an equivalent ciphertext at exponent
`-1` -/
theorem claim_C7_counterexample :
    ((PaillierPublicKey.mk' (5 * 7) none 6 3).encrypt ((1 : ℤ) : ℚ) 0 none ⟨[], 2⟩).bind
      (fun ct => ct.decrease_exponent_to (-1)) = none := by
  with_unfolding_all rfl

/-- concrete instance of claim C7 (amended): keypair `p = 7, q = 11`
(`max_int = 24`), value `1`, decrease from exponent `0` to `-1` -/
theorem claim_C7_witness :
    (((PaillierPrivateKey.mk' (PaillierPublicKey.mk' (7 * 11) none 7 3) 7 11).bind fun sk =>
      ((PaillierPublicKey.mk' (7 * 11) none 7 3).encrypt ((1 : ℤ) : ℚ) 0 none ⟨[], 2⟩).bind
        fun ct =>
        (ct.decrease_exponent_to (-((1 : ℕ) : ℤ))).bind fun ct2 =>
          some (ct2.exponent, sk.decrypt ct2))
      = some ((-((1 : ℕ) : ℤ)), some ((1 : ℤ) : ℚ)))
    ∧ (((PaillierPrivateKey.mk' (PaillierPublicKey.mk' (7 * 11) none 7 3) 7 11).bind fun sk =>
      ((PaillierPublicKey.mk' (7 * 11) none 7 3).encrypt_new [((1 : ℤ) : ℚ)] 0
          (fun _ => ⟨[], 2⟩)).bind fun ev =>
        (ev.decrease_exponent_to (-((1 : ℕ) : ℤ))).bind fun ev2 =>
          some (ev2.exponent, sk.decrypt_new ev2))
      = some ((-((1 : ℕ) : ℤ)), some [((1 : ℤ) : ℚ)])) :=
  ⟨(claim_C7_decrease_exponent_to
    (p := 7) (q := 11)
    (by norm_num) (by norm_num) (by norm_num) (by norm_num) (by norm_num)
    none 7 3 none ⟨[], 2⟩ (fun _ => ⟨[], 2⟩)
    (by intro ct hct; simp [PaillierPublicKey.table, PaillierPublicKey.mk'] at hct)
    ⟨fun _ => by decide, fun i hi => absurd hi (List.not_mem_nil i)⟩
    (fun _ => (⟨fun _ => by decide, fun i hi => absurd hi (List.not_mem_nil i)⟩ :
      GoodRand (PaillierPublicKey.mk' (7 * 11) none 7 3) ⟨[], 2⟩))
    1 1 (by decide) (by decide) (by decide)).2.2.1,
  (claim_C7_decrease_exponent_to
    (p := 7) (q := 11)
    (by norm_num) (by norm_num) (by norm_num) (by norm_num) (by norm_num)
    none 7 3 none ⟨[], 2⟩ (fun _ => ⟨[], 2⟩)
    (by intro ct hct; simp [PaillierPublicKey.table, PaillierPublicKey.mk'] at hct)
    ⟨fun _ => by decide, fun i hi => absurd hi (List.not_mem_nil i)⟩
    (fun _ => (⟨fun _ => by decide, fun i hi => absurd hi (List.not_mem_nil i)⟩ :
      GoodRand (PaillierPublicKey.mk' (7 * 11) none 7 3) ⟨[], 2⟩))
    1 1 (by decide) (by decide) (by decide)).2.2.2⟩

end Phe
